import Mathlib

/-!
Policy evaluation benchmark: classic and extended formalism.

A shallow embedding of `classic_formalism.c` and `extended_formalism_ff.c`.

Modelling conventions.

* Sizes and loop indices (`num_policies`, `states_per_policy`, `num_states`, `i`, `s`,
  `attempts`) are natural numbers; the flags `is_context`, `is_invalid`, `is_mandatory`,
  `stop_all`, and the values `target_mode`, `to_invalidate`, are integers, so that the
  difference between `x == 1`, `x == 0` and the truth value of `x` stays visible.
  Arithmetic is exact: the theorems speak about runs without signed overflow.
* A `double` is an exact rational and `(int)x` truncates toward zero.  The functions that
  compute a threshold or a quota from a product with a `double` are given a second time in
  the namespaces `Classic.Binary64` and `Extended.Binary64`, with the product rounded as
  the machine rounds it and the range of `int` observed; see the section on `int` and
  `double` as the machine has them.
* `rand()` is a sequence `rand : Nat → Nat` of non-negative values fixed by `srand(seed)`,
  together with a cursor counting the calls made so far.
* An array is a list.  An access outside the list, or a remainder by zero, is undefined
  behaviour and makes the embedded function return `none`.
* A `for` loop whose index is only changed by its increment is a recursion on the number of
  iterations left; the `while` loop of `apply_invalidation_extended` keeps its condition
  and runs on fuel, where running out of fuel is `none` as well.
-/

/-- The values returned by the successive calls of `rand()`. -/
abbrev RandSeq := Nat → Nat

/-- The conversion `(int)x` of a double: truncation toward zero. -/
def c_double_to_int (x : ℚ) : Int := Int.tdiv x.num x.den

/-- The reduction `reduction(+:invalid_count)`: the private counters are added up; there is
no sum when one of the threads ran into undefined behaviour. -/
def omp_reduce_sum : List (Option Nat) → Option Nat
  | [] => some 0
  | none :: _ => none
  | some a :: xs => (omp_reduce_sum xs).map (fun b => a + b)

/-! ## The classic engine (`classic_formalism.c`) -/

namespace Classic

structure RemarkableState where
  is_context : Int
  is_invalid : Int
deriving DecidableEq, Repr

structure Policy where
  num_states : Nat
  states : List RemarkableState
deriving DecidableEq, Repr

/-- The machine state of a sequential evaluation: the local `invalid_count`, the number
of `rand()` calls made so far, and the calls of `evaluate_state` made so far, each recorded
as (policy index, state index), oldest first. -/
structure EvalState where
  invalid_count : Nat
  rand_calls : Nat
  trace : List (Nat × Nat)
deriving DecidableEq, Repr

/-- The function `evaluate_state`: the argument given to `usleep`, in microseconds, and the
`rand()` cursor afterwards. -/
def evaluate_state (rand : RandSeq) (c : Nat) (st : RemarkableState) : Nat × Nat :=
  if st.is_context ≠ 0 then ((1 + rand c % 10) * 1000, c + 1) else (10, c)

/-- The inner loop of `evaluate_policies_classic_seq` on policy `i`, with `k` iterations
left and index `s`. -/
def classic_seq_inner (rand : RandSeq) (p : Policy) (i : Nat) :
    Nat → Nat → EvalState → Option EvalState
  | 0, _, σ => some σ
  | k + 1, s, σ =>
    match p.states[s]? with
    | none => none
    | some st =>
      let σ1 : EvalState :=
        { σ with rand_calls := (evaluate_state rand σ.rand_calls st).2,
                 trace := σ.trace ++ [(i, s)] }
      let σ2 : EvalState :=
        if st.is_invalid ≠ 0 then { σ1 with invalid_count := σ1.invalid_count + 1 } else σ1
      classic_seq_inner rand p i k (s + 1) σ2

/-- The outer loop of `evaluate_policies_classic_seq`, with `k` iterations left and
index `i`. -/
def classic_seq_outer (rand : RandSeq) (policies : List Policy) :
    Nat → Nat → EvalState → Option EvalState
  | 0, _, σ => some σ
  | k + 1, i, σ =>
    match policies[i]? with
    | none => none
    | some p =>
      match classic_seq_inner rand p i p.num_states 0 σ with
      | none => none
      | some σ1 => classic_seq_outer rand policies k (i + 1) σ1

/-- The function `evaluate_policies_classic_seq`; the value returned by the C function is
the field `invalid_count` of the result. -/
def evaluate_policies_classic_seq (policies : List Policy) (num_policies : Nat)
    (rand : RandSeq) (c : Nat) : Option EvalState :=
  classic_seq_outer rand policies num_policies 0
    { invalid_count := 0, rand_calls := c, trace := [] }

/-- The inner loop of `evaluate_policies_classic_par` on one policy, adding to the private
counter `cnt` of the executing thread. -/
def classic_par_inner (p : Policy) : Nat → Nat → Nat → Option Nat
  | 0, _, cnt => some cnt
  | k + 1, s, cnt =>
    match p.states[s]? with
    | none => none
    | some st => classic_par_inner p k (s + 1) (if st.is_invalid ≠ 0 then cnt + 1 else cnt)

/-- One thread of `evaluate_policies_classic_par`: it runs the loop body for the policy
indices it was given, in the order given, on its private counter. -/
def classic_par_worker (policies : List Policy) : List Nat → Nat → Option Nat
  | [], cnt => some cnt
  | i :: rest, cnt =>
    match policies[i]? with
    | none => none
    | some p =>
      match classic_par_inner p p.num_states 0 cnt with
      | none => none
      | some cnt1 => classic_par_worker policies rest cnt1

/-- The function `evaluate_policies_classic_par`.  `assignment` lists, for each thread, the
iterations of the `parallel for` the runtime gave to it; every private counter starts at 0
and the counters are added at the end.  Built without OpenMP the pragma is ignored, which is
the assignment `[List.range num_policies]`. -/
def evaluate_policies_classic_par (policies : List Policy) (_num_policies : Nat)
    (assignment : List (List Nat)) : Option Nat :=
  omp_reduce_sum (assignment.map (fun chunk => classic_par_worker policies chunk 0))

/-- An assignment the runtime may choose: every iteration `0 .. num_policies - 1` is given
to exactly one thread, exactly once. -/
def ValidAssignment (num_policies : Nat) (assignment : List (List Nat)) : Prop :=
  List.Perm assignment.flatten (List.range num_policies)

/-- The inner loop of `init_classic_policies`: the `k` states still to be filled. -/
def init_classic_states (rand : RandSeq) : Nat → Nat → List RemarkableState × Nat
  | 0, c => ([], c)
  | k + 1, c =>
    let r := init_classic_states rand k (c + 1)
    ({ is_context := if rand c % 100 < 50 then 1 else 0, is_invalid := 0 } :: r.1, r.2)

/-- The outer loop of `init_classic_policies`: the `k` policies still to be filled. -/
def init_classic_outer (rand : RandSeq) (states_per_policy : Nat) :
    Nat → Nat → List Policy × Nat
  | 0, c => ([], c)
  | k + 1, c =>
    let st := init_classic_states rand states_per_policy c
    let r := init_classic_outer rand states_per_policy k st.2
    ({ num_states := states_per_policy, states := st.1 } :: r.1, r.2)

/-- The function `init_classic_policies`: the population and the `rand()` cursor
afterwards. -/
def init_classic_policies (num_policies states_per_policy : Nat) (rand : RandSeq) (c : Nat) :
    List Policy × Nat :=
  init_classic_outer rand states_per_policy num_policies c

/-- The store `policies[pi].states[si].is_invalid = 1`. -/
def store_invalid (policies : List Policy) (pi si : Nat) : Option (List Policy) :=
  match policies[pi]? with
  | none => none
  | some p =>
    match p.states[si]? with
    | none => none
    | some st =>
      some (policies.set pi { p with states := p.states.set si { st with is_invalid := 1 } })

/-- The loop of `apply_invalidation_classic`, with `k` iterations left. -/
def invalidation_loop (rand : RandSeq) (num_policies states_per_policy : Nat) :
    Nat → List Policy → Nat → Option (List Policy × Nat)
  | 0, policies, c => some (policies, c)
  | k + 1, policies, c =>
    if num_policies = 0 ∨ states_per_policy = 0 then none
    else
      let pi := rand c % num_policies
      let si := rand (c + 1) % states_per_policy
      match store_invalid policies pi si with
      | none => none
      | some policies1 => invalidation_loop rand num_policies states_per_policy k policies1 (c + 2)

/-- The function `apply_invalidation_classic`: the population and the `rand()` cursor
afterwards. -/
def apply_invalidation_classic (policies : List Policy) (num_policies states_per_policy : Nat)
    (inval_rate : ℚ) (rand : RandSeq) (c : Nat) : Option (List Policy × Nat) :=
  let total_states := num_policies * states_per_policy
  let to_invalidate := c_double_to_int ((total_states : ℚ) * inval_rate)
  invalidation_loop rand num_policies states_per_policy to_invalidate.toNat policies c

/-- The function `main` after argument parsing, from `srand(seed)` on: the `InvalidCount`
field of the CSV row.  `rand` is the sequence selected by the seed and `assignment` is what
the OpenMP runtime does with the requested schedule in `Par` mode. -/
def main (num_policies states_per_policy : Nat) (inval_rate : ℚ) (mode : String)
    (_schedule_str : String) (rand : RandSeq) (assignment : List (List Nat)) : Option Nat :=
  let pol := init_classic_policies num_policies states_per_policy rand 0
  match apply_invalidation_classic pol.1 num_policies states_per_policy inval_rate rand pol.2 with
  | none => none
  | some r =>
    if mode = "Seq" then
      (evaluate_policies_classic_seq r.1 num_policies rand r.2).map (fun σ => σ.invalid_count)
    else evaluate_policies_classic_par r.1 num_policies assignment

end Classic

/-! ## The extended engine (`extended_formalism_ff.c`) -/

namespace Extended

inductive SubsetType where
  | SUBSET_CPU
  | SUBSET_MEMORY
  | SUBSET_NETWORK
deriving DecidableEq, Repr

structure RemarkableState where
  is_context : Int
  is_invalid : Int
  subset : SubsetType
deriving DecidableEq, Repr

structure Policy where
  num_states : Nat
  states : List RemarkableState
  is_mandatory : Int
deriving DecidableEq, Repr

/-- The machine state of a sequential evaluation: the local `invalid_count`, the global
`stop_all`, the number of `rand()` calls made so far, the number of times the statement
`stop_all = 1` was executed, and the calls of `evaluate_state` made so far, each recorded as
(policy index, state index), oldest first. -/
structure EvalState where
  invalid_count : Nat
  stop_all : Int
  rand_calls : Nat
  stop_writes : Nat
  trace : List (Nat × Nat)
deriving DecidableEq, Repr

/-- The function `evaluate_state`: the argument given to `usleep`, in microseconds, and the
`rand()` cursor afterwards. -/
def evaluate_state (rand : RandSeq) (c : Nat) (st : RemarkableState) : Nat × Nat :=
  if st.is_context ≠ 0 then ((1 + rand c % 10) * 1000, c + 1) else (10, c)

/-- The inner loop of `evaluate_policies_extended_sequential` on policy `i`, with `k`
iterations left and index `s`. -/
def extended_seq_inner (rand : RandSeq) (p : Policy) (i : Nat) :
    Nat → Nat → EvalState → Option EvalState
  | 0, _, σ => some σ
  | k + 1, s, σ =>
    if σ.stop_all ≠ 0 then some σ
    else
      match p.states[s]? with
      | none => none
      | some st =>
        let σ1 : EvalState :=
          { σ with rand_calls := (evaluate_state rand σ.rand_calls st).2,
                   trace := σ.trace ++ [(i, s)] }
        let σ2 : EvalState :=
          if st.is_invalid ≠ 0 then
            if p.is_mandatory ≠ 0 then
              { σ1 with invalid_count := σ1.invalid_count + 1, stop_all := 1,
                        stop_writes := σ1.stop_writes + 1 }
            else { σ1 with invalid_count := σ1.invalid_count + 1 }
          else σ1
        extended_seq_inner rand p i k (s + 1) σ2

/-- The outer loop of `evaluate_policies_extended_sequential`, with `k` iterations left
and index `i`. -/
def extended_seq_outer (rand : RandSeq) (policies : List Policy) :
    Nat → Nat → EvalState → Option EvalState
  | 0, _, σ => some σ
  | k + 1, i, σ =>
    if σ.stop_all ≠ 0 then some σ
    else
      match policies[i]? with
      | none => none
      | some p =>
        match extended_seq_inner rand p i p.num_states 0 σ with
        | none => none
        | some σ1 => extended_seq_outer rand policies k (i + 1) σ1

/-- The function `evaluate_policies_extended_sequential`.  `_stop_all` is the value the
global holds on entry, overwritten by `stop_all = 0`; the value returned by the C function
is the field `invalid_count` of the result. -/
def evaluate_policies_extended_sequential (policies : List Policy) (num_policies : Nat)
    (rand : RandSeq) (c : Nat) (_stop_all : Int) : Option EvalState :=
  extended_seq_outer rand policies num_policies 0
    { invalid_count := 0, stop_all := 0, rand_calls := c, stop_writes := 0, trace := [] }

/-- The inner loop of `evaluate_policies_extended_parallel` on one policy, with `k`
iterations left, index `s`, the local `stop_policy` and the contribution `cnt` of this
iteration of the `parallel for` to `invalid_count`.  `reads s 0` is the value of the shared
`stop_all` seen by the loop condition before state `s`, and `reads s 1` the value seen by
`if (stop_all) break;`. -/
def extended_par_inner (p : Policy) (reads : Nat → Nat → Int) :
    Nat → Nat → Int → Nat → Option Nat
  | 0, _, _, cnt => some cnt
  | k + 1, s, stop_policy, cnt =>
    if stop_policy ≠ 0 then some cnt
    else if reads s 0 ≠ 0 then some cnt
    else if reads s 1 ≠ 0 then some cnt
    else
      match p.states[s]? with
      | none => none
      | some st =>
        if st.is_invalid ≠ 0 then
          if p.is_mandatory ≠ 0 then extended_par_inner p reads k (s + 1) 1 (cnt + 1)
          else extended_par_inner p reads k (s + 1) stop_policy (cnt + 1)
        else extended_par_inner p reads k (s + 1) stop_policy cnt

/-- The iterations `i, i + 1, ..` of the `parallel for` of
`evaluate_policies_extended_parallel`, `k` of them, each with its own contribution. -/
def extended_par_outer (policies : List Policy) (reads : Nat → Nat → Nat → Int) :
    Nat → Nat → List (Option Nat)
  | 0, _ => []
  | k + 1, i =>
    (match policies[i]? with
     | none => none
     | some p => extended_par_inner p (reads i) p.num_states 0 0 0)
      :: extended_par_outer policies reads k (i + 1)

/-- The function `evaluate_policies_extended_parallel`.  `openmp` tells whether `_OPENMP`
is defined.  `reads i s j` is the value which the `j`-th read of the shared flag in the
iteration for state `s` of policy `i` returns; it stands for the thread assignment and the
interleaving chosen by the runtime.  The contributions are added by the reduction. -/
def evaluate_policies_extended_parallel (openmp : Bool) (policies : List Policy)
    (num_policies : Nat) (reads : Nat → Nat → Nat → Int) : Option Nat :=
  if openmp then omp_reduce_sum (extended_par_outer policies reads num_policies 0)
  else some 0

/-- The inner loop of `init_extended_policies`: the `k` states still to be filled. -/
def init_extended_states (rand : RandSeq) : Nat → Nat → List RemarkableState × Nat
  | 0, c => ([], c)
  | k + 1, c =>
    let r := rand (c + 1) % 3
    let rest := init_extended_states rand k (c + 2)
    ({ is_context := if rand c % 100 < 50 then 1 else 0,
       is_invalid := 0,
       subset := if r = 0 then SubsetType.SUBSET_CPU
                 else if r = 1 then SubsetType.SUBSET_MEMORY
                 else SubsetType.SUBSET_NETWORK } :: rest.1, rest.2)

/-- The outer loop of `init_extended_policies`: the `k` policies still to be filled,
from index `i` on. -/
def init_extended_outer (rand : RandSeq) (states_per_policy : Nat) (mandatory_thresh : Int) :
    Nat → Nat → Nat → List Policy × Nat
  | 0, _, c => ([], c)
  | k + 1, i, c =>
    let st := init_extended_states rand states_per_policy c
    let r := init_extended_outer rand states_per_policy mandatory_thresh k (i + 1) st.2
    ({ num_states := states_per_policy, states := st.1,
       is_mandatory := if (i : Int) < mandatory_thresh then 1 else 0 } :: r.1, r.2)

/-- The function `init_extended_policies`: the population and the `rand()` cursor
afterwards. -/
def init_extended_policies (num_policies states_per_policy : Nat) (mandatory_ratio : ℚ)
    (rand : RandSeq) (c : Nat) : List Policy × Nat :=
  let mandatory_thresh := c_double_to_int ((num_policies : ℚ) * mandatory_ratio)
  init_extended_outer rand states_per_policy mandatory_thresh num_policies 0 c

/-- The store `policies[pi].states[si].is_invalid = 1`. -/
def store_invalid (policies : List Policy) (pi si : Nat) : Option (List Policy) :=
  match policies[pi]? with
  | none => none
  | some p =>
    match p.states[si]? with
    | none => none
    | some st =>
      some (policies.set pi { p with states := p.states.set si { st with is_invalid := 1 } })

/-- The variables of `apply_invalidation_extended` that change in its loop. -/
structure InvalState where
  policies : List Policy
  to_invalidate : Int
  attempts : Nat
  rand_calls : Nat
deriving DecidableEq, Repr

/-- One pass through the body of the `while` loop of `apply_invalidation_extended`; the
`continue` ends the pass. -/
def invalidation_body (rand : RandSeq) (num_policies : Nat) (target_mode : Int)
    (σ : InvalState) : Option InvalState :=
  if num_policies = 0 then none
  else
    let pi := rand σ.rand_calls % num_policies
    match σ.policies[pi]? with
    | none => none
    | some p =>
      if (target_mode = 1 ∧ p.is_mandatory = 0) ∨
          (target_mode = -1 ∧ p.is_mandatory = 1) then
        some { σ with attempts := σ.attempts + 1, rand_calls := σ.rand_calls + 1 }
      else if p.num_states = 0 then none
      else
        let si := rand (σ.rand_calls + 1) % p.num_states
        match p.states[si]? with
        | none => none
        | some st =>
          if st.is_invalid = 0 then
            match store_invalid σ.policies pi si with
            | none => none
            | some policies1 =>
              some { policies := policies1, to_invalidate := σ.to_invalidate - 1,
                     attempts := σ.attempts + 1, rand_calls := σ.rand_calls + 2 }
          else some { σ with attempts := σ.attempts + 1, rand_calls := σ.rand_calls + 2 }

/-- The `while` loop of `apply_invalidation_extended`: its condition is tested `fuel`
times at most. -/
def invalidation_loop (rand : RandSeq) (num_policies total_states : Nat) (target_mode : Int) :
    Nat → InvalState → Option InvalState
  | 0, _ => none
  | fuel + 1, σ =>
    if σ.to_invalidate > 0 ∧ σ.attempts < total_states * 10 then
      match invalidation_body rand num_policies target_mode σ with
      | none => none
      | some σ1 => invalidation_loop rand num_policies total_states target_mode fuel σ1
    else some σ

/-- The state in which `apply_invalidation_extended` enters its loop. -/
def invalidation_start (policies : List Policy) (num_policies states_per_policy : Nat)
    (inval_rate : ℚ) (c : Nat) : InvalState :=
  let total_states := num_policies * states_per_policy
  { policies := policies,
    to_invalidate := c_double_to_int ((total_states : ℚ) * inval_rate),
    attempts := 0, rand_calls := c }

/-- The function `apply_invalidation_extended`: the variables at the exit of the loop.
The loop makes at most `total_states * 10` passes, so `total_states * 10 + 1` tests of its
condition are enough fuel. -/
def apply_invalidation_extended (policies : List Policy) (num_policies states_per_policy : Nat)
    (inval_rate : ℚ) (target_mode : Int) (rand : RandSeq) (c : Nat) : Option InvalState :=
  invalidation_loop rand num_policies (num_policies * states_per_policy) target_mode
    (num_policies * states_per_policy * 10 + 1)
    (invalidation_start policies num_policies states_per_policy inval_rate c)

/-- The function `main` after argument parsing, from `srand(seed)` on: the `InvalidCount`
field of the CSV row.  `rand` is the sequence selected by the seed; `openmp` and `reads`
are as in `evaluate_policies_extended_parallel`. -/
def main (num_policies states_per_policy : Nat) (inval_rate mandatory_ratio : ℚ)
    (target_mode : Int) (mode : String) (_schedule_str : String) (rand : RandSeq)
    (openmp : Bool) (reads : Nat → Nat → Nat → Int) : Option Nat :=
  let pol := init_extended_policies num_policies states_per_policy mandatory_ratio rand 0
  match apply_invalidation_extended pol.1 num_policies states_per_policy inval_rate
      target_mode rand pol.2 with
  | none => none
  | some r =>
    if mode = "Seq" then
      (evaluate_policies_extended_sequential r.policies num_policies rand r.rand_calls 0).map
        (fun σ => σ.invalid_count)
    else evaluate_policies_extended_parallel openmp r.policies num_policies reads

end Extended

/-! ## Vocabulary of the specification -/

/-- The cells `(i, s), (i, s + 1), ..`, `k` of them. -/
def policy_cells (i s k : Nat) : List (Nat × Nat) :=
  (List.range' s k).map (fun s1 => (i, s1))

/-- The cells of the policies `i, i + 1, ..` whose numbers of states are `sizes`, in policy
order and then state order. -/
def cells_from : Nat → List Nat → List (Nat × Nat)
  | _, [] => []
  | i, n :: sizes => policy_cells i 0 n ++ cells_from (i + 1) sizes

/-- The prefix of a list up to and including its first element that satisfies `q`; the
whole list when no element does. -/
def take_until {α : Type} (q : α → Bool) : List α → List α
  | [] => []
  | a :: l => if q a then [a] else a :: take_until q l

namespace Classic

/-- The population matches its declared sizes: `num_policies` policies, and `num_states`
states in each. -/
def WellFormed (policies : List Policy) (num_policies : Nat) : Prop :=
  policies.length = num_policies ∧ ∀ p ∈ policies, p.states.length = p.num_states

instance (policies : List Policy) (num_policies : Nat) :
    Decidable (WellFormed policies num_policies) := by
  unfold WellFormed; infer_instance

/-- The number of states of the population whose `is_invalid` flag is set. -/
def invalid_states (policies : List Policy) : Nat :=
  (policies.map (fun p => p.states.countP (fun st => decide (st.is_invalid ≠ 0)))).sum

/-- All (policy index, state index) pairs of the population, in policy order and then
state order. -/
def all_cells (policies : List Policy) : List (Nat × Nat) :=
  cells_from 0 (policies.map (fun p => p.num_states))

/-- State `s` of the policy exists and has its `is_invalid` flag set. -/
def Policy.invalid_at (p : Policy) (s : Nat) : Bool :=
  match p.states[s]? with
  | some st => decide (st.is_invalid ≠ 0)
  | none => false

/-- The state at cell `c` exists and has its `is_invalid` flag set. -/
def state_invalid (policies : List Policy) (c : Nat × Nat) : Bool :=
  match policies[c.1]? with
  | some p => p.invalid_at c.2
  | none => false

end Classic

namespace Extended

/-- The population matches its declared sizes: `num_policies` policies, and `num_states`
states in each. -/
def WellFormed (policies : List Policy) (num_policies : Nat) : Prop :=
  policies.length = num_policies ∧ ∀ p ∈ policies, p.states.length = p.num_states

instance (policies : List Policy) (num_policies : Nat) :
    Decidable (WellFormed policies num_policies) := by
  unfold WellFormed; infer_instance

/-- The number of states of the population whose `is_invalid` flag is set. -/
def invalid_states (policies : List Policy) : Nat :=
  (policies.map (fun p => p.states.countP (fun st => decide (st.is_invalid ≠ 0)))).sum

/-- All (policy index, state index) pairs of the population, in policy order and then
state order. -/
def all_cells (policies : List Policy) : List (Nat × Nat) :=
  cells_from 0 (policies.map (fun p => p.num_states))

/-- State `s` of the policy exists and has its `is_invalid` flag set. -/
def Policy.invalid_at (p : Policy) (s : Nat) : Bool :=
  match p.states[s]? with
  | some st => decide (st.is_invalid ≠ 0)
  | none => false

/-- The state at cell `c` exists and has its `is_invalid` flag set. -/
def state_invalid (policies : List Policy) (c : Nat × Nat) : Bool :=
  match policies[c.1]? with
  | some p => p.invalid_at c.2
  | none => false

/-- The state at cell `c` is invalid and its policy is mandatory. -/
def stops (policies : List Policy) (c : Nat × Nat) : Bool :=
  match policies[c.1]? with
  | some p => p.invalid_at c.2 && decide (p.is_mandatory ≠ 0)
  | none => false

/-- The population with the `subset` and `is_mandatory` fields erased: the same population
for the classic engine. -/
def erase (policies : List Policy) : List Classic.Policy :=
  policies.map (fun p =>
    { num_states := p.num_states,
      states := p.states.map (fun st =>
        { is_context := st.is_context, is_invalid := st.is_invalid }) })

/-- The states of one policy with their `is_invalid` flags replaced by `m s`, from state
index `s` on. -/
def set_invalid_states (m : Nat → Int) : Nat → List RemarkableState → List RemarkableState
  | _, [] => []
  | s, st :: l => { st with is_invalid := m s } :: set_invalid_states m (s + 1) l

/-- The population with its `is_invalid` flags replaced by the invalidation map `m`, from
policy index `i` on. -/
def set_invalid_map (m : Nat → Nat → Int) : Nat → List Policy → List Policy
  | _, [] => []
  | i, p :: ps =>
    { p with states := set_invalid_states (m i) 0 p.states } :: set_invalid_map m (i + 1) ps

end Extended

namespace Classic

/-- The population has `num_policies` policies of `states_per_policy` states each. -/
def Uniform (policies : List Policy) (num_policies states_per_policy : Nat) : Prop :=
  policies.length = num_policies ∧
    ∀ p ∈ policies, p.num_states = states_per_policy ∧ p.states.length = states_per_policy

end Classic

namespace Extended

/-- The population has `num_policies` policies of `states_per_policy` states each. -/
def Uniform (policies : List Policy) (num_policies states_per_policy : Nat) : Prop :=
  policies.length = num_policies ∧
    ∀ p ∈ policies, p.num_states = states_per_policy ∧ p.states.length = states_per_policy

/-- The condition of the `while` loop of `apply_invalidation_extended`. -/
def loop_condition (total_states : Nat) (σ : InvalState) : Prop :=
  σ.to_invalidate > 0 ∧ σ.attempts < total_states * 10

end Extended

namespace Classic

/-- No state of the population has its `is_invalid` flag set. -/
def Fresh (policies : List Policy) : Prop :=
  ∀ p ∈ policies, ∀ st ∈ p.states, st.is_invalid = 0

end Classic

namespace Extended

/-- No state of the population has its `is_invalid` flag set. -/
def Fresh (policies : List Policy) : Prop :=
  ∀ p ∈ policies, ∀ st ∈ p.states, st.is_invalid = 0

end Extended

namespace Classic

/-- The cells `(pi, si)` drawn by `k` passes of the loop of `apply_invalidation_classic`
that start with the `rand()` cursor at `c`. -/
def draws (rand : RandSeq) (num_policies states_per_policy : Nat) :
    Nat → Nat → List (Nat × Nat)
  | 0, _ => []
  | k + 1, c =>
    (rand c % num_policies, rand (c + 1) % states_per_policy) ::
      draws rand num_policies states_per_policy k (c + 2)

end Classic

namespace Classic

/-- The number of invalid states of the policy at index `i` (0 when there is none). -/
def policy_invalid (policies : List Policy) (i : Nat) : Nat :=
  match policies[i]? with
  | some p => p.states.countP (fun st => decide (st.is_invalid ≠ 0))
  | none => 0

end Classic

namespace Classic

/-- The part of `main` before the evaluation: the population made by
`init_classic_policies` after `apply_invalidation_classic`, and the `rand()` cursor. -/
def invalidated_population (num_policies states_per_policy : Nat) (inval_rate : ℚ)
    (rand : RandSeq) : Option (List Policy × Nat) :=
  apply_invalidation_classic (init_classic_policies num_policies states_per_policy rand 0).1
    num_policies states_per_policy inval_rate rand
    (init_classic_policies num_policies states_per_policy rand 0).2

/-- The run of `main` in `Seq` mode up to the return of `evaluate_policies_classic_seq`. -/
def seq_pass (num_policies states_per_policy : Nat) (inval_rate : ℚ) (rand : RandSeq) :
    Option EvalState :=
  match invalidated_population num_policies states_per_policy inval_rate rand with
  | none => none
  | some r => evaluate_policies_classic_seq r.1 num_policies rand r.2

/-- What may differ between a state and the same state later: nothing but `is_invalid`,
which stays as it is or becomes 1. -/
def StateFrame (st st1 : RemarkableState) : Prop :=
  st1.is_context = st.is_context ∧ (st.is_invalid ≠ 0 → st1.is_invalid ≠ 0) ∧
    (st1.is_invalid = st.is_invalid ∨ st1.is_invalid = 1)

/-- What may differ between a policy and the same policy later. -/
def PolicyFrame (p p1 : Policy) : Prop :=
  p1.num_states = p.num_states ∧ List.Forall₂ StateFrame p.states p1.states

/-- What may differ between a population and the same population later: it has the same
policies with the same states in the same places, changed at most in `is_invalid`. -/
def Frame (policies policies1 : List Policy) : Prop :=
  List.Forall₂ PolicyFrame policies policies1

end Classic

namespace Extended

/-- The part of `main` before the evaluation: the population made by
`init_extended_policies` after `apply_invalidation_extended`. -/
def invalidated_population (num_policies states_per_policy : Nat)
    (inval_rate mandatory_ratio : ℚ) (target_mode : Int) (rand : RandSeq) :
    Option InvalState :=
  apply_invalidation_extended
    (init_extended_policies num_policies states_per_policy mandatory_ratio rand 0).1
    num_policies states_per_policy inval_rate target_mode rand
    (init_extended_policies num_policies states_per_policy mandatory_ratio rand 0).2

/-- The run of `main` in `Seq` mode up to the return of
`evaluate_policies_extended_sequential`. -/
def seq_pass (num_policies states_per_policy : Nat) (inval_rate mandatory_ratio : ℚ)
    (target_mode : Int) (rand : RandSeq) : Option EvalState :=
  match invalidated_population num_policies states_per_policy inval_rate mandatory_ratio
      target_mode rand with
  | none => none
  | some r => evaluate_policies_extended_sequential r.policies num_policies rand r.rand_calls 0

/-- The index of the policy at which a sequential pass stopped early: the policy of the
last state evaluated when `stop_all` is set at the end, nothing otherwise. -/
def early_stop_index (σ : EvalState) : Option Nat :=
  if σ.stop_all ≠ 0 then (σ.trace.getLast?).map (fun cell => cell.1) else none

/-- What may differ between a state and the same state later: nothing but `is_invalid`,
which stays as it is or becomes 1. -/
def StateFrame (st st1 : RemarkableState) : Prop :=
  st1.is_context = st.is_context ∧ st1.subset = st.subset ∧
    (st.is_invalid ≠ 0 → st1.is_invalid ≠ 0) ∧
    (st1.is_invalid = st.is_invalid ∨ st1.is_invalid = 1)

/-- What may differ between a policy and the same policy later. -/
def PolicyFrame (p p1 : Policy) : Prop :=
  p1.num_states = p.num_states ∧ p1.is_mandatory = p.is_mandatory ∧
    List.Forall₂ StateFrame p.states p1.states

/-- What may differ between a population and the same population later: it has the same
policies with the same states in the same places, changed at most in `is_invalid`. -/
def Frame (policies policies1 : List Policy) : Prop :=
  List.Forall₂ PolicyFrame policies policies1

end Extended

/-! ## The parallel extended evaluator as interleaved threads -/

namespace Extended

/-- Where a thread stands in its current iteration of the `parallel for` of
`evaluate_policies_extended_parallel`: before the condition of the inner loop, before
`if (stop_all) break;`, or before the call of `evaluate_state`. -/
inductive ParPc where
  | loop_test
  | break_test
  | state_body
deriving DecidableEq, Repr

/-- A thread of the `parallel for`: the iterations (policy indices) it has completed, the
ones it still has to run, the first of which is in progress, the variables `s` and
`stop_policy` of the iteration in progress, its place in that iteration, its private copy of
`invalid_count`, and the calls of `evaluate_state` it has made, oldest first. -/
structure Worker where
  finished : List Nat
  todo : List Nat
  s : Nat
  stop_policy : Int
  pc : ParPc
  invalid_count : Nat
  evaluated : List (Nat × Nat)
deriving DecidableEq, Repr

/-- The thread leaves the inner loop of iteration `i` and turns to its next iteration, where
`stop_policy` and `s` start at 0. -/
def worker_next (w : Worker) (i : Nat) (rest : List Nat) : Worker :=
  { w with finished := w.finished ++ [i], todo := rest, s := 0, stop_policy := 0,
           pc := ParPc.loop_test }

/-- One step of a thread that sees the value `stop_all` in the shared flag: the thread
afterwards, and the value it writes to the shared flag if it writes.  Each step makes at most
one access to the shared flag: the loop condition reads it once, `if (stop_all) break;` reads
it once, and the rest of the loop body, which otherwise works on the variables of the thread
and reads the population that no thread writes, ends with the one write.  A thread with no
iteration left does nothing. -/
def worker_step (policies : List Policy) (stop_all : Int) (w : Worker) :
    Option (Worker × Option Int) :=
  match w.todo with
  | [] => some (w, none)
  | i :: rest =>
    match policies[i]? with
    | none => none
    | some p =>
      match w.pc with
      | ParPc.loop_test =>
        if w.s < p.num_states ∧ w.stop_policy = 0 ∧ stop_all = 0 then
          some ({ w with pc := ParPc.break_test }, none)
        else some (worker_next w i rest, none)
      | ParPc.break_test =>
        if stop_all ≠ 0 then some (worker_next w i rest, none)
        else some ({ w with pc := ParPc.state_body }, none)
      | ParPc.state_body =>
        match p.states[w.s]? with
        | none => none
        | some st =>
          if st.is_invalid ≠ 0 then
            if p.is_mandatory ≠ 0 then
              some ({ w with s := w.s + 1, stop_policy := 1, pc := ParPc.loop_test,
                             invalid_count := w.invalid_count + 1,
                             evaluated := w.evaluated ++ [(i, w.s)] }, some 1)
            else
              some ({ w with s := w.s + 1, pc := ParPc.loop_test,
                             invalid_count := w.invalid_count + 1,
                             evaluated := w.evaluated ++ [(i, w.s)] }, none)
          else
            some ({ w with s := w.s + 1, pc := ParPc.loop_test,
                           evaluated := w.evaluated ++ [(i, w.s)] }, none)

/-- The shared flag, the threads, and the number of writes to the flag made so far. -/
structure ParState where
  stop_all : Int
  workers : List Worker
  stop_writes : Nat
deriving DecidableEq, Repr

/-- Thread `j` makes one step; nothing happens when there is no thread `j`. -/
def par_step (policies : List Policy) (j : Nat) (σ : ParState) : Option ParState :=
  match σ.workers[j]? with
  | none => some σ
  | some w =>
    match worker_step policies σ.stop_all w with
    | none => none
    | some r =>
      some { stop_all := r.2.getD σ.stop_all,
             workers := σ.workers.set j r.1,
             stop_writes := σ.stop_writes + (if r.2.isSome then 1 else 0) }

/-- The threads make steps in the order `sched`: an interleaving. -/
def par_run (policies : List Policy) : List Nat → ParState → Option ParState
  | [], σ => some σ
  | j :: sched, σ =>
    match par_step policies j σ with
    | none => none
    | some σ1 => par_run policies sched σ1

/-- The state in which the threads start: `stop_all = 0` has been executed, whatever the
flag held before, and thread `j` has been given the iterations `assignment[j]`. -/
def par_init (assignment : List (List Nat)) (_stop_all : Int) : ParState :=
  { stop_all := 0,
    workers := assignment.map (fun chunk =>
      { finished := [], todo := chunk, s := 0, stop_policy := 0, pc := ParPc.loop_test,
        invalid_count := 0, evaluated := [] }),
    stop_writes := 0 }

/-- Every thread has run all its iterations. -/
def par_finished (σ : ParState) : Prop :=
  ∀ w ∈ σ.workers, w.todo = []

instance (σ : ParState) : Decidable (par_finished σ) := by
  unfold par_finished; infer_instance

/-- The value of `invalid_count` after the reduction: the sum of the private copies. -/
def par_result (σ : ParState) : Nat :=
  (σ.workers.map (fun w => w.invalid_count)).sum

/-- The thread has passed both tests of the shared flag and is about to evaluate a state:
1 if so, 0 if not. -/
def in_flight (w : Worker) : Nat :=
  if w.pc = ParPc.state_body ∧ w.todo ≠ [] then 1 else 0

/-- The number of invalid states in policies that are not mandatory. -/
def invalid_states_non_mandatory (policies : List Policy) : Nat :=
  (policies.map (fun p =>
    if p.is_mandatory ≠ 0 then 0
    else p.states.countP (fun st => decide (st.is_invalid ≠ 0)))).sum

/-- The most that one policy can add to the count of the parallel evaluator: 1 for a
mandatory policy with an invalid state, 0 for a mandatory policy without, and the number of
invalid states for a policy that is not mandatory. -/
def max_contribution (p : Policy) : Nat :=
  if p.is_mandatory ≠ 0 then
    if p.states.any (fun st => decide (st.is_invalid ≠ 0)) then 1 else 0
  else p.states.countP (fun st => decide (st.is_invalid ≠ 0))

/-- The number of mandatory policies with at least one invalid state. -/
def mandatory_with_invalid (policies : List Policy) : Nat :=
  policies.countP (fun p =>
    decide (p.is_mandatory ≠ 0) && p.states.any (fun st => decide (st.is_invalid ≠ 0)))

end Extended

namespace Extended

/-- A thread that can make its next step without leaving the population: its iterations
are policy indices below `num_policies`, and once past the loop condition its `s` is a state
index of the policy in progress. -/
def worker_safe (policies : List Policy) (num_policies : Nat) (w : Worker) : Prop :=
  (∀ i ∈ w.todo, i < num_policies) ∧
  (w.pc ≠ ParPc.loop_test →
    ∃ (i : Nat) (rest : List Nat) (p : Policy),
      w.todo = i :: rest ∧ policies[i]? = some p ∧ w.s < p.num_states)

/-- A thread that has counted nothing while the shared flag `f` is still clear has seen only
valid states: all states of the policies it completed and the states before `s` of the policy
in progress are valid, and its `stop_policy` is clear. -/
def worker_clean (policies : List Policy) (f : Int) (w : Worker) : Prop :=
  f = 0 → w.invalid_count = 0 →
    w.stop_policy = 0 ∧
    (∀ i ∈ w.finished, ∀ p, policies[i]? = some p → ∀ st ∈ p.states, st.is_invalid = 0) ∧
    (∀ (i : Nat) (rest : List Nat) (p : Policy), w.todo = i :: rest → policies[i]? = some p →
      ∀ (s1 : Nat) (st : RemarkableState), s1 < w.s → p.states[s1]? = some st →
        st.is_invalid = 0)

/-- How a thread may differ from itself earlier in a run during which the shared flag is set
throughout: it has evaluated and counted at most the one state that was in flight. -/
def after_stop (w w1 : Worker) : Prop :=
  w1.evaluated.length + in_flight w1 ≤ w.evaluated.length + in_flight w ∧
  w1.invalid_count + in_flight w1 ≤ w.invalid_count + in_flight w

/-- The most that the policy at index `i` can add to the count; 0 when there is no such
policy. -/
def max_contribution_at (policies : List Policy) (i : Nat) : Nat :=
  ((policies[i]?).map max_contribution).getD 0

/-- A thread whose counter is within bounds: it is at most the sum of `max_contribution`
over the policies the thread completed plus a part `c` counted in the policy in progress,
where `c` is at most the number of invalid states before `s`, and for a mandatory policy at
most 1 and 0 while `stop_policy` is clear; past the loop condition `stop_policy` is clear. -/
def worker_bounded (policies : List Policy) (w : Worker) : Prop :=
  ∃ c : Nat,
    w.invalid_count ≤ (w.finished.map (max_contribution_at policies)).sum + c ∧
    (w.todo = [] → c = 0) ∧
    (w.pc ≠ ParPc.loop_test → w.stop_policy = 0) ∧
    (∀ (i : Nat) (rest : List Nat) (p : Policy), w.todo = i :: rest → policies[i]? = some p →
      c ≤ (p.states.take w.s).countP (fun st => decide (st.is_invalid ≠ 0)) ∧
      (p.is_mandatory ≠ 0 → w.stop_policy = 0 → c = 0) ∧
      (p.is_mandatory ≠ 0 → c ≤ 1))

/-- The number of states of the policy at index `i`; 0 when there is no such policy. -/
def num_states_at (policies : List Policy) (i : Nat) : Nat :=
  ((policies[i]?).map (fun p => p.num_states)).getD 0

/-- The number of steps from a place in the loop body to the next loop condition, plus
one. -/
def pc_weight : ParPc → Nat
  | ParPc.loop_test => 3
  | ParPc.break_test => 2
  | ParPc.state_body => 1

/-- An upper bound on the number of steps a thread still makes before it has run all its
iterations: three steps for each state not yet evaluated and up to three to leave each
policy. -/
def worker_measure (policies : List Policy) (w : Worker) : Nat :=
  match w.todo with
  | [] => 0
  | i :: rest =>
    3 * (num_states_at policies i - w.s) + pc_weight w.pc +
      (rest.map (fun k => 3 * num_states_at policies k + 3)).sum

/-- What holds of every state of a run from the start. -/
def run_inv (policies : List Policy) (assignment : List (List Nat)) (σ : ParState) : Prop :=
  (∀ w ∈ σ.workers, worker_clean policies σ.stop_all w) ∧
  (σ.stop_all ≠ 0 → 1 ≤ par_result σ) ∧
  σ.workers.map (fun w => w.finished ++ w.todo) = assignment

end Extended

/-! ## `int` and `double` as the machine has them

The definitions above take the two products `num_policies * mandatory_ratio` and
`total_states * inval_rate` without rounding and the `int` values without bound.  The
definitions of this section take them as the machine does: an `int` has 32 bits and a
product that leaves its range is undefined behaviour (`none`); a `double` is a binary64
number, the product of an `int` and a `double` is the exact product rounded to the nearest
binary64 number, ties to the even significand, as on a machine that evaluates `double`
expressions in binary64 without excess precision; and `(int)x` is undefined (`none`) when
the truncated value is not an `int`.  A `double` is still written as the rational it stands
for; a magnitude of `2 ^ 1024` or more stands for an infinity, which no cast accepts. -/

/-- The largest `int`. -/
def INT_MAX : Int := 2147483647

/-- The smallest `int`. -/
def INT_MIN : Int := -2147483648

/-- The product of two `int` values that are not negative: `none` when it overflows. -/
def c_int_mul (a b : Nat) : Option Nat :=
  if (a * b : Int) ≤ INT_MAX then some (a * b) else none

/-- The integer nearest to `n / d`, the even one when two are equally near. -/
def round_half_even (n d : Nat) : Nat :=
  if 2 * (n % d) < d then n / d
  else if d < 2 * (n % d) then n / d + 1
  else if n / d % 2 = 0 then n / d
  else n / d + 1

/-- The number of times `a / b` has to be doubled to reach `2 ^ 52`, but `limit` at most. -/
def scale_up (b : Nat) : Nat → Nat → Nat
  | 0, _ => 0
  | limit + 1, a => if b * 2 ^ 52 ≤ a then 0 else scale_up b limit (2 * a) + 1

/-- The number of times `a / b` has to be halved to fall below `2 ^ 53`, but `limit` at
most. -/
def scale_down (a : Nat) : Nat → Nat → Nat
  | 0, _ => 0
  | limit + 1, b => if a < b * 2 ^ 53 then 0 else scale_down a limit (2 * b) + 1

/-- The binary64 number nearest to `a / b`, for `a` and `b` positive: the quotient is scaled
by a power of two into the range of a 53-bit significand, `2 ^ 52` to `2 ^ 53`, rounded to
an integer, and scaled back.  The scale is `2 ^ 1074` at most, the one of the subnormal
numbers. -/
def c_double_round_pos (a b : Nat) : ℚ :=
  if a < b * 2 ^ 53 then
    ((round_half_even (a * 2 ^ scale_up b 1074 a) b : Nat) : ℚ) /
      ((2 ^ scale_up b 1074 a : Nat) : ℚ)
  else
    ((round_half_even a (b * 2 ^ scale_down a 1024 b) : Nat) : ℚ) *
      ((2 ^ scale_down a 1024 b : Nat) : ℚ)

/-- Rounding to the nearest binary64 number, ties to even. -/
def c_double_round (x : ℚ) : ℚ :=
  if x.num = 0 then 0
  else if x.num < 0 then -c_double_round_pos x.num.natAbs x.den
  else c_double_round_pos x.num.natAbs x.den

/-- The product `n * x` of an `int` that is not negative and a `double`: the `int` is
converted, which is exact, and the product is rounded. -/
def c_double_mul (n : Nat) (x : ℚ) : ℚ := c_double_round ((n : ℚ) * x)

/-- The conversion `(int)x` of a `double`: truncation toward zero, undefined when the
truncated value is outside the range of `int`. -/
def c_double_to_int_checked (x : ℚ) : Option Int :=
  if INT_MIN ≤ c_double_to_int x ∧ c_double_to_int x ≤ INT_MAX then some (c_double_to_int x)
  else none

namespace Classic

namespace Binary64

/-- The function `apply_invalidation_classic` with `total_states` and `to_invalidate` as
the machine computes them: the population and the `rand()` cursor afterwards. -/
def apply_invalidation_classic (policies : List Policy) (num_policies states_per_policy : Nat)
    (inval_rate : ℚ) (rand : RandSeq) (c : Nat) : Option (List Policy × Nat) :=
  match c_int_mul num_policies states_per_policy with
  | none => none
  | some total_states =>
    match c_double_to_int_checked (c_double_mul total_states inval_rate) with
    | none => none
    | some to_invalidate =>
      Classic.invalidation_loop rand num_policies states_per_policy to_invalidate.toNat
        policies c

/-- The function `main` after argument parsing, as `Classic.main`, with the quota of
`apply_invalidation_classic` as the machine computes it. -/
def main (num_policies states_per_policy : Nat) (inval_rate : ℚ) (mode : String)
    (_schedule_str : String) (rand : RandSeq) (assignment : List (List Nat)) : Option Nat :=
  let pol := init_classic_policies num_policies states_per_policy rand 0
  match apply_invalidation_classic pol.1 num_policies states_per_policy inval_rate rand
      pol.2 with
  | none => none
  | some r =>
    if mode = "Seq" then
      (evaluate_policies_classic_seq r.1 num_policies rand r.2).map (fun σ => σ.invalid_count)
    else evaluate_policies_classic_par r.1 num_policies assignment

end Binary64

end Classic

namespace Extended

namespace Binary64

/-- The function `init_extended_policies` with `mandatory_thresh` as the machine computes
it: the population and the `rand()` cursor afterwards. -/
def init_extended_policies (num_policies states_per_policy : Nat) (mandatory_ratio : ℚ)
    (rand : RandSeq) (c : Nat) : Option (List Policy × Nat) :=
  match c_double_to_int_checked (c_double_mul num_policies mandatory_ratio) with
  | none => none
  | some mandatory_thresh =>
    some (init_extended_outer rand states_per_policy mandatory_thresh num_policies 0 c)

/-- The function `apply_invalidation_extended` with `total_states`, `to_invalidate` and
the bound `total_states*10` as the machine computes them: the variables at the exit of the
loop.  The loop condition evaluates `total_states*10` only when `to_invalidate > 0`. -/
def apply_invalidation_extended (policies : List Policy) (num_policies states_per_policy : Nat)
    (inval_rate : ℚ) (target_mode : Int) (rand : RandSeq) (c : Nat) : Option InvalState :=
  match c_int_mul num_policies states_per_policy with
  | none => none
  | some total_states =>
    match c_double_to_int_checked (c_double_mul total_states inval_rate) with
    | none => none
    | some to_invalidate =>
      if to_invalidate ≤ 0 then
        some { policies := policies, to_invalidate := to_invalidate, attempts := 0,
               rand_calls := c }
      else
        match c_int_mul total_states 10 with
        | none => none
        | some bound =>
          Extended.invalidation_loop rand num_policies total_states target_mode (bound + 1)
            { policies := policies, to_invalidate := to_invalidate, attempts := 0,
              rand_calls := c }

/-- The function `main` after argument parsing, as `Extended.main`, with the threshold of
`init_extended_policies` and the quota of `apply_invalidation_extended` as the machine
computes them. -/
def main (num_policies states_per_policy : Nat) (inval_rate mandatory_ratio : ℚ)
    (target_mode : Int) (mode : String) (_schedule_str : String) (rand : RandSeq)
    (openmp : Bool) (reads : Nat → Nat → Nat → Int) : Option Nat :=
  match init_extended_policies num_policies states_per_policy mandatory_ratio rand 0 with
  | none => none
  | some pol =>
    match apply_invalidation_extended pol.1 num_policies states_per_policy inval_rate
        target_mode rand pol.2 with
    | none => none
    | some r =>
      if mode = "Seq" then
        (evaluate_policies_extended_sequential r.policies num_policies rand r.rand_calls
          0).map (fun σ => σ.invalid_count)
      else evaluate_policies_extended_parallel openmp r.policies num_policies reads

end Binary64

end Extended

/-! ## The evaluators on the population in memory

The evaluators above take the population as a value and return their counters.  Here the
population lives in memory and is threaded through every statement of the evaluators that
touches it: they return the memory they leave together with their counters.  The only
statement that hands a part of the population to other code is the call
`evaluate_state(&policies[i].states[s])`, which passes the state by address. -/

namespace Classic

/-- The memory after the call `evaluate_state(&policies[i].states[s])`: the state is read
through the pointer, which the callee takes as `const` and only reads `is_context` from, and
what the callee leaves there is put back where it was. -/
def evaluate_state_mem (mem : List Policy) (i s : Nat) : Option (List Policy) :=
  match mem[i]? with
  | none => none
  | some p =>
    match p.states[s]? with
    | none => none
    | some st => some (mem.set i { p with states := p.states.set s st })

/-- The inner loop of `evaluate_policies_classic_seq` on policy `i` of the memory, with `k`
iterations left and index `s`. -/
def classic_seq_inner_mem (rand : RandSeq) (i : Nat) :
    Nat → Nat → List Policy → EvalState → Option (List Policy × EvalState)
  | 0, _, mem, σ => some (mem, σ)
  | k + 1, s, mem, σ =>
    match mem[i]? with
    | none => none
    | some p0 =>
      match p0.states[s]? with
      | none => none
      | some st0 =>
        match evaluate_state_mem mem i s with
        | none => none
        | some mem1 =>
          match mem1[i]? with
          | none => none
          | some p =>
            match p.states[s]? with
            | none => none
            | some st =>
              let σ1 : EvalState :=
                { σ with rand_calls := (evaluate_state rand σ.rand_calls st0).2,
                         trace := σ.trace ++ [(i, s)] }
              let σ2 : EvalState :=
                if st.is_invalid ≠ 0 then { σ1 with invalid_count := σ1.invalid_count + 1 }
                else σ1
              classic_seq_inner_mem rand i k (s + 1) mem1 σ2

/-- The outer loop of `evaluate_policies_classic_seq` on the memory. -/
def classic_seq_outer_mem (rand : RandSeq) :
    Nat → Nat → List Policy → EvalState → Option (List Policy × EvalState)
  | 0, _, mem, σ => some (mem, σ)
  | k + 1, i, mem, σ =>
    match mem[i]? with
    | none => none
    | some p =>
      match classic_seq_inner_mem rand i p.num_states 0 mem σ with
      | none => none
      | some r => classic_seq_outer_mem rand k (i + 1) r.1 r.2

/-- The function `evaluate_policies_classic_seq` on the memory: the memory it leaves and
its counters. -/
def evaluate_policies_classic_seq_mem (policies : List Policy) (num_policies : Nat)
    (rand : RandSeq) (c : Nat) : Option (List Policy × EvalState) :=
  classic_seq_outer_mem rand num_policies 0 policies
    { invalid_count := 0, rand_calls := c, trace := [] }

/-- The inner loop of `evaluate_policies_classic_par` on policy `i` of the memory. -/
def classic_par_inner_mem (i : Nat) : Nat → Nat → List Policy → Nat → Option (List Policy × Nat)
  | 0, _, mem, cnt => some (mem, cnt)
  | k + 1, s, mem, cnt =>
    match evaluate_state_mem mem i s with
    | none => none
    | some mem1 =>
      match mem1[i]? with
      | none => none
      | some p =>
        match p.states[s]? with
        | none => none
        | some st =>
          classic_par_inner_mem i k (s + 1) mem1 (if st.is_invalid ≠ 0 then cnt + 1 else cnt)

/-- One thread of `evaluate_policies_classic_par` on the memory. -/
def classic_par_worker_mem : List Nat → List Policy → Nat → Option (List Policy × Nat)
  | [], mem, cnt => some (mem, cnt)
  | i :: rest, mem, cnt =>
    match mem[i]? with
    | none => none
    | some p =>
      match classic_par_inner_mem i p.num_states 0 mem cnt with
      | none => none
      | some r => classic_par_worker_mem rest r.1 r.2

/-- The threads of `evaluate_policies_classic_par` on the memory they share, taken one
after the other: the memory they leave and their private counters. -/
def classic_par_threads_mem : List (List Nat) → List Policy → Option (List Policy × List Nat)
  | [], mem => some (mem, [])
  | chunk :: rest, mem =>
    match classic_par_worker_mem chunk mem 0 with
    | none => none
    | some r =>
      match classic_par_threads_mem rest r.1 with
      | none => none
      | some r1 => some (r1.1, r.2 :: r1.2)

/-- The function `evaluate_policies_classic_par` on the memory: the memory it leaves and
the sum of the private counters. -/
def evaluate_policies_classic_par_mem (policies : List Policy) (_num_policies : Nat)
    (assignment : List (List Nat)) : Option (List Policy × Nat) :=
  (classic_par_threads_mem assignment policies).map (fun r => (r.1, r.2.sum))

end Classic

namespace Extended

/-- The memory after the call `evaluate_state(&policies[i].states[s])`: the state is read
through the pointer, which the callee takes as `const` and only reads `is_context` from, and
what the callee leaves there is put back where it was. -/
def evaluate_state_mem (mem : List Policy) (i s : Nat) : Option (List Policy) :=
  match mem[i]? with
  | none => none
  | some p =>
    match p.states[s]? with
    | none => none
    | some st => some (mem.set i { p with states := p.states.set s st })

/-- The inner loop of `evaluate_policies_extended_sequential` on policy `i` of the memory,
with `k` iterations left and index `s`. -/
def extended_seq_inner_mem (rand : RandSeq) (i : Nat) :
    Nat → Nat → List Policy → EvalState → Option (List Policy × EvalState)
  | 0, _, mem, σ => some (mem, σ)
  | k + 1, s, mem, σ =>
    if σ.stop_all ≠ 0 then some (mem, σ)
    else
      match mem[i]? with
      | none => none
      | some p0 =>
        match p0.states[s]? with
        | none => none
        | some st0 =>
          match evaluate_state_mem mem i s with
          | none => none
          | some mem1 =>
            match mem1[i]? with
            | none => none
            | some p =>
              match p.states[s]? with
              | none => none
              | some st =>
                let σ1 : EvalState :=
                  { σ with rand_calls := (evaluate_state rand σ.rand_calls st0).2,
                           trace := σ.trace ++ [(i, s)] }
                let σ2 : EvalState :=
                  if st.is_invalid ≠ 0 then
                    if p.is_mandatory ≠ 0 then
                      { σ1 with invalid_count := σ1.invalid_count + 1, stop_all := 1,
                                stop_writes := σ1.stop_writes + 1 }
                    else { σ1 with invalid_count := σ1.invalid_count + 1 }
                  else σ1
                extended_seq_inner_mem rand i k (s + 1) mem1 σ2

/-- The outer loop of `evaluate_policies_extended_sequential` on the memory. -/
def extended_seq_outer_mem (rand : RandSeq) :
    Nat → Nat → List Policy → EvalState → Option (List Policy × EvalState)
  | 0, _, mem, σ => some (mem, σ)
  | k + 1, i, mem, σ =>
    if σ.stop_all ≠ 0 then some (mem, σ)
    else
      match mem[i]? with
      | none => none
      | some p =>
        match extended_seq_inner_mem rand i p.num_states 0 mem σ with
        | none => none
        | some r => extended_seq_outer_mem rand k (i + 1) r.1 r.2

/-- The function `evaluate_policies_extended_sequential` on the memory: the memory it
leaves and its counters. -/
def evaluate_policies_extended_sequential_mem (policies : List Policy) (num_policies : Nat)
    (rand : RandSeq) (c : Nat) (_stop_all : Int) : Option (List Policy × EvalState) :=
  extended_seq_outer_mem rand num_policies 0 policies
    { invalid_count := 0, stop_all := 0, rand_calls := c, stop_writes := 0, trace := [] }

/-- The inner loop of `evaluate_policies_extended_parallel` on policy `i` of the memory;
`reads` gives the values read from the shared flag as in `extended_par_inner`. -/
def extended_par_inner_mem (i : Nat) (reads : Nat → Nat → Int) :
    Nat → Nat → Int → List Policy → Nat → Option (List Policy × Nat)
  | 0, _, _, mem, cnt => some (mem, cnt)
  | k + 1, s, stop_policy, mem, cnt =>
    if stop_policy ≠ 0 then some (mem, cnt)
    else if reads s 0 ≠ 0 then some (mem, cnt)
    else if reads s 1 ≠ 0 then some (mem, cnt)
    else
      match evaluate_state_mem mem i s with
      | none => none
      | some mem1 =>
        match mem1[i]? with
        | none => none
        | some p =>
          match p.states[s]? with
          | none => none
          | some st =>
            if st.is_invalid ≠ 0 then
              if p.is_mandatory ≠ 0 then
                extended_par_inner_mem i reads k (s + 1) 1 mem1 (cnt + 1)
              else extended_par_inner_mem i reads k (s + 1) stop_policy mem1 (cnt + 1)
            else extended_par_inner_mem i reads k (s + 1) stop_policy mem1 cnt

/-- The iterations `i, i + 1, ..` of the `parallel for` of
`evaluate_policies_extended_parallel` on the memory they share, taken one after the other:
the memory they leave and their contributions. -/
def extended_par_outer_mem (reads : Nat → Nat → Nat → Int) :
    Nat → Nat → List Policy → Option (List Policy × List Nat)
  | 0, _, mem => some (mem, [])
  | k + 1, i, mem =>
    match mem[i]? with
    | none => none
    | some p =>
      match extended_par_inner_mem i (reads i) p.num_states 0 0 mem 0 with
      | none => none
      | some r =>
        match extended_par_outer_mem reads k (i + 1) r.1 with
        | none => none
        | some r1 => some (r1.1, r.2 :: r1.2)

/-- The function `evaluate_policies_extended_parallel` on the memory: the memory it leaves
and the sum of the contributions. -/
def evaluate_policies_extended_parallel_mem (openmp : Bool) (policies : List Policy)
    (num_policies : Nat) (reads : Nat → Nat → Nat → Int) : Option (List Policy × Nat) :=
  if openmp then
    (extended_par_outer_mem reads num_policies 0 policies).map (fun r => (r.1, r.2.sum))
  else some (policies, 0)

end Extended

/-! ## Lists of cells -/

theorem policy_cells_zero (i s : Nat) : policy_cells i s 0 = [] := by
  simp [policy_cells]

theorem policy_cells_succ (i s k : Nat) :
    policy_cells i s (k + 1) = (i, s) :: policy_cells i (s + 1) k := by
  simp [policy_cells, List.range'_succ]

theorem mem_policy_cells {i s k : Nat} {c : Nat × Nat} :
    c ∈ policy_cells i s k ↔ c.1 = i ∧ s ≤ c.2 ∧ c.2 < s + k := by
  obtain ⟨a, b⟩ := c
  simp only [policy_cells, List.mem_map, List.mem_range'_1, Prod.mk.injEq]
  constructor
  · rintro ⟨x, ⟨h1, h2⟩, rfl, rfl⟩; exact ⟨rfl, h1, h2⟩
  · rintro ⟨rfl, h1, h2⟩; exact ⟨b, ⟨h1, h2⟩, rfl, rfl⟩

theorem mem_cells_from {sizes : List Nat} {i : Nat} {c : Nat × Nat} :
    c ∈ cells_from i sizes ↔ i ≤ c.1 ∧ ∃ n, sizes[c.1 - i]? = some n ∧ c.2 < n := by
  induction sizes generalizing i with
  | nil => simp [cells_from]
  | cons n sizes ih =>
    simp only [cells_from, List.mem_append, mem_policy_cells, ih]
    constructor
    · rintro (⟨h1, -, h3⟩ | ⟨h1, m, h2, h3⟩)
      · refine ⟨by omega, n, ?_, by omega⟩
        simp [h1]
      · refine ⟨by omega, m, ?_, h3⟩
        have : c.1 - i = (c.1 - (i + 1)) + 1 := by omega
        rw [this, List.getElem?_cons_succ]; exact h2
    · rintro ⟨h1, m, h2, h3⟩
      by_cases h : c.1 = i
      · left
        simp [h] at h2
        subst h2
        exact ⟨h, by omega, by omega⟩
      · right
        refine ⟨by omega, m, ?_, h3⟩
        have : c.1 - i = (c.1 - (i + 1)) + 1 := by omega
        rw [this, List.getElem?_cons_succ] at h2; exact h2

theorem nodup_policy_cells (i s k : Nat) : (policy_cells i s k).Nodup := by
  unfold policy_cells
  refine List.Nodup.map ?_ (List.nodup_range' s k)
  intro a b h
  simpa using h

theorem nodup_cells_from (sizes : List Nat) (i : Nat) : (cells_from i sizes).Nodup := by
  induction sizes generalizing i with
  | nil => simp [cells_from]
  | cons n sizes ih =>
    simp only [cells_from]
    refine List.Nodup.append (nodup_policy_cells i 0 n) (ih (i + 1)) ?_
    intro c h1 h2
    rw [mem_policy_cells] at h1
    rw [mem_cells_from] at h2
    omega

theorem take_until_append {α : Type} (q : α → Bool) (l1 l2 : List α) :
    take_until q (l1 ++ l2) =
      if l1.any q then take_until q l1 else l1 ++ take_until q l2 := by
  induction l1 with
  | nil => simp [take_until]
  | cons a l ih =>
    by_cases h : q a
    · simp [take_until, h]
    · have h1 : q a = false := by simpa using h
      rw [List.cons_append, take_until, ih]
      simp only [h1, Bool.false_eq_true, if_false, List.any_cons, Bool.false_or]
      split
      · simp [take_until, h1]
      · simp [take_until, h1]

theorem take_until_eq_self {α : Type} (q : α → Bool) (l : List α)
    (h : ∀ a ∈ l, q a = false) : take_until q l = l := by
  induction l with
  | nil => rfl
  | cons a l ih =>
    have h1 : q a = false := h a (List.mem_cons_self a l)
    simp only [take_until, h1, Bool.false_eq_true, if_false]
    rw [ih (fun b hb => h b (List.mem_cons_of_mem a hb))]

theorem take_until_eq_take {α : Type} (q : α → Bool) (l : List α) :
    take_until q l = l.take (l.findIdx q + 1) := by
  induction l with
  | nil => rfl
  | cons a l ih =>
    by_cases h : q a
    · simp [take_until, h, List.findIdx_cons]
    · simp [take_until, h, List.findIdx_cons, ih]

theorem getElem?_append_cons {α : Type} (pre : List α) (a : α) (suf : List α) :
    (pre ++ a :: suf)[pre.length]? = some a := by
  rw [List.getElem?_append_right (le_refl _)]
  simp

/-! ## The sequential evaluators -/

namespace Classic

theorem classic_seq_inner_spec (rand : RandSeq) (p : Policy) (i : Nat) :
    ∀ (suf pre : List RemarkableState) (σ : EvalState), p.states = pre ++ suf →
      ∃ σ1, classic_seq_inner rand p i suf.length pre.length σ = some σ1 ∧
        σ1.invalid_count =
          σ.invalid_count + suf.countP (fun st => decide (st.is_invalid ≠ 0)) ∧
        σ1.trace = σ.trace ++ policy_cells i pre.length suf.length := by
  intro suf
  induction suf with
  | nil =>
    intro pre σ _
    exact ⟨σ, by simp [classic_seq_inner], by simp, by simp [policy_cells_zero]⟩
  | cons st suf ih =>
    intro pre σ h
    have hget : p.states[pre.length]? = some st := by rw [h]; exact getElem?_append_cons pre st suf
    simp only [List.length_cons, classic_seq_inner, hget]
    have h1 : p.states = (pre ++ [st]) ++ suf := by simp [h]
    by_cases hinv : st.is_invalid = 0
    · obtain ⟨σ1, e1, e2, e3⟩ := ih (pre ++ [st])
        { σ with rand_calls := (evaluate_state rand σ.rand_calls st).2,
                 trace := σ.trace ++ [(i, pre.length)] } h1
      rw [List.length_append, List.length_singleton] at e1 e3
      refine ⟨σ1, ?_, ?_, ?_⟩
      · simpa [hinv] using e1
      · simp [e2, hinv]
      · simp [e3, policy_cells_succ]
    · obtain ⟨σ1, e1, e2, e3⟩ := ih (pre ++ [st])
        { invalid_count := σ.invalid_count + 1,
          rand_calls := (evaluate_state rand σ.rand_calls st).2,
          trace := σ.trace ++ [(i, pre.length)] } h1
      rw [List.length_append, List.length_singleton] at e1 e3
      refine ⟨σ1, ?_, ?_, ?_⟩
      · simpa [hinv] using e1
      · simp [e2, hinv]; omega
      · simp [e3, policy_cells_succ]

theorem classic_seq_outer_spec (rand : RandSeq) (policies : List Policy) :
    ∀ (suf pre : List Policy) (σ : EvalState), policies = pre ++ suf →
      (∀ p ∈ suf, p.states.length = p.num_states) →
      ∃ σ1, classic_seq_outer rand policies suf.length pre.length σ = some σ1 ∧
        σ1.invalid_count = σ.invalid_count + invalid_states suf ∧
        σ1.trace = σ.trace ++ cells_from pre.length (suf.map (fun p => p.num_states)) := by
  intro suf
  induction suf with
  | nil =>
    intro pre σ _ _
    exact ⟨σ, by simp [classic_seq_outer], by simp [invalid_states], by simp [cells_from]⟩
  | cons p suf ih =>
    intro pre σ h hwf
    have hget : policies[pre.length]? = some p := by rw [h]; exact getElem?_append_cons pre p suf
    have hp : p.states.length = p.num_states := hwf p (List.mem_cons_self p suf)
    obtain ⟨σ1, e1, e2, e3⟩ := classic_seq_inner_spec rand p pre.length p.states [] σ rfl
    rw [hp] at e1 e3
    simp only [List.length_nil] at e1 e3
    obtain ⟨σ2, f1, f2, f3⟩ := ih (pre ++ [p]) σ1 (by simp [h])
      (fun q hq => hwf q (List.mem_cons_of_mem p hq))
    rw [List.length_append, List.length_singleton] at f1 f3
    refine ⟨σ2, ?_, ?_, ?_⟩
    · simp only [List.length_cons, classic_seq_outer, hget, e1]
      exact f1
    · rw [f2, e2]; simp [invalid_states]; omega
    · rw [f3, e3]; simp [cells_from]

end Classic

namespace Extended

theorem extended_seq_inner_stopped (rand : RandSeq) (p : Policy) (i k s : Nat) (σ : EvalState)
    (h : σ.stop_all ≠ 0) : extended_seq_inner rand p i k s σ = some σ := by
  cases k with
  | zero => rfl
  | succ k => simp [extended_seq_inner, h]

theorem extended_seq_outer_stopped (rand : RandSeq) (policies : List Policy) (k i : Nat)
    (σ : EvalState) (h : σ.stop_all ≠ 0) :
    extended_seq_outer rand policies k i σ = some σ := by
  cases k with
  | zero => rfl
  | succ k => simp [extended_seq_outer, h]

theorem extended_seq_inner_spec (rand : RandSeq) (policies : List Policy) (p : Policy) (i : Nat)
    (hp : policies[i]? = some p) :
    ∀ (suf pre : List RemarkableState) (σ : EvalState), p.states = pre ++ suf →
      σ.stop_all = 0 →
      ∃ σ1, extended_seq_inner rand p i suf.length pre.length σ = some σ1 ∧
        σ1.trace =
          σ.trace ++ take_until (stops policies) (policy_cells i pre.length suf.length) ∧
        σ1.invalid_count = σ.invalid_count +
          (take_until (stops policies) (policy_cells i pre.length suf.length)).countP
            (state_invalid policies) ∧
        σ1.stop_all =
          (if (policy_cells i pre.length suf.length).any (stops policies) then 1 else 0) ∧
        σ1.stop_writes = σ.stop_writes +
          (if (policy_cells i pre.length suf.length).any (stops policies) then 1 else 0) := by
  intro suf
  induction suf with
  | nil =>
    intro pre σ _ h0
    exact ⟨σ, by simp [extended_seq_inner], by simp [policy_cells_zero, take_until],
      by simp [policy_cells_zero, take_until], by simp [policy_cells_zero, h0],
      by simp [policy_cells_zero]⟩
  | cons st suf ih =>
    intro pre σ h h0
    obtain ⟨cnt, sa, rc, sw, tr⟩ := σ
    simp only at h0
    subst h0
    have hget : p.states[pre.length]? = some st := by
      rw [h]; exact getElem?_append_cons pre st suf
    have h1 : p.states = (pre ++ [st]) ++ suf := by simp [h]
    have hinv : state_invalid policies (i, pre.length) = decide (st.is_invalid ≠ 0) := by
      simp [state_invalid, hp, Policy.invalid_at, hget]
    have hstop : stops policies (i, pre.length) =
        (decide (st.is_invalid ≠ 0) && decide (p.is_mandatory ≠ 0)) := by
      simp [stops, hp, Policy.invalid_at, hget]
    rw [List.length_cons, policy_cells_succ, List.any_cons]
    simp only [extended_seq_inner, ne_eq, not_true_eq_false, if_false, hget]
    by_cases hi : st.is_invalid = 0
    · obtain ⟨σ1, e1, e2, e3, e4, e5⟩ := ih (pre ++ [st])
        { invalid_count := cnt, stop_all := 0,
          rand_calls := (evaluate_state rand rc st).2, stop_writes := sw,
          trace := tr ++ [(i, pre.length)] } h1 rfl
      rw [List.length_append, List.length_singleton] at e1 e2 e3 e4 e5
      have hs : stops policies (i, pre.length) = false := by simp [hstop, hi]
      have hv : state_invalid policies (i, pre.length) = false := by simp [hinv, hi]
      rw [hs, Bool.false_or]
      refine ⟨σ1, ?_, ?_, ?_, e4, e5⟩
      · simpa [hi] using e1
      · simp [e2, take_until, hs]
      · simp [e3, take_until, hs, hv]
    · by_cases hm : p.is_mandatory = 0
      · obtain ⟨σ1, e1, e2, e3, e4, e5⟩ := ih (pre ++ [st])
          { invalid_count := cnt + 1, stop_all := 0,
            rand_calls := (evaluate_state rand rc st).2, stop_writes := sw,
            trace := tr ++ [(i, pre.length)] } h1 rfl
        rw [List.length_append, List.length_singleton] at e1 e2 e3 e4 e5
        have hs : stops policies (i, pre.length) = false := by simp [hstop, hm]
        have hv : state_invalid policies (i, pre.length) = true := by simp [hinv, hi]
        rw [hs, Bool.false_or]
        refine ⟨σ1, ?_, ?_, ?_, e4, e5⟩
        · simpa [hi, hm] using e1
        · simp [e2, take_until, hs]
        · simp [e3, take_until, hs, hv]; omega
      · have hs : stops policies (i, pre.length) = true := by simp [hstop, hi, hm]
        have hv : state_invalid policies (i, pre.length) = true := by simp [hinv, hi]
        rw [hs, Bool.true_or]
        refine ⟨{ invalid_count := cnt + 1, stop_all := 1,
                  rand_calls := (evaluate_state rand rc st).2,
                  stop_writes := sw + 1,
                  trace := tr ++ [(i, pre.length)] }, ?_, ?_, ?_, ?_, ?_⟩
        · simp only [hi, hm, ne_eq, not_false_eq_true, if_true]
          exact extended_seq_inner_stopped rand p i _ _ _ (by simp)
        · simp [take_until, hs]
        · simp [take_until, hs, hv]
        · simp
        · simp

theorem extended_seq_outer_spec (rand : RandSeq) (policies : List Policy) :
    ∀ (suf pre : List Policy) (σ : EvalState), policies = pre ++ suf →
      (∀ p ∈ suf, p.states.length = p.num_states) → σ.stop_all = 0 →
      ∃ σ1, extended_seq_outer rand policies suf.length pre.length σ = some σ1 ∧
        σ1.trace = σ.trace ++
          take_until (stops policies) (cells_from pre.length (suf.map (fun p => p.num_states))) ∧
        σ1.invalid_count = σ.invalid_count +
          (take_until (stops policies)
            (cells_from pre.length (suf.map (fun p => p.num_states)))).countP
            (state_invalid policies) ∧
        σ1.stop_all =
          (if (cells_from pre.length (suf.map (fun p => p.num_states))).any (stops policies)
            then 1 else 0) ∧
        σ1.stop_writes = σ.stop_writes +
          (if (cells_from pre.length (suf.map (fun p => p.num_states))).any (stops policies)
            then 1 else 0) := by
  intro suf
  induction suf with
  | nil =>
    intro pre σ _ _ h0
    exact ⟨σ, by simp [extended_seq_outer], by simp [cells_from, take_until],
      by simp [cells_from, take_until], by simp [cells_from, h0], by simp [cells_from]⟩
  | cons p suf ih =>
    intro pre σ h hwf h0
    have hget : policies[pre.length]? = some p := by
      rw [h]; exact getElem?_append_cons pre p suf
    have hlen : p.states.length = p.num_states := hwf p (List.mem_cons_self p suf)
    obtain ⟨σ1, e1, e2, e3, e4, e5⟩ :=
      extended_seq_inner_spec rand policies p pre.length hget p.states [] σ rfl h0
    rw [hlen] at e1 e2 e3 e4 e5
    simp only [List.length_nil] at e1 e2 e3 e4 e5
    rw [List.length_cons, List.map_cons, cells_from, take_until_append, List.any_append]
    simp only [extended_seq_outer, h0, ne_eq, not_true_eq_false, if_false, hget, e1]
    by_cases hany : (policy_cells pre.length 0 p.num_states).any (stops policies) = true
    · have hs1 : σ1.stop_all ≠ 0 := by rw [e4, if_pos hany]; decide
      rw [hany, Bool.true_or]
      rw [if_pos hany] at e4 e5
      exact ⟨σ1, extended_seq_outer_stopped rand policies _ _ σ1 hs1, by simp [e2],
        by simp [e3], by simp [e4], by simp [e5]⟩
    · have hs1 : σ1.stop_all = 0 := by rw [e4, if_neg hany]
      obtain ⟨σ2, f1, f2, f3, f4, f5⟩ := ih (pre ++ [p]) σ1 (by simp [h])
        (fun q hq => hwf q (List.mem_cons_of_mem p hq)) hs1
      rw [List.length_append, List.length_singleton] at f1 f2 f3 f4 f5
      have hany1 : (policy_cells pre.length 0 p.num_states).any (stops policies) = false := by
        simpa using hany
      have hself : take_until (stops policies) (policy_cells pre.length 0 p.num_states) =
          policy_cells pre.length 0 p.num_states :=
        take_until_eq_self _ _ (fun a ha => by
          have := List.any_eq_false.mp hany1 a ha; simpa using this)
      rw [if_neg hany] at e4 e5
      rw [hself] at e2 e3
      rw [hany1, Bool.false_or, if_neg (by simp)]
      refine ⟨σ2, f1, ?_, ?_, f4, ?_⟩
      · rw [f2, e2, List.append_assoc]
      · rw [f3, e3, List.countP_append]; omega
      · rw [f5, e5]; omega

end Extended

theorem length_policy_cells (i s k : Nat) : (policy_cells i s k).length = k := by
  simp [policy_cells]

theorem length_cells_from (sizes : List Nat) (i : Nat) :
    (cells_from i sizes).length = sizes.sum := by
  induction sizes generalizing i with
  | nil => rfl
  | cons n sizes ih => simp [cells_from, length_policy_cells, ih]

theorem length_take_until_le {α : Type} (q : α → Bool) (l : List α) :
    (take_until q l).length ≤ l.length := by
  induction l with
  | nil => simp [take_until]
  | cons a l ih =>
    by_cases h : q a
    · simp [take_until, h]
    · simp [take_until, h, ih]

theorem countP_take_until {α : Type} (q : α → Bool) (l : List α) :
    (take_until q l).countP q = if l.any q then 1 else 0 := by
  induction l with
  | nil => simp [take_until]
  | cons a l ih =>
    by_cases h : q a
    · simp [take_until, h]
    · have h1 : q a = false := by simpa using h
      rw [List.any_cons, h1, Bool.false_or, ← ih]
      simp [take_until, h1]

theorem sum_map_const {α : Type} (f : α → Nat) (n : Nat) (l : List α)
    (h : ∀ a ∈ l, f a = n) : (l.map f).sum = l.length * n := by
  induction l with
  | nil => simp
  | cons a l ih =>
    rw [List.map_cons, List.sum_cons, ih (fun b hb => h b (List.mem_cons_of_mem a hb)),
      h a (List.mem_cons_self a l), List.length_cons]
    ring

theorem sum_map_le {α : Type} (f g : α → Nat) (l : List α) (h : ∀ a ∈ l, f a ≤ g a) :
    (l.map f).sum ≤ (l.map g).sum := by
  induction l with
  | nil => simp
  | cons a l ih =>
    have h1 := h a (List.mem_cons_self a l)
    have h2 := ih (fun b hb => h b (List.mem_cons_of_mem a hb))
    simp only [List.map_cons, List.sum_cons]
    omega

namespace Classic

theorem classic_seq_run (policies : List Policy) (num_policies : Nat) (rand : RandSeq) (c : Nat)
    (hwf : WellFormed policies num_policies) :
    ∃ σ, evaluate_policies_classic_seq policies num_policies rand c = some σ ∧
      σ.invalid_count = invalid_states policies ∧ σ.trace = all_cells policies := by
  obtain ⟨hlen, hst⟩ := hwf
  obtain ⟨σ, e1, e2, e3⟩ := classic_seq_outer_spec rand policies policies []
    { invalid_count := 0, rand_calls := c, trace := [] } rfl hst
  rw [hlen] at e1
  exact ⟨σ, e1, by simpa using e2, by simpa [all_cells] using e3⟩

theorem invalid_states_le (policies : List Policy) :
    invalid_states policies ≤ (policies.map (fun p => p.states.length)).sum :=
  sum_map_le _ _ _ (fun _ _ => List.countP_le_length _)

end Classic

namespace Extended

theorem countP_policy_cells (policies : List Policy) (p : Policy) (i : Nat)
    (hp : policies[i]? = some p) :
    ∀ (suf pre : List RemarkableState), p.states = pre ++ suf →
      (policy_cells i pre.length suf.length).countP (state_invalid policies) =
        suf.countP (fun st => decide (st.is_invalid ≠ 0)) := by
  intro suf
  induction suf with
  | nil => intro pre _; simp [policy_cells_zero]
  | cons st suf ih =>
    intro pre h
    have hget : p.states[pre.length]? = some st := by
      rw [h]; exact getElem?_append_cons pre st suf
    have hinv : state_invalid policies (i, pre.length) = decide (st.is_invalid ≠ 0) := by
      simp [state_invalid, hp, Policy.invalid_at, hget]
    have e := ih (pre ++ [st]) (by simp [h])
    rw [List.length_append, List.length_singleton] at e
    rw [List.length_cons, policy_cells_succ, List.countP_cons, List.countP_cons, e, hinv]

theorem countP_cells_from (policies : List Policy) :
    ∀ (suf pre : List Policy), policies = pre ++ suf →
      (∀ p ∈ suf, p.states.length = p.num_states) →
      (cells_from pre.length (suf.map (fun p => p.num_states))).countP (state_invalid policies) =
        invalid_states suf := by
  intro suf
  induction suf with
  | nil => intro pre _ _; simp [cells_from, invalid_states]
  | cons p suf ih =>
    intro pre h hwf
    have hget : policies[pre.length]? = some p := by
      rw [h]; exact getElem?_append_cons pre p suf
    have hlen : p.states.length = p.num_states := hwf p (List.mem_cons_self p suf)
    have e1 := countP_policy_cells policies p pre.length hget p.states [] rfl
    rw [hlen] at e1
    simp only [List.length_nil] at e1
    have e2 := ih (pre ++ [p]) (by simp [h]) (fun q hq => hwf q (List.mem_cons_of_mem p hq))
    rw [List.length_append, List.length_singleton] at e2
    rw [List.map_cons, cells_from, List.countP_append, e1, e2]
    simp [invalid_states]

theorem countP_all_cells (policies : List Policy) (num_policies : Nat)
    (hwf : WellFormed policies num_policies) :
    (all_cells policies).countP (state_invalid policies) = invalid_states policies :=
  countP_cells_from policies policies [] rfl hwf.2

theorem extended_seq_run (policies : List Policy) (num_policies : Nat) (rand : RandSeq)
    (c : Nat) (s0 : Int) (hwf : WellFormed policies num_policies) :
    ∃ σ, evaluate_policies_extended_sequential policies num_policies rand c s0 = some σ ∧
      σ.trace = take_until (stops policies) (all_cells policies) ∧
      σ.invalid_count = (take_until (stops policies) (all_cells policies)).countP
        (state_invalid policies) ∧
      σ.stop_all = (if (all_cells policies).any (stops policies) then 1 else 0) ∧
      σ.stop_writes = (if (all_cells policies).any (stops policies) then 1 else 0) := by
  obtain ⟨hlen, hst⟩ := hwf
  obtain ⟨σ, e1, e2, e3, e4, e5⟩ := extended_seq_outer_spec rand policies policies []
    { invalid_count := 0, stop_all := 0, rand_calls := c, stop_writes := 0, trace := [] }
    rfl hst rfl
  rw [hlen] at e1
  exact ⟨σ, e1, by simpa [all_cells] using e2, by simpa [all_cells] using e3,
    by simpa [all_cells] using e4, by simpa [all_cells] using e5⟩

theorem stops_imp_invalid (policies : List Policy) (c : Nat × Nat)
    (h : stops policies c = true) : state_invalid policies c = true := by
  unfold stops at h
  unfold state_invalid
  cases hp : policies[c.1]? with
  | none => simp [hp] at h
  | some p =>
    simp only [hp, Bool.and_eq_true] at h
    exact h.1

end Extended

/-! ## The invalidation step -/

theorem sum_map_set {α : Type} (f : α → Nat) :
    ∀ (l : List α) (i : Nat) (a b : α), l[i]? = some a →
      ((l.set i b).map f).sum + f a = (l.map f).sum + f b := by
  intro l
  induction l with
  | nil => intro i a b h; simp at h
  | cons x l ih =>
    intro i a b h
    cases i with
    | zero =>
      simp only [List.getElem?_cons_zero, Option.some.injEq] at h
      subst h
      simp only [List.set_cons_zero, List.map_cons, List.sum_cons]
      omega
    | succ i =>
      simp only [List.getElem?_cons_succ] at h
      have := ih i a b h
      simp only [List.set_cons_succ, List.map_cons, List.sum_cons]
      omega

theorem countP_set {α : Type} (q : α → Bool) :
    ∀ (l : List α) (i : Nat) (a b : α), l[i]? = some a →
      (l.set i b).countP q + (if q a then 1 else 0) =
        l.countP q + (if q b then 1 else 0) := by
  intro l
  induction l with
  | nil => intro i a b h; simp at h
  | cons x l ih =>
    intro i a b h
    cases i with
    | zero =>
      simp only [List.getElem?_cons_zero, Option.some.injEq] at h
      subst h
      simp only [List.set_cons_zero, List.countP_cons]
      omega
    | succ i =>
      simp only [List.getElem?_cons_succ] at h
      have := ih i a b h
      simp only [List.set_cons_succ, List.countP_cons]
      omega

theorem mem_of_getElem? {α : Type} {l : List α} {i : Nat} {a : α} (h : l[i]? = some a) :
    a ∈ l := by
  rw [List.getElem?_eq_some_iff] at h
  obtain ⟨hi, rfl⟩ := h
  exact List.getElem_mem hi

namespace Extended

theorem store_invalid_eq {policies policies1 : List Policy} {pi si : Nat}
    (h : store_invalid policies pi si = some policies1) :
    ∃ p st, policies[pi]? = some p ∧ p.states[si]? = some st ∧
      policies1 = policies.set pi
        { p with states := p.states.set si { st with is_invalid := 1 } } := by
  unfold store_invalid at h
  cases hp : policies[pi]? with
  | none => simp [hp] at h
  | some p =>
    cases hs : p.states[si]? with
    | none => simp [hp, hs] at h
    | some st =>
      simp only [hp, hs, Option.some.injEq] at h
      exact ⟨p, st, rfl, hs, h.symm⟩

theorem store_invalid_some {policies : List Policy} {pi si : Nat} {p : Policy}
    {st : RemarkableState} (hp : policies[pi]? = some p) (hs : p.states[si]? = some st) :
    store_invalid policies pi si = some (policies.set pi
      { p with states := p.states.set si { st with is_invalid := 1 } }) := by
  simp [store_invalid, hp, hs]

theorem invalid_states_set {policies : List Policy} {pi si : Nat} {p : Policy}
    {st : RemarkableState} (hp : policies[pi]? = some p) (hs : p.states[si]? = some st) :
    invalid_states (policies.set pi
        { p with states := p.states.set si { st with is_invalid := 1 } }) =
      invalid_states policies + (if st.is_invalid = 0 then 1 else 0) := by
  have h1 := sum_map_set
    (fun p : Policy => p.states.countP (fun st => decide (st.is_invalid ≠ 0)))
    policies pi p { p with states := p.states.set si { st with is_invalid := 1 } } hp
  have h2 := countP_set (fun st : RemarkableState => decide (st.is_invalid ≠ 0))
    p.states si st { st with is_invalid := 1 } hs
  have e1 : (if decide (st.is_invalid ≠ 0) = true then 1 else 0) +
      (if st.is_invalid = 0 then 1 else 0) = 1 := by
    by_cases hi : st.is_invalid = 0 <;> simp [hi]
  have e2 : (if decide (({ st with is_invalid := 1 } : RemarkableState).is_invalid ≠ 0) = true
      then 1 else 0) = 1 := by simp
  beta_reduce at h1 h2
  rw [e2] at h2
  dsimp only at h1
  unfold invalid_states
  omega

theorem mem_set_store {policies : List Policy} {pi si : Nat} {p q : Policy}
    {st : RemarkableState}
    (hq : q ∈ policies.set pi { p with states := p.states.set si { st with is_invalid := 1 } }) :
    q ∈ policies ∨
      q = { p with states := p.states.set si { st with is_invalid := 1 } } :=
  List.mem_or_eq_of_mem_set hq

theorem uniform_set {policies : List Policy} {num_policies states_per_policy pi si : Nat}
    {p : Policy} {st : RemarkableState} (hu : Uniform policies num_policies states_per_policy)
    (hp : policies[pi]? = some p) :
    Uniform (policies.set pi { p with states := p.states.set si { st with is_invalid := 1 } })
      num_policies states_per_policy := by
  refine ⟨by simpa using hu.1, fun q hq => ?_⟩
  rcases mem_set_store hq with h | h
  · exact hu.2 q h
  · subst h
    have := hu.2 p (mem_of_getElem? hp)
    simpa using this

end Extended

namespace Extended

theorem uniform_wellFormed {policies : List Policy} {num_policies states_per_policy : Nat}
    (hu : Uniform policies num_policies states_per_policy) :
    WellFormed policies num_policies :=
  ⟨hu.1, fun p hp => by rw [(hu.2 p hp).1, (hu.2 p hp).2]⟩

theorem invalidation_body_cases {rand : RandSeq} {num_policies : Nat} {target_mode : Int}
    {σ σ1 : InvalState} (h : invalidation_body rand num_policies target_mode σ = some σ1) :
    σ1.attempts = σ.attempts + 1 ∧
    ((σ1.policies = σ.policies ∧ σ1.to_invalidate = σ.to_invalidate ∧
        ∃ (pi : Nat) (p : Policy), σ.policies[pi]? = some p ∧
          (((target_mode = 1 ∧ p.is_mandatory = 0) ∨
              (target_mode = -1 ∧ p.is_mandatory = 1)) ∨
            ∃ (si : Nat) (st : RemarkableState),
              p.states[si]? = some st ∧ st.is_invalid ≠ 0)) ∨
      (∃ (pi si : Nat) (p : Policy) (st : RemarkableState),
        σ.policies[pi]? = some p ∧ p.states[si]? = some st ∧ st.is_invalid = 0 ∧
        ¬((target_mode = 1 ∧ p.is_mandatory = 0) ∨
          (target_mode = -1 ∧ p.is_mandatory = 1)) ∧
        σ1.policies = σ.policies.set pi
          { p with states := p.states.set si { st with is_invalid := 1 } } ∧
        σ1.to_invalidate = σ.to_invalidate - 1)) := by
  unfold invalidation_body at h
  by_cases hnp : num_policies = 0
  · simp [hnp] at h
  · simp only [hnp, if_false] at h
    cases hp : σ.policies[rand σ.rand_calls % num_policies]? with
    | none => simp [hp] at h
    | some p =>
      simp only [hp] at h
      by_cases hskip : (target_mode = 1 ∧ p.is_mandatory = 0) ∨
          (target_mode = -1 ∧ p.is_mandatory = 1)
      · simp only [hskip, if_true, Option.some.injEq] at h
        subst h
        exact ⟨rfl, Or.inl ⟨rfl, rfl, _, p, hp, Or.inl hskip⟩⟩
      · simp only [hskip, if_false] at h
        by_cases hns : p.num_states = 0
        · simp [hns] at h
        · simp only [hns, if_false] at h
          cases hs : p.states[rand (σ.rand_calls + 1) % p.num_states]? with
          | none => simp [hs] at h
          | some st =>
            simp only [hs] at h
            by_cases hi : st.is_invalid = 0
            · simp only [hi, if_true, store_invalid_some hp hs, Option.some.injEq] at h
              subst h
              exact ⟨rfl, Or.inr ⟨_, _, p, st, hp, hs, hi, hskip, rfl, rfl⟩⟩
            · simp only [hi, if_false, Option.some.injEq] at h
              subst h
              exact ⟨rfl, Or.inl ⟨rfl, rfl, _, p, hp, Or.inr ⟨_, st, hs, hi⟩⟩⟩

theorem invalidation_body_some (rand : RandSeq) {num_policies states_per_policy : Nat}
    (target_mode : Int) {σ : InvalState}
    (hu : Uniform σ.policies num_policies states_per_policy)
    (hnp : 0 < num_policies) (hspp : 0 < states_per_policy) :
    ∃ σ1, invalidation_body rand num_policies target_mode σ = some σ1 := by
  unfold invalidation_body
  have hnp0 : num_policies ≠ 0 := by omega
  have hlt : rand σ.rand_calls % num_policies < σ.policies.length := by
    rw [hu.1]; exact Nat.mod_lt _ hnp
  obtain ⟨p, hp⟩ : ∃ p, σ.policies[rand σ.rand_calls % num_policies]? = some p :=
    ⟨_, List.getElem?_eq_getElem hlt⟩
  obtain ⟨hn, hl⟩ := hu.2 p (mem_of_getElem? hp)
  have hns : p.num_states ≠ 0 := by omega
  have hlt2 : rand (σ.rand_calls + 1) % p.num_states < p.states.length := by
    rw [hl, hn]; exact Nat.mod_lt _ hspp
  obtain ⟨st, hs⟩ : ∃ st, p.states[rand (σ.rand_calls + 1) % p.num_states]? = some st :=
    ⟨_, List.getElem?_eq_getElem hlt2⟩
  simp only [hnp0, if_false, hp, hns, hs, store_invalid_some hp hs]
  split
  · exact ⟨_, rfl⟩
  · split
    · exact ⟨_, rfl⟩
    · exact ⟨_, rfl⟩

theorem invalidation_body_uniform {rand : RandSeq} {num_policies states_per_policy : Nat}
    {target_mode : Int} {σ σ1 : InvalState}
    (hu : Uniform σ.policies num_policies states_per_policy)
    (h : invalidation_body rand num_policies target_mode σ = some σ1) :
    Uniform σ1.policies num_policies states_per_policy := by
  obtain ⟨-, h1 | h1⟩ := invalidation_body_cases h
  · rw [h1.1]; exact hu
  · obtain ⟨pi, si, p, st, hp, -, -, -, e, -⟩ := h1
    rw [e]; exact uniform_set hu hp

/-- The loop rule for the `while` loop of `apply_invalidation_extended`: with more fuel than
passes left, the loop returns, in a state where its condition is false, and every property
kept by the passes holds there. -/
theorem invalidation_loop_invariant (rand : RandSeq) (num_policies states_per_policy : Nat)
    (target_mode : Int) (P : InvalState → Prop)
    (hstep : ∀ σ σ1, loop_condition (num_policies * states_per_policy) σ →
      Uniform σ.policies num_policies states_per_policy → P σ →
      invalidation_body rand num_policies target_mode σ = some σ1 → P σ1) :
    ∀ (fuel : Nat) (σ : InvalState),
      num_policies * states_per_policy * 10 < fuel + σ.attempts →
      σ.attempts ≤ num_policies * states_per_policy * 10 →
      Uniform σ.policies num_policies states_per_policy → P σ →
      ∃ σ1, invalidation_loop rand num_policies (num_policies * states_per_policy)
          target_mode fuel σ = some σ1 ∧
        Uniform σ1.policies num_policies states_per_policy ∧ P σ1 ∧
        ¬ loop_condition (num_policies * states_per_policy) σ1 ∧
        σ1.attempts ≤ num_policies * states_per_policy * 10 := by
  intro fuel
  induction fuel with
  | zero => intro σ h1 h2 _ _; omega
  | succ fuel ih =>
    intro σ h1 h2 hu hP
    unfold invalidation_loop
    by_cases hc : σ.to_invalidate > 0 ∧ σ.attempts < num_policies * states_per_policy * 10
    · rw [if_pos hc]
      have hpos : 0 < num_policies * states_per_policy := by omega
      have hnp : 0 < num_policies := Nat.pos_of_mul_pos_right hpos
      have hspp : 0 < states_per_policy := Nat.pos_of_mul_pos_left hpos
      obtain ⟨σ1, hb⟩ := invalidation_body_some rand target_mode hu hnp hspp
      have hatt := (invalidation_body_cases hb).1
      obtain ⟨σ2, e1, e2, e3, e4, e5⟩ := ih σ1 (by omega) (by omega)
        (invalidation_body_uniform hu hb) (hstep σ σ1 hc hu hP hb)
      exact ⟨σ2, by simp only [hb]; exact e1, e2, e3, e4, e5⟩
    · rw [if_neg hc]
      exact ⟨σ, rfl, hu, hP, hc, h2⟩

theorem apply_invalidation_extended_invariant (rand : RandSeq)
    (num_policies states_per_policy : Nat) (inval_rate : ℚ) (target_mode : Int) (c : Nat)
    (policies : List Policy) (P : InvalState → Prop)
    (hstep : ∀ σ σ1, loop_condition (num_policies * states_per_policy) σ →
      Uniform σ.policies num_policies states_per_policy → P σ →
      invalidation_body rand num_policies target_mode σ = some σ1 → P σ1)
    (hu : Uniform policies num_policies states_per_policy)
    (h0 : P (invalidation_start policies num_policies states_per_policy inval_rate c)) :
    ∃ σ1, apply_invalidation_extended policies num_policies states_per_policy inval_rate
          target_mode rand c = some σ1 ∧
        Uniform σ1.policies num_policies states_per_policy ∧ P σ1 ∧
        ¬ loop_condition (num_policies * states_per_policy) σ1 ∧
        σ1.attempts ≤ num_policies * states_per_policy * 10 := by
  unfold apply_invalidation_extended
  exact invalidation_loop_invariant rand num_policies states_per_policy target_mode P hstep _ _
    (by simp [invalidation_start]) (by simp [invalidation_start])
    (by simpa [invalidation_start] using hu) h0

end Extended

/-! ## Conversions and population set-up -/

theorem c_double_to_int_of_nonneg (x : ℚ) (h : 0 ≤ x) : c_double_to_int x = ⌊x⌋ := by
  unfold c_double_to_int
  rw [Rat.floor_def, Int.tdiv_eq_ediv]
  · exact Rat.num_nonneg.mpr h
  · exact Int.natCast_nonneg _

theorem c_double_to_int_mul_zero (n : Nat) : c_double_to_int ((n : ℚ) * 0) = 0 := by
  simp [c_double_to_int]

theorem c_double_to_int_zero_mul (x : ℚ) : c_double_to_int (((0 : Nat) : ℚ) * x) = 0 := by
  simp [c_double_to_int]

namespace Extended

theorem init_extended_states_spec (rand : RandSeq) :
    ∀ (k c : Nat), (init_extended_states rand k c).1.length = k ∧
      ∀ st ∈ (init_extended_states rand k c).1, st.is_invalid = 0 := by
  intro k
  induction k with
  | zero => intro c; simp [init_extended_states]
  | succ k ih =>
    intro c
    obtain ⟨h1, h2⟩ := ih (c + 2)
    refine ⟨by simp [init_extended_states, h1], fun st hst => ?_⟩
    simp only [init_extended_states, List.mem_cons] at hst
    rcases hst with rfl | hst
    · rfl
    · exact h2 st hst

theorem init_extended_outer_spec (rand : RandSeq) (states_per_policy : Nat)
    (mandatory_thresh : Int) :
    ∀ (k i c : Nat),
      (init_extended_outer rand states_per_policy mandatory_thresh k i c).1.length = k ∧
      ∀ (j : Nat) (p : Policy),
        (init_extended_outer rand states_per_policy mandatory_thresh k i c).1[j]? = some p →
        p.num_states = states_per_policy ∧ p.states.length = states_per_policy ∧
        (∀ st ∈ p.states, st.is_invalid = 0) ∧
        p.is_mandatory = (if ((i + j : Nat) : Int) < mandatory_thresh then 1 else 0) := by
  intro k
  induction k with
  | zero => intro i c; simp [init_extended_outer]
  | succ k ih =>
    intro i c
    obtain ⟨h1, h2⟩ := ih (i + 1) (init_extended_states rand states_per_policy c).2
    refine ⟨by simp [init_extended_outer, h1], fun j p hj => ?_⟩
    simp only [init_extended_outer] at hj
    cases j with
    | zero =>
      simp only [List.getElem?_cons_zero, Option.some.injEq] at hj
      subst hj
      obtain ⟨e1, e2⟩ := init_extended_states_spec rand states_per_policy c
      exact ⟨rfl, e1, e2, by simp⟩
    | succ j =>
      simp only [List.getElem?_cons_succ] at hj
      obtain ⟨e1, e2, e3, e4⟩ := h2 j p hj
      refine ⟨e1, e2, e3, ?_⟩
      rw [e4]
      have : i + 1 + j = i + (j + 1) := by omega
      rw [this]

theorem init_extended_policies_uniform (num_policies states_per_policy : Nat)
    (mandatory_ratio : ℚ) (rand : RandSeq) (c : Nat) :
    Uniform (init_extended_policies num_policies states_per_policy mandatory_ratio rand c).1
      num_policies states_per_policy := by
  unfold init_extended_policies
  obtain ⟨h1, h2⟩ := init_extended_outer_spec rand states_per_policy
    (c_double_to_int ((num_policies : ℚ) * mandatory_ratio)) num_policies 0 c
  refine ⟨h1, fun p hp => ?_⟩
  obtain ⟨j, hj⟩ := List.mem_iff_getElem?.mp hp
  exact ⟨(h2 j p hj).1, (h2 j p hj).2.1⟩

theorem init_extended_policies_fresh (num_policies states_per_policy : Nat)
    (mandatory_ratio : ℚ) (rand : RandSeq) (c : Nat) :
    Fresh (init_extended_policies num_policies states_per_policy mandatory_ratio rand c).1 := by
  unfold init_extended_policies
  obtain ⟨-, h2⟩ := init_extended_outer_spec rand states_per_policy
    (c_double_to_int ((num_policies : ℚ) * mandatory_ratio)) num_policies 0 c
  intro p hp
  obtain ⟨j, hj⟩ := List.mem_iff_getElem?.mp hp
  exact (h2 j p hj).2.2.1

theorem init_extended_policies_mandatory (num_policies states_per_policy : Nat)
    (mandatory_ratio : ℚ) (rand : RandSeq) (c : Nat) (j : Nat) (p : Policy)
    (hj : (init_extended_policies num_policies states_per_policy mandatory_ratio rand c).1[j]? =
      some p) :
    p.is_mandatory =
      (if (j : Int) < c_double_to_int ((num_policies : ℚ) * mandatory_ratio) then 1 else 0) := by
  unfold init_extended_policies at hj
  obtain ⟨-, h2⟩ := init_extended_outer_spec rand states_per_policy
    (c_double_to_int ((num_policies : ℚ) * mandatory_ratio)) num_policies 0 c
  have := (h2 j p hj).2.2.2
  simpa using this

theorem init_extended_policies_flags (num_policies states_per_policy : Nat)
    (mandatory_ratio : ℚ) (rand : RandSeq) (c : Nat) :
    ∀ p ∈ (init_extended_policies num_policies states_per_policy mandatory_ratio rand c).1,
      p.is_mandatory = 0 ∨ p.is_mandatory = 1 := by
  intro p hp
  obtain ⟨j, hj⟩ := List.mem_iff_getElem?.mp hp
  rw [init_extended_policies_mandatory _ _ _ _ _ j p hj]
  split
  · exact Or.inr rfl
  · exact Or.inl rfl

theorem fresh_invalid_states {policies : List Policy} (h : Fresh policies) :
    invalid_states policies = 0 := by
  unfold invalid_states
  apply List.sum_eq_zero
  intro n hn
  obtain ⟨p, hp, rfl⟩ := List.mem_map.mp hn
  rw [List.countP_eq_zero]
  intro st hst
  simp [h p hp st hst]

theorem fresh_state_invalid {policies : List Policy} (h : Fresh policies) (cell : Nat × Nat) :
    state_invalid policies cell = false := by
  unfold state_invalid
  cases hp : policies[cell.1]? with
  | none => rfl
  | some p =>
    simp only [Policy.invalid_at]
    cases hs : p.states[cell.2]? with
    | none => rfl
    | some st =>
      simp [h p (mem_of_getElem? hp) st (mem_of_getElem? hs)]

end Extended

namespace Extended

/-- The passes of the loop keep the sum of the number of invalid states and the remaining
quota. -/
theorem invalidation_body_balance {rand : RandSeq} {num_policies : Nat} {target_mode : Int}
    {σ σ1 : InvalState} (h : invalidation_body rand num_policies target_mode σ = some σ1) :
    (invalid_states σ1.policies : Int) + σ1.to_invalidate =
      (invalid_states σ.policies : Int) + σ.to_invalidate := by
  obtain ⟨-, h1 | h1⟩ := invalidation_body_cases h
  · rw [h1.1, h1.2.1]
  · obtain ⟨pi, si, p, st, hp, hs, hi, -, e1, e2⟩ := h1
    rw [e1, e2, invalid_states_set hp hs, if_pos hi]
    push_cast
    ring

end Extended

namespace Extended

/-- The passes of the loop leave the `is_mandatory` values in place. -/
theorem invalidation_body_flags {rand : RandSeq} {num_policies : Nat} {target_mode : Int}
    {σ σ1 : InvalState} (F : Int → Prop)
    (h : invalidation_body rand num_policies target_mode σ = some σ1)
    (hF : ∀ p ∈ σ.policies, F p.is_mandatory) : ∀ p ∈ σ1.policies, F p.is_mandatory := by
  obtain ⟨-, h1 | h1⟩ := invalidation_body_cases h
  · rw [h1.1]; exact hF
  · obtain ⟨pi, si, p, st, hp, -, -, -, e1, -⟩ := h1
    rw [e1]
    intro q hq
    rcases mem_set_store hq with hq | hq
    · exact hF q hq
    · subst hq
      exact hF p (mem_of_getElem? hp)

/-- A pass of the loop marks a state only in a policy that the target mode admits. -/
theorem invalidation_body_target {rand : RandSeq} {num_policies : Nat} {target_mode : Int}
    {σ σ1 : InvalState} (G : Int → Prop)
    (h : invalidation_body rand num_policies target_mode σ = some σ1)
    (hG : ∀ p ∈ σ.policies, ∀ st ∈ p.states, st.is_invalid ≠ 0 → G p.is_mandatory)
    (hadm : ∀ x : Int,
      ¬((target_mode = 1 ∧ x = 0) ∨ (target_mode = -1 ∧ x = 1)) →
        (∃ p ∈ σ.policies, p.is_mandatory = x) → G x) :
    ∀ p ∈ σ1.policies, ∀ st ∈ p.states, st.is_invalid ≠ 0 → G p.is_mandatory := by
  obtain ⟨-, h1 | h1⟩ := invalidation_body_cases h
  · rw [h1.1]; exact hG
  · obtain ⟨pi, si, p, st, hp, -, -, hskip, e1, -⟩ := h1
    rw [e1]
    intro q hq st1 hst1 hinv
    rcases mem_set_store hq with hq | hq
    · exact hG q hq st1 hst1 hinv
    · subst hq
      exact hadm p.is_mandatory hskip ⟨p, mem_of_getElem? hp, rfl⟩

end Extended

/-! ## The classic invalidation step -/

namespace Classic

theorem classic_uniform_wellFormed {policies : List Policy}
    {num_policies states_per_policy : Nat}
    (hu : Uniform policies num_policies states_per_policy) :
    WellFormed policies num_policies :=
  ⟨hu.1, fun p hp => by rw [(hu.2 p hp).1, (hu.2 p hp).2]⟩

theorem classic_store_invalid_some {policies : List Policy} {pi si : Nat} {p : Policy}
    {st : RemarkableState} (hp : policies[pi]? = some p) (hs : p.states[si]? = some st) :
    store_invalid policies pi si = some (policies.set pi
      { p with states := p.states.set si { st with is_invalid := 1 } }) := by
  simp [store_invalid, hp, hs]

theorem classic_invalid_states_set {policies : List Policy} {pi si : Nat} {p : Policy}
    {st : RemarkableState} (hp : policies[pi]? = some p) (hs : p.states[si]? = some st) :
    invalid_states (policies.set pi
        { p with states := p.states.set si { st with is_invalid := 1 } }) =
      invalid_states policies + (if st.is_invalid = 0 then 1 else 0) := by
  have h1 := sum_map_set
    (fun p : Policy => p.states.countP (fun st => decide (st.is_invalid ≠ 0)))
    policies pi p { p with states := p.states.set si { st with is_invalid := 1 } } hp
  have h2 := countP_set (fun st : RemarkableState => decide (st.is_invalid ≠ 0))
    p.states si st { st with is_invalid := 1 } hs
  have e1 : (if decide (st.is_invalid ≠ 0) = true then 1 else 0) +
      (if st.is_invalid = 0 then 1 else 0) = 1 := by
    by_cases hi : st.is_invalid = 0 <;> simp [hi]
  have e2 : (if decide (({ st with is_invalid := 1 } : RemarkableState).is_invalid ≠ 0) = true
      then 1 else 0) = 1 := by simp
  beta_reduce at h1 h2
  rw [e2] at h2
  dsimp only at h1
  unfold invalid_states
  omega

theorem classic_uniform_set {policies : List Policy} {num_policies states_per_policy pi si : Nat}
    {p : Policy} {st : RemarkableState} (hu : Uniform policies num_policies states_per_policy)
    (hp : policies[pi]? = some p) :
    Uniform (policies.set pi { p with states := p.states.set si { st with is_invalid := 1 } })
      num_policies states_per_policy := by
  refine ⟨by simpa using hu.1, fun q hq => ?_⟩
  rcases List.mem_or_eq_of_mem_set hq with h | h
  · exact hu.2 q h
  · subst h
    have := hu.2 p (mem_of_getElem? hp)
    simpa using this

theorem classic_state_invalid_set {policies : List Policy} {pi si : Nat} {p : Policy}
    {st : RemarkableState} (hp : policies[pi]? = some p) (hs : p.states[si]? = some st)
    (cell : Nat × Nat) :
    state_invalid (policies.set pi
        { p with states := p.states.set si { st with is_invalid := 1 } }) cell =
      (decide (cell = (pi, si)) || state_invalid policies cell) := by
  obtain ⟨a, b⟩ := cell
  have hpi : pi < policies.length := (List.getElem?_eq_some_iff.mp hp).1
  have hsi : si < p.states.length := (List.getElem?_eq_some_iff.mp hs).1
  unfold state_invalid
  by_cases h : pi = a
  · subst h
    simp only [List.getElem?_set, if_true, hpi, hp, Policy.invalid_at]
    by_cases h2 : si = b
    · subst h2
      simp [hsi]
    · have h3 : ¬ ((pi, b) = (pi, si)) := by
        intro hx; exact h2 (Prod.mk.inj hx).2.symm
      simp [h2, h3]
  · have h3 : ¬ ((a, b) = (pi, si)) := by
      intro hx; exact h (Prod.mk.inj hx).1.symm
    simp [List.getElem?_set, h, h3]

theorem classic_invalidation_loop_spec (rand : RandSeq) (num_policies states_per_policy : Nat)
    (hnp : 0 < num_policies) (hspp : 0 < states_per_policy) :
    ∀ (k : Nat) (policies : List Policy) (c : Nat),
      Uniform policies num_policies states_per_policy →
      ∃ policies1, invalidation_loop rand num_policies states_per_policy k policies c =
          some (policies1, c + 2 * k) ∧
        Uniform policies1 num_policies states_per_policy ∧
        invalid_states policies1 ≤ invalid_states policies + k ∧
        ∀ cell, state_invalid policies1 cell =
          (decide (cell ∈ draws rand num_policies states_per_policy k c) ||
            state_invalid policies cell) := by
  intro k
  induction k with
  | zero =>
    intro policies c hu
    exact ⟨policies, rfl, hu, by omega, fun cell => by simp [draws]⟩
  | succ k ih =>
    intro policies c hu
    have hlt : rand c % num_policies < policies.length := by
      rw [hu.1]; exact Nat.mod_lt _ hnp
    obtain ⟨p, hp⟩ : ∃ p, policies[rand c % num_policies]? = some p :=
      ⟨_, List.getElem?_eq_getElem hlt⟩
    obtain ⟨-, hl⟩ := hu.2 p (mem_of_getElem? hp)
    have hlt2 : rand (c + 1) % states_per_policy < p.states.length := by
      rw [hl]; exact Nat.mod_lt _ hspp
    obtain ⟨st, hs⟩ : ∃ st, p.states[rand (c + 1) % states_per_policy]? = some st :=
      ⟨_, List.getElem?_eq_getElem hlt2⟩
    obtain ⟨policies1, e1, e2, e3, e4⟩ := ih _ (c + 2)
      (@classic_uniform_set policies num_policies states_per_policy _
        (rand (c + 1) % states_per_policy) p st hu hp)
    have hnp0 : ¬ (num_policies = 0 ∨ states_per_policy = 0) := by omega
    refine ⟨policies1, ?_, e2, ?_, fun cell => ?_⟩
    · simp only [invalidation_loop, hnp0, if_false, classic_store_invalid_some hp hs, e1]
      congr 2
      omega
    · rw [classic_invalid_states_set hp hs] at e3
      split at e3 <;> omega
    · rw [e4 cell, classic_state_invalid_set hp hs cell]
      simp only [draws, List.mem_cons, Bool.decide_or, Bool.or_assoc]
      cases decide (cell ∈ draws rand num_policies states_per_policy k (c + 2)) <;>
        cases decide (cell = (rand c % num_policies, rand (c + 1) % states_per_policy)) <;> rfl

theorem classic_apply_invalidation_spec (rand : RandSeq) (num_policies states_per_policy : Nat)
    (inval_rate : ℚ) (policies : List Policy) (c : Nat)
    (hu : Uniform policies num_policies states_per_policy) :
    ∃ policies1, apply_invalidation_classic policies num_policies states_per_policy inval_rate
          rand c =
        some (policies1, c + 2 * (c_double_to_int
          (((num_policies * states_per_policy : Nat) : ℚ) * inval_rate)).toNat) ∧
      Uniform policies1 num_policies states_per_policy ∧
      invalid_states policies1 ≤ invalid_states policies +
        (c_double_to_int (((num_policies * states_per_policy : Nat) : ℚ) * inval_rate)).toNat ∧
      ∀ cell, state_invalid policies1 cell =
        (decide (cell ∈ draws rand num_policies states_per_policy
          (c_double_to_int (((num_policies * states_per_policy : Nat) : ℚ) * inval_rate)).toNat
            c) || state_invalid policies cell) := by
  unfold apply_invalidation_classic
  dsimp only
  by_cases h0 : num_policies * states_per_policy = 0
  · rw [h0, c_double_to_int_zero_mul]
    exact ⟨policies, rfl, hu, by simp, fun cell => by simp [draws]⟩
  · have hpos : 0 < num_policies * states_per_policy := Nat.pos_of_ne_zero h0
    exact classic_invalidation_loop_spec rand num_policies states_per_policy
      (Nat.pos_of_mul_pos_right hpos) (Nat.pos_of_mul_pos_left hpos) _ policies c hu

theorem init_classic_states_spec (rand : RandSeq) :
    ∀ (k c : Nat), (init_classic_states rand k c).1.length = k ∧
      (∀ st ∈ (init_classic_states rand k c).1, st.is_invalid = 0) ∧
      (init_classic_states rand k c).2 = c + k := by
  intro k
  induction k with
  | zero => intro c; simp [init_classic_states]
  | succ k ih =>
    intro c
    obtain ⟨h1, h2, h3⟩ := ih (c + 1)
    refine ⟨by simp [init_classic_states, h1], fun st hst => ?_, ?_⟩
    · simp only [init_classic_states, List.mem_cons] at hst
      rcases hst with rfl | hst
      · rfl
      · exact h2 st hst
    · simp only [init_classic_states, h3]; omega

theorem init_classic_outer_spec (rand : RandSeq) (states_per_policy : Nat) :
    ∀ (k c : Nat),
      Uniform (init_classic_outer rand states_per_policy k c).1 k states_per_policy ∧
      Fresh (init_classic_outer rand states_per_policy k c).1 ∧
      (init_classic_outer rand states_per_policy k c).2 = c + k * states_per_policy := by
  intro k
  induction k with
  | zero => intro c; simp [init_classic_outer, Uniform, Fresh]
  | succ k ih =>
    intro c
    obtain ⟨e1, e2, e3⟩ := init_classic_states_spec rand states_per_policy c
    obtain ⟨h1, h2, h3⟩ := ih (init_classic_states rand states_per_policy c).2
    refine ⟨⟨by simp [init_classic_outer, h1.1], fun p hp => ?_⟩, fun p hp => ?_, ?_⟩
    · simp only [init_classic_outer, List.mem_cons] at hp
      rcases hp with rfl | hp
      · exact ⟨rfl, e1⟩
      · exact h1.2 p hp
    · simp only [init_classic_outer, List.mem_cons] at hp
      rcases hp with rfl | hp
      · exact e2
      · exact h2 p hp
    · simp only [init_classic_outer]
      rw [h3, e3]; ring

theorem classic_fresh_invalid_states {policies : List Policy} (h : Fresh policies) :
    invalid_states policies = 0 := by
  unfold invalid_states
  apply List.sum_eq_zero
  intro n hn
  obtain ⟨p, hp, rfl⟩ := List.mem_map.mp hn
  rw [List.countP_eq_zero]
  intro st hst
  simp [h p hp st hst]

end Classic

namespace Classic

end Classic

theorem take_until_sublist {α : Type} (q : α → Bool) (l : List α) :
    List.Sublist (take_until q l) l := by
  rw [take_until_eq_take]
  exact List.take_sublist _ _

theorem floor_quota_nonneg (n : Nat) (x : ℚ) (h : 0 ≤ x) : 0 ≤ ⌊(n : ℚ) * x⌋ :=
  Int.floor_nonneg.mpr (mul_nonneg (Nat.cast_nonneg n) h)

namespace Classic

theorem classic_invalid_states_le_uniform {policies : List Policy}
    {num_policies states_per_policy : Nat}
    (hu : Uniform policies num_policies states_per_policy) :
    invalid_states policies ≤ num_policies * states_per_policy := by
  have h1 := invalid_states_le policies
  have h2 := sum_map_const (fun p : Policy => p.states.length) states_per_policy policies
    (fun p hp => (hu.2 p hp).2)
  rw [h2, hu.1] at h1
  exact h1

end Classic

namespace Extended

theorem extended_invalid_states_le_uniform {policies : List Policy}
    {num_policies states_per_policy : Nat}
    (hu : Uniform policies num_policies states_per_policy) :
    invalid_states policies ≤ num_policies * states_per_policy := by
  have h1 : invalid_states policies ≤ (policies.map (fun p => p.states.length)).sum :=
    sum_map_le _ _ _ (fun _ _ => List.countP_le_length _)
  have h2 := sum_map_const (fun p : Policy => p.states.length) states_per_policy policies
    (fun p hp => (hu.2 p hp).2)
  rw [h2, hu.1] at h1
  exact h1

theorem extended_seq_count_le (policies : List Policy) (num_policies : Nat) (rand : RandSeq)
    (c : Nat) (s0 : Int) (hwf : WellFormed policies num_policies) :
    ∃ σ, evaluate_policies_extended_sequential policies num_policies rand c s0 = some σ ∧
      σ.invalid_count ≤ invalid_states policies := by
  obtain ⟨σ, e1, -, e3, -, -⟩ := extended_seq_run policies num_policies rand c s0 hwf
  refine ⟨σ, e1, ?_⟩
  rw [e3, ← countP_all_cells policies num_policies hwf]
  exact List.Sublist.countP_le _ (take_until_sublist _ _)

end Extended

/-! ## Parallel evaluation, erasure and invalidation maps -/

theorem omp_reduce_sum_zero (l : List (Option Nat)) (h : ∀ x ∈ l, x = some 0) :
    omp_reduce_sum l = some 0 := by
  induction l with
  | nil => rfl
  | cons x l ih =>
    have h1 : x = some 0 := h x (List.mem_cons_self x l)
    have h2 := ih (fun y hy => h y (List.mem_cons_of_mem x hy))
    simp [omp_reduce_sum, h1, h2]

namespace Classic

theorem classic_par_inner_fresh (p : Policy) :
    ∀ (suf pre : List RemarkableState) (cnt : Nat), p.states = pre ++ suf →
      (∀ st ∈ suf, st.is_invalid = 0) →
      classic_par_inner p suf.length pre.length cnt = some cnt := by
  intro suf
  induction suf with
  | nil => intro pre cnt _ _; rfl
  | cons st suf ih =>
    intro pre cnt h hf
    have hget : p.states[pre.length]? = some st := by
      rw [h]; exact getElem?_append_cons pre st suf
    have h0 : st.is_invalid = 0 := hf st (List.mem_cons_self st suf)
    have e := ih (pre ++ [st]) cnt (by simp [h]) (fun x hx => hf x (List.mem_cons_of_mem st hx))
    rw [List.length_append, List.length_singleton] at e
    simp only [List.length_cons, classic_par_inner, hget, h0, ne_eq, not_true_eq_false, if_false]
    exact e

theorem classic_par_worker_fresh (policies : List Policy) (num_policies : Nat)
    (hwf : WellFormed policies num_policies) (hf : Fresh policies) :
    ∀ (chunk : List Nat) (cnt : Nat), (∀ i ∈ chunk, i < num_policies) →
      classic_par_worker policies chunk cnt = some cnt := by
  intro chunk
  induction chunk with
  | nil => intro cnt _; rfl
  | cons i rest ih =>
    intro cnt h
    have hlt : i < policies.length := by rw [hwf.1]; exact h i (List.mem_cons_self i rest)
    have hp : policies[i]? = some policies[i] := List.getElem?_eq_getElem hlt
    have hmem := mem_of_getElem? hp
    have e := classic_par_inner_fresh policies[i] policies[i].states [] cnt rfl
      (hf _ hmem)
    rw [hwf.2 _ hmem] at e
    simp only [List.length_nil] at e
    simp only [classic_par_worker, hp, e]
    exact ih cnt (fun j hj => h j (List.mem_cons_of_mem i hj))

theorem classic_par_fresh (policies : List Policy) (num_policies : Nat)
    (assignment : List (List Nat)) (hwf : WellFormed policies num_policies)
    (hf : Fresh policies) (ha : ValidAssignment num_policies assignment) :
    evaluate_policies_classic_par policies num_policies assignment = some 0 := by
  unfold evaluate_policies_classic_par
  apply omp_reduce_sum_zero
  intro x hx
  obtain ⟨chunk, hchunk, rfl⟩ := List.mem_map.mp hx
  apply classic_par_worker_fresh policies num_policies hwf hf
  intro i hi
  have h1 : i ∈ assignment.flatten := List.mem_flatten.mpr ⟨chunk, hchunk, hi⟩
  have h2 := (List.Perm.mem_iff ha).mp h1
  exact List.mem_range.mp h2

end Classic

namespace Extended

theorem extended_par_inner_fresh (p : Policy) (reads : Nat → Nat → Int) :
    ∀ (suf pre : List RemarkableState) (stop_policy : Int) (cnt : Nat), p.states = pre ++ suf →
      (∀ st ∈ suf, st.is_invalid = 0) →
      extended_par_inner p reads suf.length pre.length stop_policy cnt = some cnt := by
  intro suf
  induction suf with
  | nil => intro pre sp cnt _ _; rfl
  | cons st suf ih =>
    intro pre sp cnt h hf
    have hget : p.states[pre.length]? = some st := by
      rw [h]; exact getElem?_append_cons pre st suf
    have h0 : st.is_invalid = 0 := hf st (List.mem_cons_self st suf)
    have e := ih (pre ++ [st]) sp cnt (by simp [h])
      (fun x hx => hf x (List.mem_cons_of_mem st hx))
    rw [List.length_append, List.length_singleton] at e
    simp only [List.length_cons, extended_par_inner, hget, h0, ne_eq, not_true_eq_false, if_false]
    split
    · rfl
    · split
      · rfl
      · split
        · rfl
        · exact e

theorem extended_par_outer_fresh (policies : List Policy) (reads : Nat → Nat → Nat → Int)
    (hf : Fresh policies) :
    ∀ (suf pre : List Policy), policies = pre ++ suf →
      (∀ p ∈ suf, p.states.length = p.num_states) →
      ∀ x ∈ extended_par_outer policies reads suf.length pre.length, x = some 0 := by
  intro suf
  induction suf with
  | nil => intro pre _ _ x hx; simp [extended_par_outer] at hx
  | cons p suf ih =>
    intro pre h hwf x hx
    have hget : policies[pre.length]? = some p := by
      rw [h]; exact getElem?_append_cons pre p suf
    have e := extended_par_inner_fresh p (reads pre.length) p.states [] 0 0 rfl
      (hf p (mem_of_getElem? hget))
    rw [hwf p (List.mem_cons_self p suf)] at e
    simp only [List.length_nil] at e
    simp only [List.length_cons, extended_par_outer, hget, e, List.mem_cons] at hx
    rcases hx with rfl | hx
    · rfl
    · have e2 := ih (pre ++ [p]) (by simp [h]) (fun q hq => hwf q (List.mem_cons_of_mem p hq))
      rw [List.length_append, List.length_singleton] at e2
      exact e2 x hx

theorem extended_par_fresh (openmp : Bool) (policies : List Policy) (num_policies : Nat)
    (reads : Nat → Nat → Nat → Int) (hwf : WellFormed policies num_policies)
    (hf : Fresh policies) :
    evaluate_policies_extended_parallel openmp policies num_policies reads = some 0 := by
  unfold evaluate_policies_extended_parallel
  cases openmp with
  | false => rfl
  | true =>
    simp only [if_true]
    apply omp_reduce_sum_zero
    have := extended_par_outer_fresh policies reads hf policies [] rfl hwf.2
    rw [hwf.1] at this
    exact this

theorem stops_eq_false {policies : List Policy} (h : ∀ p ∈ policies, p.is_mandatory = 0)
    (cell : Nat × Nat) : stops policies cell = false := by
  unfold stops
  cases hp : policies[cell.1]? with
  | none => rfl
  | some p => simp [h p (mem_of_getElem? hp)]

theorem stops_eq_state_invalid {policies : List Policy}
    (h : ∀ p ∈ policies, p.is_mandatory ≠ 0) :
    stops policies = state_invalid policies := by
  funext cell
  unfold stops state_invalid
  cases hp : policies[cell.1]? with
  | none => rfl
  | some p => simp [h p (mem_of_getElem? hp)]

theorem erase_wellFormed {policies : List Policy} {num_policies : Nat}
    (hwf : WellFormed policies num_policies) :
    Classic.WellFormed (erase policies) num_policies := by
  refine ⟨by simpa [erase] using hwf.1, fun q hq => ?_⟩
  simp only [erase, List.mem_map] at hq
  obtain ⟨p, hp, rfl⟩ := hq
  simpa using hwf.2 p hp

theorem erase_invalid_states (policies : List Policy) :
    Classic.invalid_states (erase policies) = invalid_states policies := by
  unfold Classic.invalid_states invalid_states erase
  rw [List.map_map]
  congr 1
  apply List.map_congr_left
  intro p _
  simp only [Function.comp_apply, List.countP_map]
  rfl

theorem erase_all_cells (policies : List Policy) :
    Classic.all_cells (erase policies) = all_cells policies := by
  unfold Classic.all_cells all_cells erase
  rw [List.map_map]
  rfl

theorem set_invalid_states_length (m : Nat → Int) :
    ∀ (l : List RemarkableState) (s : Nat), (set_invalid_states m s l).length = l.length := by
  intro l
  induction l with
  | nil => intro s; rfl
  | cons st l ih => intro s; simp [set_invalid_states, ih]

theorem set_invalid_map_spec (m : Nat → Nat → Int) :
    ∀ (policies : List Policy) (i : Nat),
      (set_invalid_map m i policies).length = policies.length ∧
      ∀ p ∈ set_invalid_map m i policies, ∃ q ∈ policies,
        p.num_states = q.num_states ∧ p.is_mandatory = q.is_mandatory ∧
        p.states.length = q.states.length := by
  intro policies
  induction policies with
  | nil => intro i; simp [set_invalid_map]
  | cons q policies ih =>
    intro i
    obtain ⟨h1, h2⟩ := ih (i + 1)
    refine ⟨by simp [set_invalid_map, h1], fun p hp => ?_⟩
    simp only [set_invalid_map, List.mem_cons] at hp
    rcases hp with rfl | hp
    · exact ⟨q, List.mem_cons_self q policies, rfl, rfl, set_invalid_states_length _ _ _⟩
    · obtain ⟨q1, hq1, e⟩ := h2 p hp
      exact ⟨q1, List.mem_cons_of_mem q hq1, e⟩

end Extended

/-! ## Mandatory flags, delays and the classic reduction -/

theorem c_double_to_int_nonpos (x : ℚ) (h : x ≤ 0) : c_double_to_int x ≤ 0 := by
  unfold c_double_to_int
  have hnum : x.num ≤ 0 := Rat.num_nonpos.mpr h
  have h1 : 0 ≤ Int.tdiv (-x.num) (x.den : Int) :=
    Int.tdiv_nonneg (by omega) (Int.natCast_nonneg _)
  rw [Int.neg_tdiv] at h1
  omega

theorem lt_c_double_to_int_iff (j : Nat) (x : ℚ) :
    (j : Int) < c_double_to_int x ↔ (j : Int) < ⌊x⌋ := by
  by_cases h : 0 ≤ x
  · rw [c_double_to_int_of_nonneg x h]
  · have hx : x ≤ 0 := le_of_lt (not_le.mp h)
    have h1 := c_double_to_int_nonpos x hx
    have h2 : ⌊x⌋ ≤ 0 := by
      have := Int.floor_le_floor hx
      simpa using this
    constructor
    · intro h3; omega
    · intro h3; omega

theorem sum_map_flatten {α : Type} (g : α → Nat) (L : List (List α)) :
    (L.map (fun chunk => (chunk.map g).sum)).sum = (L.flatten.map g).sum := by
  induction L with
  | nil => rfl
  | cons chunk L ih => simp [ih]

theorem omp_reduce_sum_some (l : List Nat) :
    omp_reduce_sum (l.map some) = some l.sum := by
  induction l with
  | nil => rfl
  | cons a l ih => simp [omp_reduce_sum, ih]

theorem sum_range_getElem? {α : Type} (g : α → Nat) (l : List α) :
    ((List.range l.length).map (fun i => ((l[i]?).map g).getD 0)).sum = (l.map g).sum := by
  induction l with
  | nil => rfl
  | cons a l ih =>
    rw [List.length_cons, List.range_succ_eq_map, List.map_cons, List.sum_cons, List.map_map,
      List.map_cons, List.sum_cons, ← ih]
    simp [Function.comp_def]

namespace Extended

theorem init_extended_policies_length (num_policies states_per_policy : Nat)
    (mandatory_ratio : ℚ) (rand : RandSeq) (c : Nat) :
    (init_extended_policies num_policies states_per_policy mandatory_ratio rand c).1.length =
      num_policies :=
  (init_extended_policies_uniform num_policies states_per_policy mandatory_ratio rand c).1

theorem init_extended_policies_mandatory_list (num_policies states_per_policy : Nat)
    (mandatory_ratio : ℚ) (rand : RandSeq) (c : Nat) :
    (init_extended_policies num_policies states_per_policy mandatory_ratio rand c).1.map
        (fun p => p.is_mandatory) =
      (List.range num_policies).map
        (fun i : Nat => if (i : Int) < ⌊(num_policies : ℚ) * mandatory_ratio⌋ then 1 else 0) := by
  apply List.ext_getElem?
  intro j
  rw [List.getElem?_map, List.getElem?_map]
  by_cases hj : j < num_policies
  · have hlt : j < (init_extended_policies num_policies states_per_policy mandatory_ratio
        rand c).1.length := by rw [init_extended_policies_length]; exact hj
    have hp := List.getElem?_eq_getElem hlt
    rw [hp, Option.map_some', init_extended_policies_mandatory _ _ _ _ _ j _ hp,
      List.getElem?_range hj, Option.map_some']
    congr 1
    by_cases h : (j : Int) < ⌊(num_policies : ℚ) * mandatory_ratio⌋
    · rw [if_pos h, if_pos ((lt_c_double_to_int_iff j _).mpr h)]
    · rw [if_neg h, if_neg (fun h1 => h ((lt_c_double_to_int_iff j _).mp h1))]
  · have h1 : (init_extended_policies num_policies states_per_policy mandatory_ratio
        rand c).1[j]? = none := by
      apply List.getElem?_eq_none
      rw [init_extended_policies_length]; omega
    have h2 : (List.range num_policies)[j]? = none := by
      apply List.getElem?_eq_none
      rw [List.length_range]; omega
    rw [h1, h2]
    rfl

end Extended

namespace Classic

theorem classic_par_inner_spec (p : Policy) :
    ∀ (suf pre : List RemarkableState) (cnt : Nat), p.states = pre ++ suf →
      classic_par_inner p suf.length pre.length cnt =
        some (cnt + suf.countP (fun st => decide (st.is_invalid ≠ 0))) := by
  intro suf
  induction suf with
  | nil => intro pre cnt _; simp [classic_par_inner]
  | cons st suf ih =>
    intro pre cnt h
    have hget : p.states[pre.length]? = some st := by
      rw [h]; exact getElem?_append_cons pre st suf
    have e := ih (pre ++ [st]) (if st.is_invalid ≠ 0 then cnt + 1 else cnt) (by simp [h])
    rw [List.length_append, List.length_singleton] at e
    simp only [List.length_cons, classic_par_inner, hget]
    rw [e, List.countP_cons]
    by_cases hi : st.is_invalid = 0
    · simp [hi]
    · simp [hi]; omega

theorem classic_par_worker_spec (policies : List Policy) (num_policies : Nat)
    (hwf : WellFormed policies num_policies) :
    ∀ (chunk : List Nat) (cnt : Nat), (∀ i ∈ chunk, i < num_policies) →
      classic_par_worker policies chunk cnt =
        some (cnt + (chunk.map (policy_invalid policies)).sum) := by
  intro chunk
  induction chunk with
  | nil => intro cnt _; simp [classic_par_worker]
  | cons i rest ih =>
    intro cnt h
    have hlt : i < policies.length := by rw [hwf.1]; exact h i (List.mem_cons_self i rest)
    have hp : policies[i]? = some policies[i] := List.getElem?_eq_getElem hlt
    have e := classic_par_inner_spec policies[i] policies[i].states [] cnt rfl
    rw [hwf.2 _ (mem_of_getElem? hp)] at e
    simp only [List.length_nil] at e
    simp only [classic_par_worker, hp, e]
    rw [ih _ (fun j hj => h j (List.mem_cons_of_mem i hj)), List.map_cons, List.sum_cons]
    simp only [policy_invalid, hp]
    congr 1
    omega

theorem sum_policy_invalid (policies : List Policy) :
    ((List.range policies.length).map (policy_invalid policies)).sum =
      invalid_states policies := by
  have hfun : policy_invalid policies = fun i => ((policies[i]?).map
      (fun p : Policy => p.states.countP
        (fun st : RemarkableState => decide (st.is_invalid ≠ 0)))).getD 0 := by
    funext i
    unfold policy_invalid
    cases policies[i]? <;> rfl
  rw [hfun, sum_range_getElem?]
  rfl

/-- For every assignment of the iterations to threads the reduction gives the number of
invalid states. -/
theorem classic_par_spec (policies : List Policy) (num_policies : Nat)
    (assignment : List (List Nat)) (hwf : WellFormed policies num_policies)
    (ha : ValidAssignment num_policies assignment) :
    evaluate_policies_classic_par policies num_policies assignment =
      some (invalid_states policies) := by
  unfold evaluate_policies_classic_par
  have hin : ∀ chunk ∈ assignment, ∀ i ∈ chunk, i < num_policies := by
    intro chunk hchunk i hi
    have h1 : i ∈ assignment.flatten := List.mem_flatten.mpr ⟨chunk, hchunk, hi⟩
    exact List.mem_range.mp ((List.Perm.mem_iff ha).mp h1)
  have hmap : assignment.map (fun chunk => classic_par_worker policies chunk 0) =
      (assignment.map (fun chunk => (chunk.map (policy_invalid policies)).sum)).map some := by
    rw [List.map_map]
    apply List.map_congr_left
    intro chunk hchunk
    rw [classic_par_worker_spec policies num_policies hwf chunk 0 (hin chunk hchunk)]
    simp
  rw [hmap, omp_reduce_sum_some, sum_map_flatten]
  have hperm := List.Perm.sum_eq (List.Perm.map (policy_invalid policies) ha)
  rw [hperm, ← hwf.1, sum_policy_invalid]

end Classic

namespace Extended

/-- On a population of `num_policies` policies with `states_per_policy` states each,
`apply_invalidation_extended` returns. -/
theorem apply_invalidation_extended_returns (rand : RandSeq)
    (num_policies states_per_policy : Nat) (inval_rate : ℚ) (target_mode : Int) (c : Nat)
    (policies : List Policy) (hu : Uniform policies num_policies states_per_policy) :
    ∃ σ, apply_invalidation_extended policies num_policies states_per_policy inval_rate
        target_mode rand c = some σ ∧ Uniform σ.policies num_policies states_per_policy := by
  obtain ⟨σ, e, h, -, -, -⟩ := apply_invalidation_extended_invariant rand num_policies
    states_per_policy inval_rate target_mode c policies (fun _ => True)
    (fun _ _ _ _ _ _ => trivial) hu trivial
  exact ⟨σ, e, h⟩

end Extended

/-! ## Frames and the early stop -/

theorem forall₂_self {α : Type} (R : α → α → Prop) (h : ∀ a, R a a) (l : List α) :
    List.Forall₂ R l l := by
  induction l with
  | nil => exact List.Forall₂.nil
  | cons a l ih => exact List.Forall₂.cons (h a) ih

theorem forall₂_set {α : Type} (R : α → α → Prop) (h : ∀ a, R a a) :
    ∀ (l : List α) (i : Nat) (a b : α), l[i]? = some a → R a b →
      List.Forall₂ R l (l.set i b) := by
  intro l
  induction l with
  | nil => intro i a b hget; simp at hget
  | cons x l ih =>
    intro i a b hget hab
    cases i with
    | zero =>
      simp only [List.getElem?_cons_zero, Option.some.injEq] at hget
      subst hget
      exact List.Forall₂.cons hab (forall₂_self R h l)
    | succ i =>
      simp only [List.getElem?_cons_succ] at hget
      exact List.Forall₂.cons (h x) (ih i a b hget hab)

theorem forall₂_trans {α : Type} (R : α → α → Prop)
    (h : ∀ a b c, R a b → R b c → R a c) :
    ∀ (l1 l2 l3 : List α), List.Forall₂ R l1 l2 → List.Forall₂ R l2 l3 →
      List.Forall₂ R l1 l3 := by
  intro l1 l2 l3 h12
  induction h12 generalizing l3 with
  | nil => intro h23; cases h23; exact List.Forall₂.nil
  | cons hab _ ih =>
    intro h23
    cases h23 with
    | cons hbc h23 => exact List.Forall₂.cons (h _ _ _ hab hbc) (ih _ h23)

theorem getLast?_take_until {α : Type} (q : α → Bool) (l : List α) (h : l.any q = true) :
    (take_until q l).getLast? = l.find? q := by
  induction l with
  | nil => simp at h
  | cons a l ih =>
    by_cases ha : q a = true
    · simp [take_until, ha]
    · have ha1 : q a = false := by simpa using ha
      rw [List.any_cons, ha1, Bool.false_or] at h
      simp only [take_until, ha1, Bool.false_eq_true, if_false, List.find?_cons]
      rw [List.getLast?_cons, ih h]
      cases hf : List.find? q l with
      | none =>
        rw [List.find?_eq_none] at hf
        obtain ⟨x, hx, hqx⟩ := List.any_eq_true.mp h
        exact absurd hqx (hf x hx)
      | some x => rfl

theorem find?_eq_none_of_any {α : Type} (q : α → Bool) (l : List α) (h : l.any q = false) :
    l.find? q = none := by
  rw [List.find?_eq_none]
  intro a ha
  have := List.any_eq_false.mp h a ha
  simpa using this

namespace Classic

theorem classic_stateFrame_self (st : RemarkableState) : StateFrame st st :=
  ⟨rfl, fun h => h, Or.inl rfl⟩

theorem classic_policyFrame_self (p : Policy) : PolicyFrame p p :=
  ⟨rfl, forall₂_self _ classic_stateFrame_self _⟩

theorem classic_frame_self (policies : List Policy) : Frame policies policies :=
  forall₂_self _ classic_policyFrame_self _

theorem classic_stateFrame_trans (a b c : RemarkableState) (h1 : StateFrame a b)
    (h2 : StateFrame b c) : StateFrame a c := by
  obtain ⟨e1, e2, e3⟩ := h1
  obtain ⟨f1, f2, f3⟩ := h2
  refine ⟨f1.trans e1, fun h => f2 (e2 h), ?_⟩
  rcases f3 with f3 | f3
  · rw [f3]; exact e3
  · exact Or.inr f3

theorem classic_policyFrame_trans (a b c : Policy) (h1 : PolicyFrame a b)
    (h2 : PolicyFrame b c) : PolicyFrame a c :=
  ⟨h2.1.trans h1.1, forall₂_trans _ classic_stateFrame_trans _ _ _ h1.2 h2.2⟩

theorem classic_frame_trans (a b c : List Policy) (h1 : Frame a b) (h2 : Frame b c) :
    Frame a c :=
  forall₂_trans _ classic_policyFrame_trans _ _ _ h1 h2

theorem classic_frame_set {policies : List Policy} {pi si : Nat} {p : Policy}
    {st : RemarkableState} (hp : policies[pi]? = some p) (hs : p.states[si]? = some st) :
    Frame policies (policies.set pi
      { p with states := p.states.set si { st with is_invalid := 1 } }) := by
  apply forall₂_set _ classic_policyFrame_self policies pi p _ hp
  refine ⟨rfl, ?_⟩
  apply forall₂_set _ classic_stateFrame_self p.states si st _ hs
  exact ⟨rfl, fun _ => by simp, Or.inr rfl⟩

theorem classic_invalidation_loop_frame (rand : RandSeq)
    (num_policies states_per_policy : Nat) :
    ∀ (k : Nat) (policies : List Policy) (c : Nat) (r : List Policy × Nat),
      invalidation_loop rand num_policies states_per_policy k policies c = some r →
      Frame policies r.1 := by
  intro k
  induction k with
  | zero =>
    intro policies c r h
    simp only [invalidation_loop, Option.some.injEq] at h
    subst h
    exact classic_frame_self policies
  | succ k ih =>
    intro policies c r h
    unfold invalidation_loop at h
    split at h
    · exact absurd h (by simp)
    · cases hst : store_invalid policies (rand c % num_policies)
          (rand (c + 1) % states_per_policy) with
      | none => simp [hst] at h
      | some policies1 =>
        simp only [hst] at h
        have h1 : Frame policies policies1 := by
          unfold store_invalid at hst
          cases hp : policies[rand c % num_policies]? with
          | none => simp [hp] at hst
          | some p =>
            cases hs : p.states[rand (c + 1) % states_per_policy]? with
            | none => simp [hp, hs] at hst
            | some st =>
              simp only [hp, hs, Option.some.injEq] at hst
              subst hst
              exact classic_frame_set hp hs
        exact classic_frame_trans _ _ _ h1 (ih policies1 (c + 2) r h)

end Classic

namespace Extended

theorem stateFrame_self (st : RemarkableState) : StateFrame st st :=
  ⟨rfl, rfl, fun h => h, Or.inl rfl⟩

theorem policyFrame_self (p : Policy) : PolicyFrame p p :=
  ⟨rfl, rfl, forall₂_self _ stateFrame_self _⟩

theorem frame_self (policies : List Policy) : Frame policies policies :=
  forall₂_self _ policyFrame_self _

theorem stateFrame_trans (a b c : RemarkableState) (h1 : StateFrame a b)
    (h2 : StateFrame b c) : StateFrame a c := by
  obtain ⟨e1, e2, e3, e4⟩ := h1
  obtain ⟨f1, f2, f3, f4⟩ := h2
  refine ⟨f1.trans e1, f2.trans e2, fun h => f3 (e3 h), ?_⟩
  rcases f4 with f4 | f4
  · rw [f4]; exact e4
  · exact Or.inr f4

theorem policyFrame_trans (a b c : Policy) (h1 : PolicyFrame a b)
    (h2 : PolicyFrame b c) : PolicyFrame a c :=
  ⟨h2.1.trans h1.1, h2.2.1.trans h1.2.1, forall₂_trans _ stateFrame_trans _ _ _ h1.2.2 h2.2.2⟩

theorem frame_trans (a b c : List Policy) (h1 : Frame a b) (h2 : Frame b c) :
    Frame a c :=
  forall₂_trans _ policyFrame_trans _ _ _ h1 h2

theorem frame_set {policies : List Policy} {pi si : Nat} {p : Policy}
    {st : RemarkableState} (hp : policies[pi]? = some p) (hs : p.states[si]? = some st) :
    Frame policies (policies.set pi
      { p with states := p.states.set si { st with is_invalid := 1 } }) := by
  apply forall₂_set _ policyFrame_self policies pi p _ hp
  refine ⟨rfl, rfl, ?_⟩
  apply forall₂_set _ stateFrame_self p.states si st _ hs
  exact ⟨rfl, rfl, fun _ => by simp, Or.inr rfl⟩

theorem invalidation_body_frame {rand : RandSeq} {num_policies : Nat} {target_mode : Int}
    {σ σ1 : InvalState} (h : invalidation_body rand num_policies target_mode σ = some σ1) :
    Frame σ.policies σ1.policies := by
  obtain ⟨-, h1 | h1⟩ := invalidation_body_cases h
  · rw [h1.1]; exact frame_self _
  · obtain ⟨pi, si, p, st, hp, hs, -, -, e1, -⟩ := h1
    rw [e1]; exact frame_set hp hs

theorem invalidation_loop_frame (rand : RandSeq) (num_policies total_states : Nat)
    (target_mode : Int) :
    ∀ (fuel : Nat) (σ σ1 : InvalState),
      invalidation_loop rand num_policies total_states target_mode fuel σ = some σ1 →
      Frame σ.policies σ1.policies := by
  intro fuel
  induction fuel with
  | zero => intro σ σ1 h; simp [invalidation_loop] at h
  | succ fuel ih =>
    intro σ σ1 h
    rw [invalidation_loop] at h
    by_cases hc : σ.to_invalidate > 0 ∧ σ.attempts < total_states * 10
    · rw [if_pos hc] at h
      cases hb : invalidation_body rand num_policies target_mode σ with
      | none => simp [hb] at h
      | some σ2 =>
        simp only [hb] at h
        exact frame_trans _ _ _ (invalidation_body_frame hb) (ih σ2 σ1 h)
    · rw [if_neg hc] at h
      simp only [Option.some.injEq] at h
      subst h
      exact frame_self _

end Extended

/-! ## Interleaved runs of the parallel extended evaluator -/

theorem map_set_of_eq {α β : Type} (g : α → β) :
    ∀ (l : List α) (j : Nat) (a b : α), l[j]? = some a → g b = g a →
      (l.set j b).map g = l.map g := by
  intro l
  induction l with
  | nil => intro j a b h _; simp at h
  | cons x l ih =>
    intro j a b h hg
    cases j with
    | zero =>
      simp only [List.getElem?_cons_zero, Option.some.injEq] at h
      subst h
      simp [hg]
    | succ j =>
      simp only [List.getElem?_cons_succ] at h
      simp [ih j a b h hg]

namespace Extended

/-- The steps a thread can make. -/
theorem worker_step_cases {policies : List Policy} {f : Int} {w w1 : Worker}
    {wr : Option Int} (h : worker_step policies f w = some (w1, wr)) :
    (w.todo = [] ∧ w1 = w ∧ wr = none) ∨
    ∃ (i : Nat) (rest : List Nat) (p : Policy),
      w.todo = i :: rest ∧ policies[i]? = some p ∧
      ((w.pc = ParPc.loop_test ∧ w.s < p.num_states ∧ w.stop_policy = 0 ∧ f = 0 ∧
          w1 = { w with pc := ParPc.break_test } ∧ wr = none) ∨
        (w.pc = ParPc.loop_test ∧ ¬(w.s < p.num_states ∧ w.stop_policy = 0 ∧ f = 0) ∧
          w1 = worker_next w i rest ∧ wr = none) ∨
        (w.pc = ParPc.break_test ∧ f ≠ 0 ∧ w1 = worker_next w i rest ∧ wr = none) ∨
        (w.pc = ParPc.break_test ∧ f = 0 ∧ w1 = { w with pc := ParPc.state_body } ∧
          wr = none) ∨
        (w.pc = ParPc.state_body ∧ ∃ st : RemarkableState, p.states[w.s]? = some st ∧
          ((st.is_invalid ≠ 0 ∧ p.is_mandatory ≠ 0 ∧
              w1 = { w with s := w.s + 1, stop_policy := 1, pc := ParPc.loop_test,
                            invalid_count := w.invalid_count + 1,
                            evaluated := w.evaluated ++ [(i, w.s)] } ∧ wr = some 1) ∨
            (st.is_invalid ≠ 0 ∧ p.is_mandatory = 0 ∧
              w1 = { w with s := w.s + 1, pc := ParPc.loop_test,
                            invalid_count := w.invalid_count + 1,
                            evaluated := w.evaluated ++ [(i, w.s)] } ∧ wr = none) ∨
            (st.is_invalid = 0 ∧
              w1 = { w with s := w.s + 1, pc := ParPc.loop_test,
                            evaluated := w.evaluated ++ [(i, w.s)] } ∧ wr = none)))) := by
  unfold worker_step at h
  cases htodo : w.todo with
  | nil =>
    simp only [htodo, Option.some.injEq, Prod.mk.injEq] at h
    exact Or.inl ⟨rfl, h.1.symm, h.2.symm⟩
  | cons i rest =>
    right
    simp only [htodo] at h
    cases hp : policies[i]? with
    | none => simp [hp] at h
    | some p =>
      simp only [hp] at h
      refine ⟨i, rest, p, rfl, hp, ?_⟩
      cases hpc : w.pc with
      | loop_test =>
        simp only [hpc] at h
        by_cases hc : w.s < p.num_states ∧ w.stop_policy = 0 ∧ f = 0
        · rw [if_pos hc] at h
          simp only [Option.some.injEq, Prod.mk.injEq] at h
          exact Or.inl ⟨rfl, hc.1, hc.2.1, hc.2.2, h.1.symm, h.2.symm⟩
        · rw [if_neg hc] at h
          simp only [Option.some.injEq, Prod.mk.injEq] at h
          exact Or.inr (Or.inl ⟨rfl, hc, h.1.symm, h.2.symm⟩)
      | break_test =>
        simp only [hpc] at h
        by_cases hc : f = 0
        · rw [if_neg (by simpa using hc)] at h
          simp only [Option.some.injEq, Prod.mk.injEq] at h
          exact Or.inr (Or.inr (Or.inr (Or.inl ⟨rfl, hc, h.1.symm, h.2.symm⟩)))
        · rw [if_pos hc] at h
          simp only [Option.some.injEq, Prod.mk.injEq] at h
          exact Or.inr (Or.inr (Or.inl ⟨rfl, hc, h.1.symm, h.2.symm⟩))
      | state_body =>
        simp only [hpc] at h
        cases hs : p.states[w.s]? with
        | none => simp [hs] at h
        | some st =>
          simp only [hs] at h
          refine Or.inr (Or.inr (Or.inr (Or.inr ⟨rfl, st, rfl, ?_⟩)))
          by_cases hi : st.is_invalid = 0
          · rw [if_neg (by simpa using hi)] at h
            simp only [Option.some.injEq, Prod.mk.injEq] at h
            exact Or.inr (Or.inr ⟨hi, h.1.symm, h.2.symm⟩)
          · rw [if_pos hi] at h
            by_cases hm : p.is_mandatory = 0
            · rw [if_neg (by simpa using hm)] at h
              simp only [Option.some.injEq, Prod.mk.injEq] at h
              exact Or.inr (Or.inl ⟨hi, hm, h.1.symm, h.2.symm⟩)
            · rw [if_pos hm] at h
              simp only [Option.some.injEq, Prod.mk.injEq] at h
              exact Or.inl ⟨hi, hm, h.1.symm, h.2.symm⟩

/-- A thread writes nothing but 1 to the shared flag. -/
theorem worker_step_write {policies : List Policy} {f : Int} {w w1 : Worker} {v : Int}
    (h : worker_step policies f w = some (w1, some v)) : v = 1 := by
  rcases worker_step_cases h with ⟨-, -, e⟩ | ⟨i, rest, p, -, -, h1⟩
  · exact absurd e (by simp)
  · rcases h1 with ⟨-, -, -, -, -, e⟩ | ⟨-, -, -, e⟩ | ⟨-, -, -, e⟩ | ⟨-, -, -, e⟩ |
      ⟨-, st, -, ⟨-, -, -, e⟩ | ⟨-, -, -, e⟩ | ⟨-, -, e⟩⟩
    all_goals first
      | exact (Option.some.inj e)
      | exact absurd e (by simp)

/-- What a step of the machine does. -/
theorem par_step_cases {policies : List Policy} {j : Nat} {σ σ1 : ParState}
    (h : par_step policies j σ = some σ1) :
    (σ.workers[j]? = none ∧ σ1 = σ) ∨
    ∃ (w w1 : Worker) (wr : Option Int), σ.workers[j]? = some w ∧
      worker_step policies σ.stop_all w = some (w1, wr) ∧
      σ1 = { stop_all := wr.getD σ.stop_all, workers := σ.workers.set j w1,
             stop_writes := σ.stop_writes + (if wr.isSome then 1 else 0) } := by
  unfold par_step at h
  cases hw : σ.workers[j]? with
  | none =>
    simp only [hw, Option.some.injEq] at h
    exact Or.inl ⟨rfl, h.symm⟩
  | some w =>
    simp only [hw] at h
    cases hr : worker_step policies σ.stop_all w with
    | none => simp [hr] at h
    | some r =>
      simp only [hr, Option.some.injEq] at h
      exact Or.inr ⟨w, r.1, r.2, rfl, hr, h.symm⟩

/-- A step leaves the shared flag as it is or writes 1 to it. -/
theorem par_step_flag {policies : List Policy} {j : Nat} {σ σ1 : ParState}
    (h : par_step policies j σ = some σ1) :
    (σ1.stop_all = σ.stop_all ∧ σ1.stop_writes = σ.stop_writes) ∨
    (σ1.stop_all = 1 ∧ σ1.stop_writes = σ.stop_writes + 1) := by
  rcases par_step_cases h with ⟨-, e⟩ | ⟨w, w1, wr, -, hs, e⟩
  · rw [e]; exact Or.inl ⟨rfl, rfl⟩
  · cases wr with
    | none => rw [e]; exact Or.inl ⟨rfl, by simp⟩
    | some v =>
      have hv := worker_step_write hs
      rw [e, hv]
      exact Or.inr ⟨rfl, by simp⟩

theorem par_run_append (policies : List Policy) :
    ∀ (sched1 sched2 : List Nat) (σ : ParState),
      par_run policies (sched1 ++ sched2) σ =
        (par_run policies sched1 σ).bind (par_run policies sched2) := by
  intro sched1
  induction sched1 with
  | nil => intro sched2 σ; rfl
  | cons j sched1 ih =>
    intro sched2 σ
    simp only [List.cons_append, par_run]
    cases par_step policies j σ with
    | none => rfl
    | some σ1 => exact ih sched2 σ1

/-- The loop rule for interleaved runs: what every step keeps holds after the run. -/
theorem par_run_invariant (policies : List Policy) (P : ParState → Prop)
    (hstep : ∀ (j : Nat) (σ σ1 : ParState), P σ → par_step policies j σ = some σ1 → P σ1) :
    ∀ (sched : List Nat) (σ σ1 : ParState), P σ → par_run policies sched σ = some σ1 →
      P σ1 := by
  intro sched
  induction sched with
  | nil =>
    intro σ σ1 hP h
    simp only [par_run, Option.some.injEq] at h
    rw [← h]; exact hP
  | cons j sched ih =>
    intro σ σ1 hP h
    simp only [par_run] at h
    cases hs : par_step policies j σ with
    | none => simp [hs] at h
    | some σ2 =>
      simp only [hs] at h
      exact ih σ2 σ1 (hstep j σ σ2 hP hs) h

/-- During a run the shared flag, once set, stays set, and the number of writes only
grows. -/
theorem par_run_flag (policies : List Policy) (sched : List Nat) (σ σ1 : ParState)
    (h : par_run policies sched σ = some σ1) :
    (σ1.stop_all = σ.stop_all ∨ σ1.stop_all = 1) ∧ (σ.stop_all ≠ 0 → σ1.stop_all ≠ 0) ∧
      σ.stop_writes ≤ σ1.stop_writes := by
  have := par_run_invariant policies
    (fun τ => (τ.stop_all = σ.stop_all ∨ τ.stop_all = 1) ∧ σ.stop_writes ≤ τ.stop_writes)
    (fun j τ τ1 hP hs => by
      rcases par_step_flag hs with ⟨e1, e2⟩ | ⟨e1, e2⟩
      · rw [e1, e2]; exact hP
      · exact ⟨Or.inr e1, by omega⟩)
    sched σ σ1 ⟨Or.inl rfl, le_refl _⟩ h
  refine ⟨this.1, fun h0 => ?_, this.2⟩
  rcases this.1 with e | e
  · rw [e]; exact h0
  · rw [e]; decide

/-- In a run from the start the flag is set exactly when a write has happened. -/
theorem par_run_init_flag (policies : List Policy) (assignment : List (List Nat)) (s0 : Int)
    (sched : List Nat) (σ : ParState)
    (h : par_run policies sched (par_init assignment s0) = some σ) :
    (σ.stop_writes = 0 ∧ σ.stop_all = 0) ∨ (1 ≤ σ.stop_writes ∧ σ.stop_all = 1) :=
  par_run_invariant policies
    (fun τ => (τ.stop_writes = 0 ∧ τ.stop_all = 0) ∨ (1 ≤ τ.stop_writes ∧ τ.stop_all = 1))
    (fun j τ τ1 hP hs => by
      rcases par_step_flag hs with ⟨e1, e2⟩ | ⟨e1, e2⟩
      · rw [e1, e2]; exact hP
      · exact Or.inr ⟨by omega, e1⟩)
    sched _ σ (Or.inl ⟨rfl, rfl⟩) h

end Extended

namespace Extended

theorem in_flight_le_one (w : Worker) : in_flight w ≤ 1 := by
  unfold in_flight; split <;> omega

/-- With the shared flag set, a step of a thread evaluates a state only if the thread was
about to evaluate it, and then the thread is no longer in flight. -/
theorem worker_step_after_stop {policies : List Policy} {f : Int} {w w1 : Worker}
    {wr : Option Int} (h : worker_step policies f w = some (w1, wr)) (hf : f ≠ 0) :
    after_stop w w1 := by
  unfold after_stop
  rcases worker_step_cases h with ⟨-, e, -⟩ | ⟨i, rest, p, htodo, -, h1⟩
  · rw [e]; exact ⟨le_refl _, le_refl _⟩
  · rcases h1 with ⟨-, -, -, h0, -, -⟩ | ⟨hpc, -, e, -⟩ | ⟨hpc, -, e, -⟩ | ⟨-, h0, -, -⟩ |
      ⟨hpc, st, -, ⟨-, -, e, -⟩ | ⟨-, -, e, -⟩ | ⟨-, e, -⟩⟩
    · exact absurd h0 hf
    · subst e; simp [in_flight, worker_next]
    · subst e; simp [in_flight, worker_next]
    · exact absurd h0 hf
    · subst e; simp [in_flight, hpc, htodo]
    · subst e; simp [in_flight, hpc, htodo]
    · subst e; simp [in_flight, hpc, htodo]

theorem after_stop_self (w : Worker) : after_stop w w := ⟨le_refl _, le_refl _⟩

theorem after_stop_trans (a b c : Worker) (h1 : after_stop a b) (h2 : after_stop b c) :
    after_stop a c := ⟨le_trans h2.1 h1.1, le_trans h2.2 h1.2⟩

/-- Once the shared flag is set, through any further interleaving every thread evaluates
and counts at most the state it had in flight. -/
theorem par_run_after_stop (policies : List Policy) (sched : List Nat) (σ σ1 : ParState)
    (hf : σ.stop_all ≠ 0) (h : par_run policies sched σ = some σ1) :
    List.Forall₂ after_stop σ.workers σ1.workers ∧ σ1.stop_all ≠ 0 :=
  par_run_invariant policies
    (fun τ => List.Forall₂ after_stop σ.workers τ.workers ∧ τ.stop_all ≠ 0)
    (fun j τ τ1 hP hs => by
      refine ⟨?_, ?_⟩
      · rcases par_step_cases hs with ⟨-, e⟩ | ⟨w, w1, wr, hw, hws, e⟩
        · rw [e]; exact hP.1
        · rw [e]
          exact forall₂_trans _ after_stop_trans _ _ _ hP.1
            (forall₂_set _ after_stop_self _ j w w1 hw (worker_step_after_stop hws hP.2))
      · rcases par_step_flag hs with ⟨e1, -⟩ | ⟨e1, -⟩
        · rw [e1]; exact hP.2
        · rw [e1]; decide)
    sched σ σ1 ⟨forall₂_self _ after_stop_self _, hf⟩ h

/-- A safe thread can make a step and stays safe. -/
theorem worker_step_safe {policies : List Policy} {num_policies : Nat} (f : Int) {w : Worker}
    (hwf : WellFormed policies num_policies) (hs : worker_safe policies num_policies w) :
    ∃ r, worker_step policies f w = some r ∧ worker_safe policies num_policies r.1 := by
  obtain ⟨fin, todo, s, sp, pc, cnt, ev⟩ := w
  obtain ⟨h1, h2⟩ := hs
  simp only at h1 h2
  cases todo with
  | nil => exact ⟨(_, none), rfl, ⟨h1, h2⟩⟩
  | cons i rest =>
    have hi : i < policies.length := by
      rw [hwf.1]; exact h1 i (List.mem_cons_self i rest)
    have hp : policies[i]? = some policies[i] := List.getElem?_eq_getElem hi
    have hrest : ∀ k ∈ rest, k < num_policies :=
      fun k hk => h1 k (List.mem_cons_of_mem i hk)
    have hloop : ∀ w2 : Worker, (∀ k ∈ w2.todo, k < num_policies) →
        w2.pc = ParPc.loop_test → worker_safe policies num_policies w2 :=
      fun w2 ht hpc2 => ⟨ht, fun hne => absurd hpc2 hne⟩
    cases pc with
    | loop_test =>
      by_cases hc : s < (policies[i]).num_states ∧ sp = 0 ∧ f = 0
      · simp only [worker_step, hp, if_pos hc, Option.some.injEq, exists_eq_left']
        exact ⟨h1, fun _ => ⟨i, rest, _, rfl, hp, hc.1⟩⟩
      · simp only [worker_step, hp, if_neg hc, Option.some.injEq, exists_eq_left']
        exact hloop _ hrest rfl
    | break_test =>
      by_cases hc : f ≠ 0
      · simp only [worker_step, hp, if_pos hc, Option.some.injEq, exists_eq_left']
        exact hloop _ hrest rfl
      · simp only [worker_step, hp, if_neg hc, Option.some.injEq, exists_eq_left']
        exact ⟨h1, fun _ => h2 (by decide)⟩
    | state_body =>
      obtain ⟨i1, rest1, p1, e1, e2, e3⟩ := h2 (by decide)
      obtain ⟨rfl, rfl⟩ := List.cons.inj e1
      rw [hp] at e2
      obtain rfl := Option.some.inj e2
      have hlt : s < (policies[i]).states.length := by
        rw [hwf.2 _ (mem_of_getElem? hp)]; exact e3
      have hst := List.getElem?_eq_getElem hlt
      by_cases hinv : (policies[i]).states[s].is_invalid ≠ 0
      · by_cases hm : (policies[i]).is_mandatory ≠ 0
        · simp only [worker_step, hp, hst, if_pos hinv, if_pos hm, Option.some.injEq,
            exists_eq_left']
          exact hloop _ h1 rfl
        · simp only [worker_step, hp, hst, if_pos hinv, if_neg hm, Option.some.injEq,
            exists_eq_left']
          exact hloop _ h1 rfl
      · simp only [worker_step, hp, hst, if_neg hinv, Option.some.injEq, exists_eq_left']
        exact hloop _ h1 rfl

/-- From the start, on a well-formed population with iterations below `num_policies`, every
interleaving runs without leaving the population. -/
theorem par_run_safe (policies : List Policy) (num_policies : Nat)
    (hwf : WellFormed policies num_policies) :
    ∀ (sched : List Nat) (σ : ParState),
      (∀ w ∈ σ.workers, worker_safe policies num_policies w) →
      ∃ σ1, par_run policies sched σ = some σ1 ∧
        ∀ w ∈ σ1.workers, worker_safe policies num_policies w := by
  intro sched
  induction sched with
  | nil => intro σ hs; exact ⟨σ, rfl, hs⟩
  | cons j sched ih =>
    intro σ hs
    simp only [par_run]
    unfold par_step
    cases hw : σ.workers[j]? with
    | none => exact ih σ hs
    | some w =>
      obtain ⟨r, e1, e2⟩ := worker_step_safe σ.stop_all hwf (hs w (mem_of_getElem? hw))
      simp only [e1]
      apply ih
      intro w2 hw2
      rcases List.mem_or_eq_of_mem_set hw2 with h | h
      · exact hs w2 h
      · rw [h]; exact e2

theorem par_init_safe (policies : List Policy) (num_policies : Nat)
    (assignment : List (List Nat)) (s0 : Int)
    (ha : ∀ chunk ∈ assignment, ∀ i ∈ chunk, i < num_policies) :
    ∀ w ∈ (par_init assignment s0).workers, worker_safe policies num_policies w := by
  intro w hw
  simp only [par_init, List.mem_map] at hw
  obtain ⟨chunk, hchunk, rfl⟩ := hw
  exact ⟨ha chunk hchunk, fun hne => absurd rfl hne⟩

theorem validAssignment_in_range {num_policies : Nat} {assignment : List (List Nat)}
    (ha : Classic.ValidAssignment num_policies assignment) :
    ∀ chunk ∈ assignment, ∀ i ∈ chunk, i < num_policies := by
  intro chunk hchunk i hi
  have h1 : i ∈ assignment.flatten := List.mem_flatten.mpr ⟨chunk, hchunk, hi⟩
  exact List.mem_range.mp ((List.Perm.mem_iff ha).mp h1)

end Extended

namespace Extended

theorem sum_max_contribution (policies : List Policy) :
    (policies.map max_contribution).sum =
      invalid_states_non_mandatory policies + mandatory_with_invalid policies := by
  unfold invalid_states_non_mandatory mandatory_with_invalid
  induction policies with
  | nil => rfl
  | cons p l ih =>
    simp only [List.map_cons, List.sum_cons, List.countP_cons, ih, max_contribution]
    by_cases hm : p.is_mandatory ≠ 0
    · by_cases ha : p.states.any (fun st => decide (st.is_invalid ≠ 0)) = true
      · have hb : (decide (p.is_mandatory ≠ 0) &&
            p.states.any (fun st => decide (st.is_invalid ≠ 0))) = true := by
          rw [ha, Bool.and_true]; exact decide_eq_true hm
        simp only [if_pos hm, if_pos ha, if_pos hb]; omega
      · have hb : ¬ (decide (p.is_mandatory ≠ 0) &&
            p.states.any (fun st => decide (st.is_invalid ≠ 0))) = true := by
          intro hb; exact ha (Bool.and_eq_true_iff.mp hb).2
        simp only [if_pos hm, if_neg ha, if_neg hb]; omega
    · have hb : ¬ (decide (p.is_mandatory ≠ 0) &&
          p.states.any (fun st => decide (st.is_invalid ≠ 0))) = true := by
        intro hb; exact hm (of_decide_eq_true (Bool.and_eq_true_iff.mp hb).1)
      simp only [if_neg hm, if_neg hb]; omega

/-- What the inner loop of the parallel evaluator adds to the count of its iteration,
whatever the reads of the shared flag return. -/
theorem extended_par_inner_le (p : Policy) (reads : Nat → Nat → Int) :
    ∀ (k s : Nat) (sp : Int) (cnt r : Nat),
      extended_par_inner p reads k s sp cnt = some r →
      cnt ≤ r ∧ r ≤ cnt + (p.states.drop s).countP (fun st => decide (st.is_invalid ≠ 0)) ∧
      (p.is_mandatory ≠ 0 → (sp ≠ 0 → r = cnt) ∧ r ≤ cnt + 1) := by
  intro k
  induction k with
  | zero =>
    intro s sp cnt r h
    simp only [extended_par_inner, Option.some.injEq] at h
    subst h
    exact ⟨le_refl _, Nat.le_add_right _ _, fun _ => ⟨fun _ => rfl, Nat.le_succ _⟩⟩
  | succ k ih =>
    intro s sp cnt r h
    have stop : cnt = r →
        cnt ≤ r ∧ r ≤ cnt + (p.states.drop s).countP (fun st => decide (st.is_invalid ≠ 0)) ∧
        (p.is_mandatory ≠ 0 → (sp ≠ 0 → r = cnt) ∧ r ≤ cnt + 1) := by
      intro e; subst e
      exact ⟨le_refl _, Nat.le_add_right _ _, fun _ => ⟨fun _ => rfl, Nat.le_succ _⟩⟩
    simp only [extended_par_inner] at h
    by_cases h1 : sp ≠ 0
    · rw [if_pos h1] at h; exact stop (Option.some.inj h)
    · rw [if_neg h1] at h
      by_cases h2 : reads s 0 ≠ 0
      · rw [if_pos h2] at h; exact stop (Option.some.inj h)
      · rw [if_neg h2] at h
        by_cases h3 : reads s 1 ≠ 0
        · rw [if_pos h3] at h; exact stop (Option.some.inj h)
        · rw [if_neg h3] at h
          cases hst : p.states[s]? with
          | none => rw [hst] at h; exact absurd h (by simp)
          | some st =>
            simp only [hst] at h
            obtain ⟨hlt, hget⟩ := List.getElem?_eq_some_iff.mp hst
            have hdrop : p.states.drop s = st :: p.states.drop (s + 1) := by
              rw [List.drop_eq_getElem_cons hlt, hget]
            rw [hdrop, List.countP_cons]
            by_cases hinv : st.is_invalid ≠ 0
            · rw [if_pos hinv] at h
              have hd : decide (st.is_invalid ≠ 0) = true := decide_eq_true hinv
              rw [if_pos hd]
              by_cases hm : p.is_mandatory ≠ 0
              · rw [if_pos hm] at h
                obtain ⟨a1, -, a3⟩ := ih (s + 1) 1 (cnt + 1) r h
                have e := (a3 hm).1 (by decide)
                subst e
                exact ⟨Nat.le_succ _, by omega, fun _ => ⟨fun hsp => absurd hsp h1, le_refl _⟩⟩
              · rw [if_neg hm] at h
                obtain ⟨a1, a2, -⟩ := ih (s + 1) sp (cnt + 1) r h
                exact ⟨by omega, by omega, fun hm1 => absurd hm1 hm⟩
            · rw [if_neg hinv] at h
              simp only [hinv, decide_False]
              obtain ⟨a1, a2, a3⟩ := ih (s + 1) sp cnt r h
              exact ⟨a1, by simpa using a2, a3⟩

/-- One iteration of the parallel loop, started as in the source, adds at most
`max_contribution` of its policy. -/
theorem extended_par_inner_le_max (p : Policy) (reads : Nat → Nat → Int) (k r : Nat)
    (h : extended_par_inner p reads k 0 0 0 = some r) : r ≤ max_contribution p := by
  obtain ⟨-, a2, a3⟩ := extended_par_inner_le p reads k 0 0 0 r h
  rw [List.drop_zero, Nat.zero_add] at a2
  unfold max_contribution
  by_cases hm : p.is_mandatory ≠ 0
  · rw [if_pos hm]
    by_cases ha : p.states.any (fun st => decide (st.is_invalid ≠ 0)) = true
    · rw [if_pos ha]; have := (a3 hm).2; omega
    · rw [if_neg ha]
      have h0 : p.states.countP (fun st => decide (st.is_invalid ≠ 0)) = 0 := by
        rw [List.countP_eq_zero]
        intro st hst hd
        exact ha (List.any_eq_true.mpr ⟨st, hst, hd⟩)
      omega
  · rw [if_neg hm]; exact a2

theorem extended_par_outer_le (policies : List Policy) (reads : Nat → Nat → Nat → Int) :
    ∀ (k i t : Nat), omp_reduce_sum (extended_par_outer policies reads k i) = some t →
      t ≤ ((policies.drop i).map max_contribution).sum := by
  intro k
  induction k with
  | zero =>
    intro i t h
    simp only [extended_par_outer, omp_reduce_sum, Option.some.injEq] at h
    omega
  | succ k ih =>
    intro i t h
    simp only [extended_par_outer] at h
    cases hp : policies[i]? with
    | none => rw [hp] at h; simp [omp_reduce_sum] at h
    | some p =>
      rw [hp] at h
      simp only at h
      obtain ⟨hlt, hget⟩ := List.getElem?_eq_some_iff.mp hp
      rw [List.drop_eq_getElem_cons hlt, hget, List.map_cons, List.sum_cons]
      cases hr : extended_par_inner p (reads i) p.num_states 0 0 0 with
      | none => rw [hr] at h; simp [omp_reduce_sum] at h
      | some r =>
        rw [hr] at h
        simp only [omp_reduce_sum] at h
        cases ht : omp_reduce_sum (extended_par_outer policies reads k (i + 1)) with
        | none => rw [ht] at h; simp at h
        | some t1 =>
          rw [ht] at h
          simp only [Option.map_some', Option.some.injEq] at h
          have b1 := extended_par_inner_le_max p (reads i) _ r hr
          have b2 := ih (i + 1) t1 ht
          omega

theorem extended_par_inner_returns (p : Policy) (reads : Nat → Nat → Int) :
    ∀ (suf pre : List RemarkableState) (sp : Int) (cnt : Nat), p.states = pre ++ suf →
      ∃ r, extended_par_inner p reads suf.length pre.length sp cnt = some r := by
  intro suf
  induction suf with
  | nil => intro pre sp cnt _; exact ⟨cnt, rfl⟩
  | cons st suf ih =>
    intro pre sp cnt h
    have hget : p.states[pre.length]? = some st := by
      rw [h]; exact getElem?_append_cons pre st suf
    have e : ∀ sp1 cnt1, ∃ r,
        extended_par_inner p reads suf.length (pre.length + 1) sp1 cnt1 = some r := by
      intro sp1 cnt1
      have := ih (pre ++ [st]) sp1 cnt1 (by simp [h])
      rw [List.length_append, List.length_singleton] at this
      exact this
    simp only [List.length_cons, extended_par_inner, hget]
    split
    · exact ⟨cnt, rfl⟩
    · split
      · exact ⟨cnt, rfl⟩
      · split
        · exact ⟨cnt, rfl⟩
        · split
          · split
            · exact e _ _
            · exact e _ _
          · exact e _ _

theorem extended_par_outer_returns (policies : List Policy) (reads : Nat → Nat → Nat → Int) :
    ∀ (suf pre : List Policy), policies = pre ++ suf →
      (∀ p ∈ suf, p.states.length = p.num_states) →
      ∃ t, omp_reduce_sum (extended_par_outer policies reads suf.length pre.length) = some t := by
  intro suf
  induction suf with
  | nil => intro pre _ _; exact ⟨0, rfl⟩
  | cons p suf ih =>
    intro pre h hwf
    have hget : policies[pre.length]? = some p := by
      rw [h]; exact getElem?_append_cons pre p suf
    obtain ⟨r, hr⟩ := extended_par_inner_returns p (reads pre.length) p.states [] 0 0 rfl
    rw [hwf p (List.mem_cons_self p suf)] at hr
    simp only [List.length_nil] at hr
    obtain ⟨t, ht⟩ := ih (pre ++ [p]) (by simp [h])
      (fun q hq => hwf q (List.mem_cons_of_mem p hq))
    rw [List.length_append, List.length_singleton] at ht
    exact ⟨r + t, by simp only [List.length_cons, extended_par_outer, hget, hr, omp_reduce_sum,
      ht, Option.map_some']⟩

end Extended

theorem sum_map_set_ge {α : Type} (g : α → Nat) :
    ∀ (l : List α) (j : Nat) (a b : α), l[j]? = some a → g a ≤ g b →
      (l.map g).sum ≤ ((l.set j b).map g).sum ∧ g b ≤ ((l.set j b).map g).sum := by
  intro l
  induction l with
  | nil => intro j a b h _; simp at h
  | cons x l ih =>
    intro j a b h hg
    cases j with
    | zero =>
      simp only [List.getElem?_cons_zero, Option.some.injEq] at h
      subst h
      simp only [List.set_cons_zero, List.map_cons, List.sum_cons]
      omega
    | succ j =>
      simp only [List.getElem?_cons_succ] at h
      have := ih j a b h hg
      simp only [List.set_cons_succ, List.map_cons, List.sum_cons]
      omega

namespace Extended

theorem worker_clean_flag {policies : List Policy} {f f1 : Int} {w : Worker}
    (h : worker_clean policies f w) (hf : f1 = f ∨ f1 ≠ 0) : worker_clean policies f1 w := by
  rcases hf with e | e
  · rw [e]; exact h
  · intro h0; exact absurd h0 e

/-- A step of a thread keeps its iterations, never lowers its counter, counts when it
writes the flag, and keeps the thread clean. -/
theorem worker_step_inv {policies : List Policy} {num_policies : Nat}
    (hwf : WellFormed policies num_policies) {f : Int} {w w1 : Worker} {wr : Option Int}
    (h : worker_step policies f w = some (w1, wr)) :
    w1.finished ++ w1.todo = w.finished ++ w.todo ∧
    w.invalid_count ≤ w1.invalid_count ∧
    (wr ≠ none → 1 ≤ w1.invalid_count) ∧
    (worker_clean policies f w → worker_clean policies (wr.getD f) w1) := by
  rcases worker_step_cases h with ⟨-, e, e2⟩ | ⟨i, rest, p, htodo, hp, h1⟩
  · subst e e2
    exact ⟨rfl, le_refl _, fun hne => absurd rfl hne, fun hc => hc⟩
  · have hlen : p.states.length = p.num_states := hwf.2 p (mem_of_getElem? hp)
    rcases h1 with ⟨-, -, -, -, e, e2⟩ | ⟨-, hcond, e, e2⟩ | ⟨-, hf, e, e2⟩ | ⟨-, -, e, e2⟩ |
      ⟨-, st, hst, ⟨-, -, e, e2⟩ | ⟨hinv, -, e, e2⟩ | ⟨hval, e, e2⟩⟩
    · subst e e2
      exact ⟨rfl, le_refl _, fun hne => absurd rfl hne, fun hc => hc⟩
    · subst e e2
      refine ⟨by simp [worker_next, htodo], le_refl _, fun hne => absurd rfl hne, ?_⟩
      intro hc h0 hcnt
      obtain ⟨c1, c2, c3⟩ := hc h0 hcnt
      have hs : ¬ w.s < p.num_states := fun hs => hcond ⟨hs, c1, h0⟩
      refine ⟨rfl, ?_, ?_⟩
      · intro i1 hi1 p1 hp1 st1 hst1
        simp only [worker_next, List.mem_append, List.mem_singleton] at hi1
        rcases hi1 with hi1 | hi1
        · exact c2 i1 hi1 p1 hp1 st1 hst1
        · subst hi1
          rw [hp] at hp1
          obtain rfl := Option.some.inj hp1
          obtain ⟨s1, hs1, rfl⟩ := List.getElem_of_mem hst1
          exact c3 i1 rest p htodo hp s1 _ (by omega) (List.getElem?_eq_getElem hs1)
      · intro i1 rest1 p1 _ _ s1 st1 hs1
        exact absurd hs1 (Nat.not_lt_zero s1)
    · subst e e2
      refine ⟨by simp [worker_next, htodo], le_refl _, fun hne => absurd rfl hne, ?_⟩
      intro _ h0
      exact absurd h0 hf
    · subst e e2
      exact ⟨rfl, le_refl _, fun hne => absurd rfl hne, fun hc => hc⟩
    · subst e e2
      refine ⟨rfl, Nat.le_succ _, fun _ => Nat.le_add_left 1 _, ?_⟩
      intro _ h0
      exact absurd h0 (show (1 : Int) ≠ 0 by decide)
    · subst e e2
      refine ⟨rfl, Nat.le_succ _, fun hne => absurd rfl hne, ?_⟩
      intro _ _ hcnt
      exact absurd hcnt (Nat.succ_ne_zero _)
    · subst e e2
      refine ⟨rfl, le_refl _, fun hne => absurd rfl hne, ?_⟩
      intro hc h0 hcnt
      obtain ⟨c1, c2, c3⟩ := hc h0 hcnt
      refine ⟨c1, c2, ?_⟩
      intro i1 rest1 p1 htodo1 hp1 s1 st1 hs1 hst1
      rw [htodo] at htodo1
      obtain ⟨rfl, rfl⟩ := List.cons.inj htodo1
      rw [hp] at hp1
      obtain rfl := Option.some.inj hp1
      have hs1a : s1 < w.s + 1 := hs1
      by_cases hlt : s1 < w.s
      · exact c3 i rest p htodo hp s1 st1 hlt hst1
      · have : s1 = w.s := by omega
        subst this
        rw [hst] at hst1
        obtain rfl := Option.some.inj hst1
        exact hval

theorem par_init_inv (policies : List Policy) (assignment : List (List Nat)) (s0 : Int) :
    run_inv policies assignment (par_init assignment s0) := by
  refine ⟨?_, fun h => absurd rfl h, ?_⟩
  · intro w hw
    simp only [par_init, List.mem_map] at hw
    obtain ⟨chunk, -, rfl⟩ := hw
    intro _ _
    refine ⟨rfl, fun i hi => absurd hi (List.not_mem_nil i), ?_⟩
    intro i rest p _ _ s1 st hs1
    exact absurd hs1 (Nat.not_lt_zero s1)
  · simp [par_init, Function.comp_def]

theorem par_step_inv {policies : List Policy} {num_policies : Nat}
    (hwf : WellFormed policies num_policies) (assignment : List (List Nat)) (j : Nat)
    (σ σ1 : ParState) (hI : run_inv policies assignment σ)
    (h : par_step policies j σ = some σ1) : run_inv policies assignment σ1 := by
  rcases par_step_cases h with ⟨-, e⟩ | ⟨w, w1, wr, hw, hs, e⟩
  · rw [e]; exact hI
  · obtain ⟨g1, g2, g3⟩ := hI
    obtain ⟨k1, k2, k3, k4⟩ := worker_step_inv hwf hs
    have hflag : wr.getD σ.stop_all = σ.stop_all ∨ wr.getD σ.stop_all ≠ 0 := by
      cases wr with
      | none => exact Or.inl rfl
      | some v =>
        have hv := worker_step_write hs
        subst hv
        exact Or.inr (show (1 : Int) ≠ 0 by decide)
    have hsum := sum_map_set_ge (fun w : Worker => w.invalid_count) σ.workers j w w1 hw k2
    subst e
    refine ⟨?_, ?_, ?_⟩
    · intro w2 hw2
      rcases List.mem_or_eq_of_mem_set hw2 with hm | hm
      · exact worker_clean_flag (g1 w2 hm) hflag
      · rw [hm]; exact k4 (g1 w (mem_of_getElem? hw))
    · intro hne
      show 1 ≤ ((σ.workers.set j w1).map (fun w => w.invalid_count)).sum
      cases wr with
      | none => exact le_trans (g2 hne) hsum.1
      | some v => exact le_trans (k3 (by simp)) hsum.2
    · show (σ.workers.set j w1).map (fun w => w.finished ++ w.todo) = assignment
      rw [map_set_of_eq (fun w : Worker => w.finished ++ w.todo) σ.workers j w w1 hw k1]
      exact g3

theorem par_run_inv {policies : List Policy} {num_policies : Nat}
    (hwf : WellFormed policies num_policies) (assignment : List (List Nat)) (s0 : Int)
    (sched : List Nat) (σ : ParState)
    (h : par_run policies sched (par_init assignment s0) = some σ) :
    run_inv policies assignment σ :=
  par_run_invariant policies (run_inv policies assignment)
    (fun j τ τ1 hP hs => par_step_inv hwf assignment j τ τ1 hP hs)
    sched _ σ (par_init_inv policies assignment s0) h

/-- A complete run that counted nothing has evaluated every state of the population, and
all of them are valid. -/
theorem par_run_zero {policies : List Policy} {num_policies : Nat}
    (hwf : WellFormed policies num_policies) (assignment : List (List Nat)) (s0 : Int)
    (ha : Classic.ValidAssignment num_policies assignment)
    (sched : List Nat) (σ : ParState)
    (h : par_run policies sched (par_init assignment s0) = some σ)
    (hfin : par_finished σ) (hres : par_result σ = 0) :
    invalid_states policies = 0 := by
  obtain ⟨g1, g2, g3⟩ := par_run_inv hwf assignment s0 sched σ h
  have hflag : σ.stop_all = 0 := by
    by_contra hne
    have := g2 hne
    omega
  have hcnt : ∀ w ∈ σ.workers, w.invalid_count = 0 := by
    intro w hw
    unfold par_result at hres
    exact List.sum_eq_zero_iff.mp hres _ (List.mem_map.mpr ⟨w, hw, rfl⟩)
  have hvalid : ∀ p ∈ policies, ∀ st ∈ p.states, st.is_invalid = 0 := by
    intro p hp st hst
    obtain ⟨i, hi, rfl⟩ := List.getElem_of_mem hp
    have hi1 : i ∈ List.range num_policies := List.mem_range.mpr (by rw [← hwf.1]; exact hi)
    have hi2 : i ∈ assignment.flatten := (List.Perm.mem_iff ha).mpr hi1
    obtain ⟨chunk, hchunk, hic⟩ := List.mem_flatten.mp hi2
    rw [← g3] at hchunk
    obtain ⟨w, hw, rfl⟩ := List.mem_map.mp hchunk
    rw [hfin w hw, List.append_nil] at hic
    exact (g1 w hw hflag (hcnt w hw)).2.1 i hic _ (List.getElem?_eq_getElem hi) st hst
  unfold invalid_states
  apply List.sum_eq_zero_iff.mpr
  intro n hn
  obtain ⟨p, hp, rfl⟩ := List.mem_map.mp hn
  rw [List.countP_eq_zero]
  intro st hst hd
  exact (of_decide_eq_true hd) (hvalid p hp st hst)

end Extended

theorem forall₂_getElem? {α : Type} (R : α → α → Prop) :
    ∀ (l1 l2 : List α), List.Forall₂ R l1 l2 → ∀ (j : Nat) (a b : α),
      l1[j]? = some a → l2[j]? = some b → R a b := by
  intro l1 l2 h
  induction h with
  | nil => intro j a b h1 _; simp at h1
  | cons hab _ ih =>
    intro j a b h1 h2
    cases j with
    | zero =>
      simp only [List.getElem?_cons_zero, Option.some.injEq] at h1 h2
      subst h1 h2
      exact hab
    | succ j =>
      simp only [List.getElem?_cons_succ] at h1 h2
      exact ih j a b h1 h2

namespace Extended

/-- The inner loop of the sequential evaluator leaves the flag as it is or sets it to 1,
and a set flag ends the loop with nothing changed. -/
theorem extended_seq_inner_flag (rand : RandSeq) (p : Policy) (i : Nat) :
    ∀ (k s : Nat) (σ σ1 : EvalState), extended_seq_inner rand p i k s σ = some σ1 →
      ((σ1.stop_all = σ.stop_all ∧ σ1.stop_writes = σ.stop_writes) ∨
        (σ1.stop_all = 1 ∧ σ.stop_writes < σ1.stop_writes)) ∧
      (σ.stop_all ≠ 0 → σ1 = σ) := by
  intro k
  induction k with
  | zero =>
    intro s σ σ1 h
    simp only [extended_seq_inner, Option.some.injEq] at h
    subst h
    exact ⟨Or.inl ⟨rfl, rfl⟩, fun _ => rfl⟩
  | succ k ih =>
    intro s σ σ1 h
    by_cases h0 : σ.stop_all ≠ 0
    · rw [extended_seq_inner_stopped rand p i _ s σ h0] at h
      have e := Option.some.inj h
      subst e
      exact ⟨Or.inl ⟨rfl, rfl⟩, fun _ => rfl⟩
    · refine ⟨?_, fun hne => absurd hne h0⟩
      simp only [extended_seq_inner, if_neg h0] at h
      cases hst : p.states[s]? with
      | none => rw [hst] at h; exact absurd h (by simp)
      | some st =>
        simp only [hst] at h
        by_cases hinv : st.is_invalid ≠ 0
        · by_cases hm : p.is_mandatory ≠ 0
          · simp only [if_pos hinv, if_pos hm] at h
            have e := (ih (s + 1) _ σ1 h).2 (by simp)
            subst e
            exact Or.inr ⟨rfl, Nat.lt_succ_self _⟩
          · simp only [if_pos hinv, if_neg hm] at h
            exact (ih (s + 1) _ σ1 h).1
        · simp only [if_neg hinv] at h
          exact (ih (s + 1) _ σ1 h).1

theorem extended_seq_outer_flag (rand : RandSeq) (policies : List Policy) :
    ∀ (k i : Nat) (σ σ1 : EvalState), extended_seq_outer rand policies k i σ = some σ1 →
      ((σ1.stop_all = σ.stop_all ∧ σ1.stop_writes = σ.stop_writes) ∨
        (σ1.stop_all = 1 ∧ σ.stop_writes < σ1.stop_writes)) ∧
      (σ.stop_all ≠ 0 → σ1 = σ) := by
  intro k
  induction k with
  | zero =>
    intro i σ σ1 h
    simp only [extended_seq_outer, Option.some.injEq] at h
    subst h
    exact ⟨Or.inl ⟨rfl, rfl⟩, fun _ => rfl⟩
  | succ k ih =>
    intro i σ σ1 h
    by_cases h0 : σ.stop_all ≠ 0
    · rw [extended_seq_outer_stopped rand policies _ i σ h0] at h
      have e := Option.some.inj h
      subst e
      exact ⟨Or.inl ⟨rfl, rfl⟩, fun _ => rfl⟩
    · refine ⟨?_, fun hne => absurd hne h0⟩
      simp only [extended_seq_outer, if_neg h0] at h
      cases hp : policies[i]? with
      | none => rw [hp] at h; exact absurd h (by simp)
      | some p =>
        simp only [hp] at h
        cases hin : extended_seq_inner rand p i p.num_states 0 σ with
        | none => rw [hin] at h; exact absurd h (by simp)
        | some σ2 =>
          simp only [hin] at h
          have a := (extended_seq_inner_flag rand p i _ 0 σ σ2 hin).1
          have b := ih (i + 1) σ2 σ1 h
          rcases a with ⟨a1, a2⟩ | ⟨a1, a2⟩
          · rw [← a1, ← a2]; exact b.1
          · have e := b.2 (by rw [a1]; decide)
            subst e
            exact Or.inr ⟨a1, a2⟩

end Extended

theorem countP_take_succ {α : Type} (q : α → Bool) (l : List α) (n : Nat) (a : α)
    (h : l[n]? = some a) :
    (l.take (n + 1)).countP q = (l.take n).countP q + (if q a then 1 else 0) := by
  rw [List.take_succ, h, List.countP_append]
  simp [List.countP_cons]

theorem countP_take_le {α : Type} (q : α → Bool) (l : List α) (n : Nat) :
    (l.take n).countP q ≤ l.countP q :=
  List.Sublist.countP_le q (List.take_sublist n l)

theorem sum_map_le_sum_map {α : Type} (g h : α → Nat) (l : List α)
    (hle : ∀ a ∈ l, g a ≤ h a) : (l.map g).sum ≤ (l.map h).sum := by
  induction l with
  | nil => exact le_refl _
  | cons a l ih =>
    have h1 := hle a (List.mem_cons_self a l)
    have h2 := ih (fun b hb => hle b (List.mem_cons_of_mem a hb))
    simp only [List.map_cons, List.sum_cons]
    omega

namespace Extended

/-- The part counted in a policy is within `max_contribution` when the policy is left. -/
theorem partial_le_max_contribution (p : Policy) (s c : Nat)
    (h1 : c ≤ (p.states.take s).countP (fun st => decide (st.is_invalid ≠ 0)))
    (h2 : p.is_mandatory ≠ 0 → c ≤ 1) : c ≤ max_contribution p := by
  have h3 := countP_take_le (fun st : RemarkableState => decide (st.is_invalid ≠ 0)) p.states s
  unfold max_contribution
  by_cases hm : p.is_mandatory ≠ 0
  · rw [if_pos hm]
    by_cases ha : p.states.any (fun st => decide (st.is_invalid ≠ 0)) = true
    · rw [if_pos ha]; exact h2 hm
    · rw [if_neg ha]
      have h0 : p.states.countP (fun st => decide (st.is_invalid ≠ 0)) = 0 := by
        rw [List.countP_eq_zero]
        intro st hst hd
        exact ha (List.any_eq_true.mpr ⟨st, hst, hd⟩)
      omega
  · rw [if_neg hm]; omega

/-- A step of a thread keeps its counter within bounds. -/
theorem worker_step_bounded {policies : List Policy} {f : Int} {w w1 : Worker}
    {wr : Option Int} (h : worker_step policies f w = some (w1, wr))
    (hb : worker_bounded policies w) : worker_bounded policies w1 := by
  obtain ⟨c, b1, b2, b3, b4⟩ := hb
  rcases worker_step_cases h with ⟨-, e, -⟩ | ⟨i, rest, p, htodo, hp, h1⟩
  · subst e; exact ⟨c, b1, b2, b3, b4⟩
  · obtain ⟨c1, c2, c3⟩ := b4 i rest p htodo hp
    have hnext : worker_bounded policies (worker_next w i rest) := by
      refine ⟨0, ?_, fun _ => rfl, fun hne => absurd rfl hne, ?_⟩
      · have hle := partial_le_max_contribution p w.s c c1 c3
        have hat : max_contribution_at policies i = max_contribution p := by
          unfold max_contribution_at; rw [hp]; rfl
        simp only [worker_next, List.map_append, List.sum_append, List.map_cons, List.map_nil,
          List.sum_cons, List.sum_nil, hat]
        omega
      · intro i1 rest1 p1 _ _
        exact ⟨Nat.zero_le _, fun _ _ => rfl, fun _ => Nat.zero_le _⟩
    have same : ∀ (i1 : Nat) (rest1 : List Nat) (p1 : Policy),
        w.todo = i1 :: rest1 → policies[i1]? = some p1 → p1 = p := by
      intro i1 rest1 p1 ht hp1
      rw [htodo] at ht
      obtain ⟨rfl, -⟩ := List.cons.inj ht
      rw [hp] at hp1
      exact (Option.some.inj hp1).symm
    have hne : w.todo ≠ [] := by rw [htodo]; exact List.cons_ne_nil i rest
    rcases h1 with ⟨-, -, hsp, -, e, -⟩ | ⟨-, -, e, -⟩ | ⟨-, -, e, -⟩ | ⟨hpc, -, e, -⟩ |
      ⟨hpc, st, hst, ⟨hinv, hm, e, -⟩ | ⟨hinv, hm, e, -⟩ | ⟨hval, e, -⟩⟩
    · subst e
      exact ⟨c, b1, b2, fun _ => hsp, b4⟩
    · subst e; exact hnext
    · subst e; exact hnext
    · subst e
      exact ⟨c, b1, b2, fun _ => b3 (by rw [hpc]; decide), b4⟩
    · have hsp : w.stop_policy = 0 := b3 (by rw [hpc]; decide)
      have hc0 : c = 0 := c2 hm hsp
      have hd : decide (st.is_invalid ≠ 0) = true := decide_eq_true hinv
      subst e
      refine ⟨1, ?_, fun ht => absurd ht hne, fun hne1 => absurd rfl hne1, ?_⟩
      · show w.invalid_count + 1 ≤ (w.finished.map (max_contribution_at policies)).sum + 1
        omega
      · intro i1 rest1 p1 ht hp1
        obtain rfl := same i1 rest1 p1 ht hp1
        refine ⟨?_, fun _ h1 => absurd h1 (show (1 : Int) ≠ 0 by decide), fun _ => le_refl _⟩
        show 1 ≤ (p1.states.take (w.s + 1)).countP _
        rw [countP_take_succ _ _ _ _ hst, if_pos hd]
        omega
    · have hd : decide (st.is_invalid ≠ 0) = true := decide_eq_true hinv
      subst e
      refine ⟨c + 1, ?_, fun ht => absurd ht hne, fun hne1 => absurd rfl hne1, ?_⟩
      · show w.invalid_count + 1 ≤
          (w.finished.map (max_contribution_at policies)).sum + (c + 1)
        omega
      · intro i1 rest1 p1 ht hp1
        obtain rfl := same i1 rest1 p1 ht hp1
        refine ⟨?_, fun hm1 => absurd hm hm1, fun hm1 => absurd hm hm1⟩
        show c + 1 ≤ (p1.states.take (w.s + 1)).countP _
        rw [countP_take_succ _ _ _ _ hst, if_pos hd]
        omega
    · subst e
      refine ⟨c, b1, fun ht => absurd ht hne, fun hne1 => absurd rfl hne1, ?_⟩
      intro i1 rest1 p1 ht hp1
      obtain rfl := same i1 rest1 p1 ht hp1
      refine ⟨?_, c2, c3⟩
      show c ≤ (p1.states.take (w.s + 1)).countP _
      rw [countP_take_succ _ _ _ _ hst]
      omega

/-- In every state of a run from the start all counters are within bounds. -/
theorem par_run_bounded (policies : List Policy) (assignment : List (List Nat)) (s0 : Int)
    (sched : List Nat) (σ : ParState)
    (h : par_run policies sched (par_init assignment s0) = some σ) :
    ∀ w ∈ σ.workers, worker_bounded policies w :=
  par_run_invariant policies (fun τ => ∀ w ∈ τ.workers, worker_bounded policies w)
    (fun j τ τ1 hP hs => by
      rcases par_step_cases hs with ⟨-, e⟩ | ⟨w, w1, wr, hw, hws, e⟩
      · rw [e]; exact hP
      · subst e
        intro w2 hw2
        rcases List.mem_or_eq_of_mem_set hw2 with hm | hm
        · exact hP w2 hm
        · rw [hm]; exact worker_step_bounded hws (hP w (mem_of_getElem? hw)))
    sched _ σ
    (fun w hw => by
      simp only [par_init, List.mem_map] at hw
      obtain ⟨chunk, -, rfl⟩ := hw
      exact ⟨0, le_refl _, fun _ => rfl, fun hne => absurd rfl hne,
        fun _ _ _ _ _ => ⟨Nat.zero_le _, fun _ _ => rfl, fun _ => Nat.zero_le _⟩⟩)
    h

/-- The count of a complete run is at most the sum of `max_contribution` over the
population. -/
theorem par_run_le {policies : List Policy} {num_policies : Nat}
    (hwf : WellFormed policies num_policies) (assignment : List (List Nat)) (s0 : Int)
    (ha : Classic.ValidAssignment num_policies assignment)
    (sched : List Nat) (σ : ParState)
    (h : par_run policies sched (par_init assignment s0) = some σ)
    (hfin : par_finished σ) :
    par_result σ ≤ invalid_states_non_mandatory policies + mandatory_with_invalid policies := by
  have hb := par_run_bounded policies assignment s0 sched σ h
  obtain ⟨-, -, g3⟩ := par_run_inv hwf assignment s0 sched σ h
  have h1 : par_result σ ≤
      (σ.workers.map (fun w => (w.finished.map (max_contribution_at policies)).sum)).sum := by
    unfold par_result
    apply sum_map_le_sum_map
    intro w hw
    obtain ⟨c, b1, b2, -, -⟩ := hb w hw
    have := b2 (hfin w hw)
    omega
  have h2 : σ.workers.map (fun w => w.finished) = assignment := by
    rw [← g3]
    apply List.map_congr_left
    intro w hw
    rw [hfin w hw, List.append_nil]
  have h3 : (σ.workers.map (fun w => (w.finished.map (max_contribution_at policies)).sum)).sum =
      (assignment.flatten.map (max_contribution_at policies)).sum := by
    rw [← sum_map_flatten, ← h2, List.map_map]
    rfl
  have h4 : (assignment.flatten.map (max_contribution_at policies)).sum =
      ((List.range num_policies).map (max_contribution_at policies)).sum :=
    List.Perm.sum_eq (List.Perm.map _ ha)
  have h5 : ((List.range num_policies).map (max_contribution_at policies)).sum =
      (policies.map max_contribution).sum := by
    rw [← hwf.1]
    exact sum_range_getElem? max_contribution policies
  rw [h3, h4, h5, sum_max_contribution] at h1
  exact h1

end Extended

theorem sum_map_set_lt {α : Type} (g : α → Nat) :
    ∀ (l : List α) (j : Nat) (a b : α), l[j]? = some a → g b < g a →
      ((l.set j b).map g).sum < (l.map g).sum := by
  intro l
  induction l with
  | nil => intro j a b h _; simp at h
  | cons x l ih =>
    intro j a b h hg
    cases j with
    | zero =>
      simp only [List.getElem?_cons_zero, Option.some.injEq] at h
      subst h
      simp only [List.set_cons_zero, List.map_cons, List.sum_cons]
      omega
    | succ j =>
      simp only [List.getElem?_cons_succ] at h
      have := ih j a b h hg
      simp only [List.set_cons_succ, List.map_cons, List.sum_cons]
      omega

namespace Extended

theorem worker_measure_next (policies : List Policy) (w : Worker) (i : Nat) (rest : List Nat) :
    worker_measure policies (worker_next w i rest) =
      (rest.map (fun k => 3 * num_states_at policies k + 3)).sum := by
  cases rest with
  | nil => rfl
  | cons k rest =>
    simp only [worker_measure, worker_next, List.map_cons, List.sum_cons, pc_weight]
    omega

/-- Every step of a thread that still has an iteration to run lowers its measure. -/
theorem worker_step_measure {policies : List Policy} {num_policies : Nat}
    (hwf : WellFormed policies num_policies) {f : Int} {w w1 : Worker} {wr : Option Int}
    (h : worker_step policies f w = some (w1, wr)) (hne : w.todo ≠ []) :
    worker_measure policies w1 < worker_measure policies w := by
  rcases worker_step_cases h with ⟨e, -, -⟩ | ⟨i, rest, p, htodo, hp, h1⟩
  · exact absurd e hne
  · have hn : num_states_at policies i = p.num_states := by
      unfold num_states_at; rw [hp]; rfl
    have hlen : p.states.length = p.num_states := hwf.2 p (mem_of_getElem? hp)
    have hm : worker_measure policies w =
        3 * (p.num_states - w.s) + pc_weight w.pc +
          (rest.map (fun k => 3 * num_states_at policies k + 3)).sum := by
      unfold worker_measure; rw [htodo]; simp only [hn]
    have hbody : ∀ w2 : Worker, w2.todo = w.todo → w2.s = w.s + 1 →
        w2.pc = ParPc.loop_test → w.pc = ParPc.state_body → w.s < p.num_states →
        worker_measure policies w2 < worker_measure policies w := by
      intro w2 e1 e2 e3 e4 e5
      rw [hm, e4]
      unfold worker_measure
      rw [e1, htodo]
      simp only [hn, e2, e3, pc_weight]
      omega
    rcases h1 with ⟨hpc, -, -, -, e, -⟩ | ⟨hpc, -, e, -⟩ | ⟨hpc, -, e, -⟩ | ⟨hpc, -, e, -⟩ |
      ⟨hpc, st, hst, ⟨-, -, e, -⟩ | ⟨-, -, e, -⟩ | ⟨-, e, -⟩⟩
    · subst e
      rw [hm, hpc]
      unfold worker_measure
      simp only [htodo, hn, pc_weight]
      omega
    · subst e
      rw [worker_measure_next, hm, hpc]
      simp only [pc_weight]
      omega
    · subst e
      rw [worker_measure_next, hm, hpc]
      simp only [pc_weight]
      omega
    · subst e
      rw [hm, hpc]
      unfold worker_measure
      simp only [htodo, hn, pc_weight]
      omega
    · have hs : w.s < p.num_states := by
        rw [← hlen]; exact (List.getElem?_eq_some_iff.mp hst).1
      subst e
      exact hbody _ rfl rfl rfl hpc hs
    · have hs : w.s < p.num_states := by
        rw [← hlen]; exact (List.getElem?_eq_some_iff.mp hst).1
      subst e
      exact hbody _ rfl rfl rfl hpc hs
    · have hs : w.s < p.num_states := by
        rw [← hlen]; exact (List.getElem?_eq_some_iff.mp hst).1
      subst e
      exact hbody _ rfl rfl rfl hpc hs

/-- From every safe state some interleaving lets all threads run all their iterations. -/
theorem par_run_completes {policies : List Policy} {num_policies : Nat}
    (hwf : WellFormed policies num_policies) :
    ∀ (n : Nat) (σ : ParState),
      (∀ w ∈ σ.workers, worker_safe policies num_policies w) →
      (σ.workers.map (worker_measure policies)).sum ≤ n →
      ∃ sched σ1, par_run policies sched σ = some σ1 ∧ par_finished σ1 := by
  intro n
  induction n with
  | zero =>
    intro σ _ hm
    refine ⟨[], σ, rfl, ?_⟩
    intro w hw
    have h0 : worker_measure policies w = 0 := by
      have := List.sum_eq_zero_iff.mp (Nat.le_zero.mp hm) _ (List.mem_map.mpr ⟨w, hw, rfl⟩)
      exact this
    cases htodo : w.todo with
    | nil => rfl
    | cons i rest =>
      unfold worker_measure at h0
      rw [htodo] at h0
      cases hpc : w.pc <;> simp only [hpc, pc_weight] at h0 <;> omega
  | succ n ih =>
    intro σ hs hm
    by_cases hfin : par_finished σ
    · exact ⟨[], σ, rfl, hfin⟩
    · unfold par_finished at hfin
      simp only [not_forall] at hfin
      obtain ⟨w, hw, hne⟩ := hfin
      obtain ⟨j, hj, hget⟩ := List.getElem_of_mem hw
      have hwj : σ.workers[j]? = some w := by
        rw [List.getElem?_eq_getElem hj, hget]
      obtain ⟨r, e1, e2⟩ := worker_step_safe σ.stop_all hwf (hs w hw)
      have hlt := worker_step_measure hwf (show worker_step policies σ.stop_all w =
        some (r.1, r.2) from e1) hne
      have hstep : par_step policies j σ = some
          { stop_all := r.2.getD σ.stop_all, workers := σ.workers.set j r.1,
            stop_writes := σ.stop_writes + (if r.2.isSome then 1 else 0) } := by
        unfold par_step
        simp only [hwj, e1]
      have hsum := sum_map_set_lt (worker_measure policies) σ.workers j w r.1 hwj hlt
      obtain ⟨sched, σ1, h1, h2⟩ := ih
        { stop_all := r.2.getD σ.stop_all, workers := σ.workers.set j r.1,
          stop_writes := σ.stop_writes + (if r.2.isSome then 1 else 0) }
        (show ∀ w2 ∈ (σ.workers.set j r.1), worker_safe policies num_policies w2 from by
          intro w2 hw2
          rcases List.mem_or_eq_of_mem_set hw2 with hm2 | hm2
          · exact hs w2 hm2
          · rw [hm2]; exact e2)
        (show ((σ.workers.set j r.1).map (worker_measure policies)).sum ≤ n by omega)
      exact ⟨j :: sched, σ1, by simp only [par_run, hstep]; exact h1, h2⟩

end Extended

/-! ## Rounding and casting -/

theorem round_half_even_le {n d M : Nat} (hd : 0 < d) (h : n ≤ M * d) :
    round_half_even n d ≤ M := by
  have hq : n / d ≤ M := by
    calc n / d ≤ M * d / d := Nat.div_le_div_right h
      _ = M := Nat.mul_div_cancel M hd
  have hdm := Nat.div_add_mod n d
  have hlt : 0 < n % d → n / d + 1 ≤ M := by
    intro hr
    by_contra hcon
    have he : n / d = M := by omega
    rw [he] at hdm
    have : d * M = M * d := Nat.mul_comm d M
    omega
  unfold round_half_even
  split
  · exact hq
  · split
    · exact hlt (by omega)
    · split
      · exact hq
      · exact hlt (by omega)

theorem round_half_even_one (n : Nat) : round_half_even n 1 = n := by
  simp [round_half_even, Nat.mod_one]

theorem c_double_round_zero : c_double_round 0 = 0 := by
  simp [c_double_round]

theorem c_double_round_pos_nonneg (a b : Nat) : 0 ≤ c_double_round_pos a b := by
  unfold c_double_round_pos
  split
  · exact div_nonneg (Nat.cast_nonneg _) (Nat.cast_nonneg _)
  · exact mul_nonneg (Nat.cast_nonneg _) (Nat.cast_nonneg _)

theorem c_double_round_nonneg {x : ℚ} (h : 0 ≤ x) : 0 ≤ c_double_round x := by
  unfold c_double_round
  have hnum : 0 ≤ x.num := Rat.num_nonneg.mpr h
  split
  · exact le_refl _
  · split
    · omega
    · exact c_double_round_pos_nonneg _ _

/-- A natural number below `2 ^ 53` is a binary64 number. -/
theorem c_double_round_natCast (n : Nat) (h : n < 2 ^ 53) : c_double_round (n : ℚ) = n := by
  unfold c_double_round
  rw [Rat.num_natCast, Rat.den_natCast]
  by_cases h0 : n = 0
  · subst h0; simp
  · have h1 : ¬ ((n : Int) = 0) := by exact_mod_cast h0
    have h2 : ¬ ((n : Int) < 0) := by omega
    rw [if_neg h1, if_neg h2, Int.natAbs_ofNat]
    unfold c_double_round_pos
    rw [if_pos (by omega), round_half_even_one]
    have hpow : ((2 ^ scale_up 1 1074 n : Nat) : ℚ) ≠ 0 := by
      exact_mod_cast (pow_pos (by decide : (0 : Nat) < 2) (scale_up 1 1074 n)).ne'
    rw [Nat.cast_mul]
    exact mul_div_cancel_right₀ _ hpow

/-- Rounding does not pass a natural number below `2 ^ 53`. -/
theorem c_double_round_le_natCast {x : ℚ} {N : Nat} (h0 : 0 ≤ x) (hx : x ≤ N)
    (hN : N < 2 ^ 53) : c_double_round x ≤ N := by
  unfold c_double_round
  have hnum : 0 ≤ x.num := Rat.num_nonneg.mpr h0
  split
  · exact Nat.cast_nonneg N
  · rename_i hne
    rw [if_neg (by omega)]
    have hden : 0 < x.den := x.den_pos
    have hcast : ((x.num.natAbs : Nat) : ℚ) = (x.num : ℚ) := by
      have h1 : ((x.num.natAbs : Nat) : Int) = x.num := Int.natAbs_of_nonneg hnum
      rw [← h1, Int.cast_natCast, Int.natAbs_ofNat]
    have hab : x.num.natAbs ≤ N * x.den := by
      have hx1 : (x.num : ℚ) / (x.den : ℚ) ≤ N := by rw [Rat.num_div_den]; exact hx
      have hdq : (0 : ℚ) < (x.den : ℚ) := by exact_mod_cast hden
      rw [div_le_iff₀ hdq, ← hcast] at hx1
      exact_mod_cast hx1
    unfold c_double_round_pos
    have hlt : x.num.natAbs < x.den * 2 ^ 53 := by
      calc x.num.natAbs ≤ N * x.den := hab
        _ < 2 ^ 53 * x.den := Nat.mul_lt_mul_of_pos_right hN hden
        _ = x.den * 2 ^ 53 := Nat.mul_comm _ _
    rw [if_pos hlt]
    have hpow : (0 : ℚ) < ((2 ^ scale_up x.den 1074 x.num.natAbs : Nat) : ℚ) := by
      exact_mod_cast pow_pos (by decide : (0 : Nat) < 2) (scale_up x.den 1074 x.num.natAbs)
    rw [div_le_iff₀ hpow]
    have hr := @round_half_even_le
      (x.num.natAbs * 2 ^ scale_up x.den 1074 x.num.natAbs) x.den
      (N * 2 ^ scale_up x.den 1074 x.num.natAbs) hden (by
        calc x.num.natAbs * 2 ^ scale_up x.den 1074 x.num.natAbs
            ≤ N * x.den * 2 ^ scale_up x.den 1074 x.num.natAbs := Nat.mul_le_mul_right _ hab
          _ = N * 2 ^ scale_up x.den 1074 x.num.natAbs * x.den := by ring)
    exact_mod_cast hr

theorem c_double_mul_one (n : Nat) (h : n < 2 ^ 53) : c_double_mul n 1 = n := by
  unfold c_double_mul
  rw [mul_one]
  exact c_double_round_natCast n h

theorem c_double_mul_zero (n : Nat) : c_double_mul n 0 = 0 := by
  unfold c_double_mul
  rw [mul_zero]
  exact c_double_round_zero

theorem c_double_zero_mul (x : ℚ) : c_double_mul 0 x = 0 := by
  unfold c_double_mul
  rw [Nat.cast_zero, zero_mul]
  exact c_double_round_zero

theorem c_double_to_int_natCast (n : Nat) : c_double_to_int (n : ℚ) = n := by
  simp [c_double_to_int]

theorem c_double_to_int_nonneg {x : ℚ} (h : 0 ≤ x) : 0 ≤ c_double_to_int x := by
  rw [c_double_to_int_of_nonneg x h]
  exact Int.floor_nonneg.mpr h

theorem c_double_to_int_le_natCast {x : ℚ} {N : Nat} (h0 : 0 ≤ x) (hx : x ≤ N) :
    c_double_to_int x ≤ N := by
  rw [c_double_to_int_of_nonneg x h0]
  have : ⌊x⌋ ≤ ⌊(N : ℚ)⌋ := Int.floor_mono hx
  simpa using this

/-- The cast of a `double` between 0 and an `int` is defined and lies between them. -/
theorem c_double_to_int_checked_of_le {x : ℚ} {N : Nat} (h0 : 0 ≤ x) (hx : x ≤ N)
    (hN : (N : Int) ≤ INT_MAX) :
    c_double_to_int_checked x = some (c_double_to_int x) ∧ 0 ≤ c_double_to_int x ∧
      c_double_to_int x ≤ N := by
  have h1 := c_double_to_int_nonneg h0
  have h2 := c_double_to_int_le_natCast h0 hx
  refine ⟨?_, h1, h2⟩
  unfold c_double_to_int_checked
  rw [if_pos]
  refine ⟨?_, le_trans h2 hN⟩
  unfold INT_MIN
  omega

theorem c_double_to_int_checked_some {x : ℚ} {q : Int}
    (h : c_double_to_int_checked x = some q) :
    q = c_double_to_int x ∧ INT_MIN ≤ q ∧ q ≤ INT_MAX := by
  unfold c_double_to_int_checked at h
  split at h
  · rename_i hr
    have := Option.some.inj h
    subst this
    exact ⟨rfl, hr⟩
  · exact absurd h (by simp)

theorem c_int_mul_some {a b : Nat} (h : (a * b : Int) ≤ INT_MAX) :
    c_int_mul a b = some (a * b) := by
  unfold c_int_mul
  rw [if_pos h]

/-! ## The pipeline with machine arithmetic -/

namespace Extended

theorem init_extended_outer_uniform (rand : RandSeq) (states_per_policy : Nat)
    (mandatory_thresh : Int) (num_policies c : Nat) :
    Uniform (init_extended_outer rand states_per_policy mandatory_thresh num_policies 0 c).1
      num_policies states_per_policy := by
  obtain ⟨h1, h2⟩ := init_extended_outer_spec rand states_per_policy mandatory_thresh
    num_policies 0 c
  refine ⟨h1, fun p hp => ?_⟩
  obtain ⟨j, hj⟩ := List.mem_iff_getElem?.mp hp
  exact ⟨(h2 j p hj).1, (h2 j p hj).2.1⟩

theorem init_extended_outer_fresh (rand : RandSeq) (states_per_policy : Nat)
    (mandatory_thresh : Int) (num_policies c : Nat) :
    Fresh (init_extended_outer rand states_per_policy mandatory_thresh num_policies 0 c).1 := by
  obtain ⟨-, h2⟩ := init_extended_outer_spec rand states_per_policy mandatory_thresh
    num_policies 0 c
  intro p hp
  obtain ⟨j, hj⟩ := List.mem_iff_getElem?.mp hp
  exact (h2 j p hj).2.2.1

theorem init_extended_outer_mandatory (rand : RandSeq) (states_per_policy : Nat)
    (mandatory_thresh : Int) (num_policies c j : Nat) (p : Policy)
    (hj : (init_extended_outer rand states_per_policy mandatory_thresh num_policies 0 c).1[j]? =
      some p) :
    p.is_mandatory = (if (j : Int) < mandatory_thresh then 1 else 0) := by
  obtain ⟨-, h2⟩ := init_extended_outer_spec rand states_per_policy mandatory_thresh
    num_policies 0 c
  have := (h2 j p hj).2.2.2
  simpa using this

theorem init_extended_outer_mandatory_list (rand : RandSeq) (states_per_policy : Nat)
    (mandatory_thresh : Int) (num_policies c : Nat) :
    (init_extended_outer rand states_per_policy mandatory_thresh num_policies 0 c).1.map
        (fun p => p.is_mandatory) =
      (List.range num_policies).map
        (fun i : Nat => if (i : Int) < mandatory_thresh then 1 else 0) := by
  have hlen := (init_extended_outer_spec rand states_per_policy mandatory_thresh
    num_policies 0 c).1
  apply List.ext_getElem?
  intro j
  rw [List.getElem?_map, List.getElem?_map]
  by_cases hj : j < num_policies
  · have hlt : j < (init_extended_outer rand states_per_policy mandatory_thresh num_policies
        0 c).1.length := by rw [hlen]; exact hj
    have hp := List.getElem?_eq_getElem hlt
    rw [hp, Option.map_some', init_extended_outer_mandatory _ _ _ _ _ j _ hp,
      List.getElem?_range hj, Option.map_some']
  · have h1 : (init_extended_outer rand states_per_policy mandatory_thresh num_policies
        0 c).1[j]? = none := by
      apply List.getElem?_eq_none
      rw [hlen]; omega
    have h2 : (List.range num_policies)[j]? = none := by
      apply List.getElem?_eq_none
      rw [List.length_range]; omega
    rw [h1, h2]
    rfl

theorem binary64_init_of_thresh (num_policies states_per_policy : Nat) (mandatory_ratio : ℚ)
    (rand : RandSeq) (c : Nat) (thresh : Int)
    (h : c_double_to_int_checked (c_double_mul num_policies mandatory_ratio) = some thresh) :
    Binary64.init_extended_policies num_policies states_per_policy mandatory_ratio rand c =
      some (init_extended_outer rand states_per_policy thresh num_policies 0 c) := by
  unfold Binary64.init_extended_policies
  rw [h]

/-- The loop rule for `apply_invalidation_extended` with machine arithmetic: when
`total_states*10` is an `int` and the cast of the quota is defined, the function returns,
in a state where the loop condition is false, and every property kept by the passes holds
there. -/
theorem binary64_apply_invalidation_extended_invariant (rand : RandSeq)
    (num_policies states_per_policy : Nat) (inval_rate : ℚ) (target_mode : Int) (c : Nat)
    (policies : List Policy) (q : Int) (P : InvalState → Prop)
    (hrange : ((num_policies * states_per_policy * 10 : Nat) : Int) ≤ INT_MAX)
    (hq : c_double_to_int_checked
      (c_double_mul (num_policies * states_per_policy) inval_rate) = some q)
    (hstep : ∀ σ σ1, loop_condition (num_policies * states_per_policy) σ →
      Uniform σ.policies num_policies states_per_policy → P σ →
      invalidation_body rand num_policies target_mode σ = some σ1 → P σ1)
    (hu : Uniform policies num_policies states_per_policy)
    (h0 : P { policies := policies, to_invalidate := q, attempts := 0, rand_calls := c }) :
    ∃ σ1, Binary64.apply_invalidation_extended policies num_policies states_per_policy
          inval_rate target_mode rand c = some σ1 ∧
        Uniform σ1.policies num_policies states_per_policy ∧ P σ1 ∧
        ¬ loop_condition (num_policies * states_per_policy) σ1 ∧
        σ1.attempts ≤ num_policies * states_per_policy * 10 := by
  have hmul : c_int_mul num_policies states_per_policy =
      some (num_policies * states_per_policy) := by
    apply c_int_mul_some
    have : ((num_policies * states_per_policy : Nat) : Int) ≤
        ((num_policies * states_per_policy * 10 : Nat) : Int) := by
      exact_mod_cast Nat.le_mul_of_pos_right _ (by decide : 0 < 10)
    have h2 := le_trans this hrange
    exact_mod_cast h2
  have hmul10 : c_int_mul (num_policies * states_per_policy) 10 =
      some (num_policies * states_per_policy * 10) := by
    apply c_int_mul_some
    exact_mod_cast hrange
  unfold Binary64.apply_invalidation_extended
  simp only [hmul, hq]
  by_cases hle : q ≤ 0
  · rw [if_pos hle]
    refine ⟨_, rfl, hu, h0, ?_, Nat.zero_le _⟩
    intro hc
    have : (0 : Int) < q := hc.1
    omega
  · rw [if_neg hle]
    simp only [hmul10]
    exact invalidation_loop_invariant rand num_policies states_per_policy target_mode P hstep
      _ _ (by simp) (by simp) hu h0

end Extended

namespace Classic

/-- The function `apply_invalidation_classic` with machine arithmetic returns when the
number of states is an `int` and the cast of the quota is defined; it makes as many draws as
the quota says. -/
theorem binary64_classic_apply_invalidation_spec (rand : RandSeq)
    (num_policies states_per_policy : Nat) (inval_rate : ℚ) (policies : List Policy) (c : Nat)
    (q : Int)
    (hrange : ((num_policies * states_per_policy : Nat) : Int) ≤ INT_MAX)
    (hq : c_double_to_int_checked
      (c_double_mul (num_policies * states_per_policy) inval_rate) = some q)
    (hu : Uniform policies num_policies states_per_policy) :
    ∃ policies1, Binary64.apply_invalidation_classic policies num_policies states_per_policy
          inval_rate rand c = some (policies1, c + 2 * q.toNat) ∧
      Uniform policies1 num_policies states_per_policy ∧
      invalid_states policies1 ≤ invalid_states policies + q.toNat ∧
      ∀ cell, state_invalid policies1 cell =
        (decide (cell ∈ draws rand num_policies states_per_policy q.toNat c) ||
          state_invalid policies cell) := by
  have hmul : c_int_mul num_policies states_per_policy =
      some (num_policies * states_per_policy) := by
    apply c_int_mul_some
    exact_mod_cast hrange
  unfold Binary64.apply_invalidation_classic
  simp only [hmul, hq]
  by_cases h0 : num_policies * states_per_policy = 0
  · have hq0 : q = 0 := by
      rw [h0, c_double_zero_mul] at hq
      have := (c_double_to_int_checked_some hq).1
      rw [this]
      simp [c_double_to_int]
    subst hq0
    exact ⟨policies, rfl, hu, by simp, fun cell => by simp [draws]⟩
  · have hpos : 0 < num_policies * states_per_policy := Nat.pos_of_ne_zero h0
    exact classic_invalidation_loop_spec rand num_policies states_per_policy
      (Nat.pos_of_mul_pos_right hpos) (Nat.pos_of_mul_pos_left hpos) _ policies c hu

end Classic

/-! ## The evaluators leave the memory as it is -/

theorem set_getElem?_self {α : Type} :
    ∀ (l : List α) (i : Nat) (a : α), l[i]? = some a → l.set i a = l := by
  intro l
  induction l with
  | nil => intro i a h; simp at h
  | cons x l ih =>
    intro i a h
    cases i with
    | zero =>
      simp only [List.getElem?_cons_zero, Option.some.injEq] at h
      subst h
      rfl
    | succ i =>
      simp only [List.getElem?_cons_succ] at h
      simp only [List.set_cons_succ, ih i a h]

namespace Classic

theorem classic_evaluate_state_mem_eq {mem : List Policy} {i s : Nat} {p : Policy}
    {st : RemarkableState} (hp : mem[i]? = some p) (hs : p.states[s]? = some st) :
    evaluate_state_mem mem i s = some mem := by
  unfold evaluate_state_mem
  simp only [hp, hs, set_getElem?_self p.states s st hs]
  have : ({ p with states := p.states } : Policy) = p := by cases p; rfl
  rw [this, set_getElem?_self mem i p hp]

theorem classic_seq_inner_mem_eq (rand : RandSeq) (i : Nat) (mem : List Policy) (p : Policy)
    (hp : mem[i]? = some p) :
    ∀ (k s : Nat) (σ : EvalState),
      classic_seq_inner_mem rand i k s mem σ =
        (classic_seq_inner rand p i k s σ).map (fun τ => (mem, τ)) := by
  intro k
  induction k with
  | zero => intro s σ; rfl
  | succ k ih =>
    intro s σ
    unfold classic_seq_inner_mem classic_seq_inner
    simp only [hp]
    cases hs : p.states[s]? with
    | none => rfl
    | some st =>
      simp only [classic_evaluate_state_mem_eq hp hs, hp, hs]
      exact ih _ _

theorem classic_seq_outer_mem_eq (rand : RandSeq) (mem : List Policy) :
    ∀ (k i : Nat) (σ : EvalState),
      classic_seq_outer_mem rand k i mem σ =
        (classic_seq_outer rand mem k i σ).map (fun τ => (mem, τ)) := by
  intro k
  induction k with
  | zero => intro i σ; rfl
  | succ k ih =>
    intro i σ
    unfold classic_seq_outer_mem classic_seq_outer
    cases hp : mem[i]? with
    | none => rfl
    | some p =>
      simp only [classic_seq_inner_mem_eq rand i mem p hp]
      cases classic_seq_inner rand p i p.num_states 0 σ with
      | none => rfl
      | some σ1 =>
        simp only [Option.map_some']
        exact ih _ _

theorem classic_par_inner_mem_eq (i : Nat) (mem : List Policy) (p : Policy)
    (hp : mem[i]? = some p) :
    ∀ (k s cnt : Nat),
      classic_par_inner_mem i k s mem cnt =
        (classic_par_inner p k s cnt).map (fun n => (mem, n)) := by
  intro k
  induction k with
  | zero => intro s cnt; rfl
  | succ k ih =>
    intro s cnt
    unfold classic_par_inner_mem classic_par_inner
    cases hs : p.states[s]? with
    | none =>
      have : evaluate_state_mem mem i s = none := by
        unfold evaluate_state_mem
        simp only [hp, hs]
      simp only [this]
      rfl
    | some st =>
      simp only [classic_evaluate_state_mem_eq hp hs, hp, hs]
      exact ih _ _

theorem classic_par_worker_mem_eq (mem : List Policy) :
    ∀ (chunk : List Nat) (cnt : Nat),
      classic_par_worker_mem chunk mem cnt =
        (classic_par_worker mem chunk cnt).map (fun n => (mem, n)) := by
  intro chunk
  induction chunk with
  | nil => intro cnt; rfl
  | cons i rest ih =>
    intro cnt
    unfold classic_par_worker_mem classic_par_worker
    cases hp : mem[i]? with
    | none => rfl
    | some p =>
      simp only [classic_par_inner_mem_eq i mem p hp]
      cases classic_par_inner p p.num_states 0 cnt with
      | none => rfl
      | some cnt1 =>
        simp only [Option.map_some']
        exact ih _

theorem classic_par_threads_mem_eq (mem : List Policy) :
    ∀ (assignment : List (List Nat)),
      (classic_par_threads_mem assignment mem).map (fun r => (r.1, r.2.sum)) =
        (omp_reduce_sum (assignment.map (fun chunk => classic_par_worker mem chunk 0))).map
          (fun n => (mem, n)) := by
  intro assignment
  induction assignment with
  | nil => rfl
  | cons chunk rest ih =>
    unfold classic_par_threads_mem
    simp only [classic_par_worker_mem_eq mem chunk 0, List.map_cons]
    cases classic_par_worker mem chunk 0 with
    | none => rfl
    | some n =>
      simp only [Option.map_some', omp_reduce_sum]
      cases hth : classic_par_threads_mem rest mem with
      | none =>
        rw [hth] at ih
        simp only [Option.map_none'] at ih
        cases hsum : omp_reduce_sum (rest.map (fun chunk => classic_par_worker mem chunk 0)) with
        | none => rfl
        | some t => rw [hsum] at ih; exact absurd ih (by simp)
      | some r1 =>
        rw [hth] at ih
        simp only [Option.map_some'] at ih
        cases hsum : omp_reduce_sum (rest.map (fun chunk => classic_par_worker mem chunk 0)) with
        | none => rw [hsum] at ih; exact absurd ih (by simp)
        | some t =>
          rw [hsum] at ih
          simp only [Option.map_some', Option.some.injEq, Prod.mk.injEq] at ih
          simp only [Option.map_some', List.sum_cons, ih.1, ih.2]

end Classic

namespace Extended

theorem evaluate_state_mem_eq {mem : List Policy} {i s : Nat} {p : Policy}
    {st : RemarkableState} (hp : mem[i]? = some p) (hs : p.states[s]? = some st) :
    evaluate_state_mem mem i s = some mem := by
  unfold evaluate_state_mem
  simp only [hp, hs, set_getElem?_self p.states s st hs]
  have : ({ p with states := p.states } : Policy) = p := by cases p; rfl
  rw [this, set_getElem?_self mem i p hp]

theorem extended_seq_inner_mem_eq (rand : RandSeq) (i : Nat) (mem : List Policy) (p : Policy)
    (hp : mem[i]? = some p) :
    ∀ (k s : Nat) (σ : EvalState),
      extended_seq_inner_mem rand i k s mem σ =
        (extended_seq_inner rand p i k s σ).map (fun τ => (mem, τ)) := by
  intro k
  induction k with
  | zero => intro s σ; rfl
  | succ k ih =>
    intro s σ
    unfold extended_seq_inner_mem extended_seq_inner
    by_cases h0 : σ.stop_all ≠ 0
    · rw [if_pos h0, if_pos h0]; rfl
    · rw [if_neg h0, if_neg h0]
      simp only [hp]
      cases hs : p.states[s]? with
      | none => rfl
      | some st =>
        simp only [evaluate_state_mem_eq hp hs, hp, hs]
        exact ih _ _

theorem extended_seq_outer_mem_eq (rand : RandSeq) (mem : List Policy) :
    ∀ (k i : Nat) (σ : EvalState),
      extended_seq_outer_mem rand k i mem σ =
        (extended_seq_outer rand mem k i σ).map (fun τ => (mem, τ)) := by
  intro k
  induction k with
  | zero => intro i σ; rfl
  | succ k ih =>
    intro i σ
    unfold extended_seq_outer_mem extended_seq_outer
    by_cases h0 : σ.stop_all ≠ 0
    · rw [if_pos h0, if_pos h0]; rfl
    · rw [if_neg h0, if_neg h0]
      cases hp : mem[i]? with
      | none => rfl
      | some p =>
        simp only [extended_seq_inner_mem_eq rand i mem p hp]
        cases extended_seq_inner rand p i p.num_states 0 σ with
        | none => rfl
        | some σ1 =>
          simp only [Option.map_some']
          exact ih _ _

theorem extended_par_inner_mem_eq (i : Nat) (reads : Nat → Nat → Int) (mem : List Policy)
    (p : Policy) (hp : mem[i]? = some p) :
    ∀ (k s : Nat) (sp : Int) (cnt : Nat),
      extended_par_inner_mem i reads k s sp mem cnt =
        (extended_par_inner p reads k s sp cnt).map (fun n => (mem, n)) := by
  intro k
  induction k with
  | zero => intro s sp cnt; rfl
  | succ k ih =>
    intro s sp cnt
    unfold extended_par_inner_mem extended_par_inner
    by_cases h1 : sp ≠ 0
    · rw [if_pos h1, if_pos h1]; rfl
    · rw [if_neg h1, if_neg h1]
      by_cases h2 : reads s 0 ≠ 0
      · rw [if_pos h2, if_pos h2]; rfl
      · rw [if_neg h2, if_neg h2]
        by_cases h3 : reads s 1 ≠ 0
        · rw [if_pos h3, if_pos h3]; rfl
        · rw [if_neg h3, if_neg h3]
          cases hs : p.states[s]? with
          | none =>
            have : evaluate_state_mem mem i s = none := by
              unfold evaluate_state_mem
              simp only [hp, hs]
            simp only [this]
            rfl
          | some st =>
            simp only [evaluate_state_mem_eq hp hs, hp, hs]
            by_cases hinv : st.is_invalid ≠ 0
            · rw [if_pos hinv, if_pos hinv]
              by_cases hm : p.is_mandatory ≠ 0
              · rw [if_pos hm, if_pos hm]; exact ih _ _ _
              · rw [if_neg hm, if_neg hm]; exact ih _ _ _
            · rw [if_neg hinv, if_neg hinv]; exact ih _ _ _

theorem extended_par_outer_mem_eq (reads : Nat → Nat → Nat → Int) (mem : List Policy) :
    ∀ (k i : Nat),
      (extended_par_outer_mem reads k i mem).map (fun r => (r.1, r.2.sum)) =
        (omp_reduce_sum (extended_par_outer mem reads k i)).map (fun n => (mem, n)) := by
  intro k
  induction k with
  | zero => intro i; rfl
  | succ k ih =>
    intro i
    unfold extended_par_outer_mem extended_par_outer
    cases hp : mem[i]? with
    | none => rfl
    | some p =>
      simp only [extended_par_inner_mem_eq i (reads i) mem p hp]
      cases extended_par_inner p (reads i) p.num_states 0 0 0 with
      | none => rfl
      | some n =>
        simp only [Option.map_some', omp_reduce_sum]
        have ih1 := ih (i + 1)
        cases hth : extended_par_outer_mem reads k (i + 1) mem with
        | none =>
          rw [hth] at ih1
          simp only [Option.map_none'] at ih1
          cases hsum : omp_reduce_sum (extended_par_outer mem reads k (i + 1)) with
          | none => rfl
          | some t => rw [hsum] at ih1; exact absurd ih1 (by simp)
        | some r1 =>
          rw [hth] at ih1
          simp only [Option.map_some'] at ih1
          cases hsum : omp_reduce_sum (extended_par_outer mem reads k (i + 1)) with
          | none => rw [hsum] at ih1; exact absurd ih1 (by simp)
          | some t =>
            rw [hsum] at ih1
            simp only [Option.map_some', Option.some.injEq, Prod.mk.injEq] at ih1
            simp only [Option.map_some', List.sum_cons, ih1.1, ih1.2]

end Extended

/-! ## Properties of the specification -/

/-- C1: on every well-formed population `evaluate_policies_extended_sequential` returns.
The states it evaluated are the cells of the population in policy order and then state
order, up to and including the first state that is invalid and belongs to a mandatory
policy, and the value returned is the number of invalid states among the evaluated ones.
When no invalid state belongs to a mandatory policy, every state is evaluated and the value
returned is the number of invalid states of the population. -/
theorem C1_extended_sequential_early_stop (policies : List Extended.Policy)
    (num_policies : Nat) (rand : RandSeq) (c : Nat) (s0 : Int)
    (hwf : Extended.WellFormed policies num_policies) :
    (Extended.evaluate_policies_extended_sequential policies num_policies rand c s0).map
        (fun σ => (σ.trace, σ.invalid_count)) =
      some (take_until (Extended.stops policies) (Extended.all_cells policies),
        (take_until (Extended.stops policies) (Extended.all_cells policies)).countP
          (Extended.state_invalid policies)) ∧
    ((∀ cell ∈ Extended.all_cells policies, Extended.stops policies cell = false) →
      (Extended.evaluate_policies_extended_sequential policies num_policies rand c s0).map
          (fun σ => (σ.trace, σ.invalid_count)) =
        some (Extended.all_cells policies, Extended.invalid_states policies)) := by
  obtain ⟨σ, e1, e2, e3, -, -⟩ :=
    Extended.extended_seq_run policies num_policies rand c s0 hwf
  refine ⟨by simp [e1, e2, e3], fun hno => ?_⟩
  have hself := take_until_eq_self _ _ hno
  rw [hself] at e2 e3
  rw [Extended.countP_all_cells policies num_policies hwf] at e3
  simp [e1, e2, e3]

/-- C1, on a population of three policies whose second policy is mandatory and has its
first state invalid: evaluation visits three cells and returns 2. -/
theorem C1_extended_sequential_early_stop_witness :
    Extended.WellFormed
      [{ num_states := 2,
         states := [{ is_context := 0, is_invalid := 0, subset := .SUBSET_CPU },
                    { is_context := 1, is_invalid := 1, subset := .SUBSET_MEMORY }],
         is_mandatory := 0 },
       { num_states := 2,
         states := [{ is_context := 0, is_invalid := 1, subset := .SUBSET_CPU },
                    { is_context := 0, is_invalid := 1, subset := .SUBSET_NETWORK }],
         is_mandatory := 1 },
       { num_states := 1,
         states := [{ is_context := 0, is_invalid := 1, subset := .SUBSET_CPU }],
         is_mandatory := 0 }] 3 ∧
    (Extended.evaluate_policies_extended_sequential
      [{ num_states := 2,
         states := [{ is_context := 0, is_invalid := 0, subset := .SUBSET_CPU },
                    { is_context := 1, is_invalid := 1, subset := .SUBSET_MEMORY }],
         is_mandatory := 0 },
       { num_states := 2,
         states := [{ is_context := 0, is_invalid := 1, subset := .SUBSET_CPU },
                    { is_context := 0, is_invalid := 1, subset := .SUBSET_NETWORK }],
         is_mandatory := 1 },
       { num_states := 1,
         states := [{ is_context := 0, is_invalid := 1, subset := .SUBSET_CPU }],
         is_mandatory := 0 }] 3 (fun n => n) 0 0).map
        (fun σ => (σ.trace, σ.invalid_count)) = some ([(0, 0), (0, 1), (1, 0)], 2) :=
  ⟨by decide, (C1_extended_sequential_early_stop _ 3 (fun n => n) 0 0 (by decide)).1.trans
    (by decide)⟩

/-- C2: on every well-formed population `evaluate_policies_classic_seq` returns the number
of states whose `is_invalid` flag is set, and the states it evaluated are all the cells of
the population in policy order and then state order: every state of every policy, each
exactly once. -/
theorem C2_classic_seq_counts_every_state (policies : List Classic.Policy)
    (num_policies : Nat) (rand : RandSeq) (c : Nat)
    (hwf : Classic.WellFormed policies num_policies) :
    (Classic.evaluate_policies_classic_seq policies num_policies rand c).map
        (fun σ => (σ.invalid_count, σ.trace)) =
      some (Classic.invalid_states policies, Classic.all_cells policies) ∧
    (Classic.all_cells policies).Nodup ∧
    (∀ i s, (i, s) ∈ Classic.all_cells policies ↔
      ∃ p, policies[i]? = some p ∧ s < p.num_states) := by
  obtain ⟨σ, e1, e2, e3⟩ := Classic.classic_seq_run policies num_policies rand c hwf
  refine ⟨by simp [e1, e2, e3], nodup_cells_from _ 0, fun i s => ?_⟩
  unfold Classic.all_cells
  rw [mem_cells_from]
  simp only [Nat.zero_le, Nat.sub_zero, true_and, List.getElem?_map]
  constructor
  · rintro ⟨n, h1, h2⟩
    cases hp : policies[i]? with
    | none => simp [hp] at h1
    | some p =>
      simp only [hp, Option.map_some', Option.some.injEq] at h1
      exact ⟨p, rfl, by omega⟩
  · rintro ⟨p, h1, h2⟩
    exact ⟨p.num_states, by simp [h1], h2⟩

/-- C2, on a population of two policies with two invalid states out of three. -/
theorem C2_classic_seq_counts_every_state_witness :
    Classic.WellFormed
      [{ num_states := 2, states := [{ is_context := 1, is_invalid := 0 },
                                     { is_context := 0, is_invalid := 1 }] },
       { num_states := 1, states := [{ is_context := 0, is_invalid := 5 }] }] 2 ∧
    (Classic.evaluate_policies_classic_seq
      [{ num_states := 2, states := [{ is_context := 1, is_invalid := 0 },
                                     { is_context := 0, is_invalid := 1 }] },
       { num_states := 1, states := [{ is_context := 0, is_invalid := 5 }] }] 2
      (fun n => n) 0).map (fun σ => (σ.invalid_count, σ.trace)) =
      some (2, [(0, 0), (0, 1), (1, 0)]) :=
  ⟨by decide, (C2_classic_seq_counts_every_state _ 2 (fun n => n) 0 (by decide)).1.trans
    (by decide)⟩

/-- C3: for every population size, mandatory ratio, invalidation rate and random sequence,
`apply_invalidation_extended` returns on the population made by `init_extended_policies`;
with `target_mode = 1` every state then marked invalid lies in a policy with
`is_mandatory = 1`, and with `target_mode = -1` every state then marked invalid lies in a
policy with `is_mandatory = 0`. -/
theorem C3_targeted_invalidation (num_policies states_per_policy : Nat)
    (mandatory_ratio inval_rate : ℚ) (rand : RandSeq) (c c1 : Nat) :
    (∃ σ, Extended.apply_invalidation_extended
        (Extended.init_extended_policies num_policies states_per_policy mandatory_ratio
          rand c).1 num_policies states_per_policy inval_rate 1 rand c1 = some σ ∧
      ∀ p ∈ σ.policies, ∀ st ∈ p.states, st.is_invalid ≠ 0 → p.is_mandatory = 1) ∧
    (∃ σ, Extended.apply_invalidation_extended
        (Extended.init_extended_policies num_policies states_per_policy mandatory_ratio
          rand c).1 num_policies states_per_policy inval_rate (-1) rand c1 = some σ ∧
      ∀ p ∈ σ.policies, ∀ st ∈ p.states, st.is_invalid ≠ 0 → p.is_mandatory = 0) := by
  have hu := Extended.init_extended_policies_uniform num_policies states_per_policy
    mandatory_ratio rand c
  have hfresh := Extended.init_extended_policies_fresh num_policies states_per_policy
    mandatory_ratio rand c
  have hflags := Extended.init_extended_policies_flags num_policies states_per_policy
    mandatory_ratio rand c
  constructor
  · obtain ⟨σ, e, -, hP, -, -⟩ := Extended.apply_invalidation_extended_invariant rand
      num_policies states_per_policy inval_rate 1 c1 _
      (fun σ => (∀ p ∈ σ.policies, p.is_mandatory = 0 ∨ p.is_mandatory = 1) ∧
        ∀ p ∈ σ.policies, ∀ st ∈ p.states, st.is_invalid ≠ 0 → p.is_mandatory = 1)
      (fun σ σ1 _ _ hP hb =>
        ⟨Extended.invalidation_body_flags (fun x => x = 0 ∨ x = 1) hb hP.1,
          Extended.invalidation_body_target (fun x => x = 1) hb hP.2
            (fun x hx ⟨p, hp, hpx⟩ => by
              have := hP.1 p hp
              rw [hpx] at this
              simp only [true_and, not_or] at hx
              rcases this with h | h
              · exact absurd h hx.1
              · exact h)⟩)
      hu ⟨hflags, fun p hp st hst hinv => absurd (hfresh p hp st hst) hinv⟩
    exact ⟨σ, e, hP.2⟩
  · obtain ⟨σ, e, -, hP, -, -⟩ := Extended.apply_invalidation_extended_invariant rand
      num_policies states_per_policy inval_rate (-1) c1 _
      (fun σ => (∀ p ∈ σ.policies, p.is_mandatory = 0 ∨ p.is_mandatory = 1) ∧
        ∀ p ∈ σ.policies, ∀ st ∈ p.states, st.is_invalid ≠ 0 → p.is_mandatory = 0)
      (fun σ σ1 _ _ hP hb =>
        ⟨Extended.invalidation_body_flags (fun x => x = 0 ∨ x = 1) hb hP.1,
          Extended.invalidation_body_target (fun x => x = 0) hb hP.2
            (fun x hx ⟨p, hp, hpx⟩ => by
              have := hP.1 p hp
              rw [hpx] at this
              simp only [true_and, not_or] at hx
              rcases this with h | h
              · exact h
              · exact absurd h hx.2)⟩)
      hu ⟨hflags, fun p hp st hst hinv => absurd (hfresh p hp st hst) hinv⟩
    exact ⟨σ, e, hP.2⟩

/-- C4 fails as stated: with numPolicies = 1, statesPerPolicy = 1 and invalRate = 0.5 > 0
the quota is (int)(1 * 0.5) = 0, no state is invalidated, and the extended engine with
mandatoryRatio = 1.0 and targetMode = 1 reports InvalidCount = 0 in Seq mode, not 1.  Nor
is a result defined for every invalRate > 0 and every size: with invalRate = 10^10 the cast
of the quota leaves the range of `int`, and with 1 policy of 214748365 states and a quota
of 1 the loop bound `total_states*10` does. -/
theorem C4_first_invalid_counterexample :
    (0 : ℚ) < 1 / 2 ∧
    c_double_to_int_checked (c_double_mul (1 * 1) (1 / 2)) = some 0 ∧
    Extended.Binary64.main 1 1 (1 / 2) 1 1 "Seq" "static" (fun _ => 0) true
      (fun _ _ _ => 0) = some 0 ∧
    Extended.Binary64.main 1 1 10000000000 1 1 "Seq" "static" (fun _ => 0) true
      (fun _ _ _ => 0) = none ∧
    c_double_to_int_checked (c_double_mul (1 * 214748365) (1 / 200000000)) = some 1 ∧
    c_int_mul (1 * 214748365) 10 = none ∧
    (∀ (policies : List Extended.Policy) (rand : RandSeq) (c : Nat),
      Extended.Binary64.apply_invalidation_extended policies 1 214748365 (1 / 200000000) 1
        rand c = none) := by
  have h1 : c_double_to_int_checked (c_double_mul (1 * 214748365) (1 / 200000000)) =
      some 1 := by decide!
  have h2 : c_int_mul (1 * 214748365) 10 = none := by decide
  have h3 : c_int_mul 1 214748365 = some (1 * 214748365) := by decide
  refine ⟨by norm_num, by decide!, by decide!, by decide!, h1, h2, ?_⟩
  intro policies rand c
  unfold Extended.Binary64.apply_invalidation_extended
  simp only [h3, h1, h2]
  rw [if_neg (by decide)]

/-- C4 amended: in the extended engine, for every numPolicies >= 1 and statesPerPolicy >= 1
with 10 x numPolicies x statesPerPolicy within the range of `int`, every random sequence and
every invalRate whose quota `(int)(total_states * inval_rate)`, the truncation of the double
product, is defined and at least 1, with mandatoryRatio = 1.0, targetMode = 1 and
mode = Seq: the population is made with every policy mandatory, the invalidation step marks
at least one state, the evaluation visits the cells in policy order and then state order up
to and including the first invalid one, and InvalidCount = 1. -/
theorem C4_first_invalid_halts (num_policies states_per_policy : Nat) (inval_rate : ℚ)
    (schedule_str : String) (rand : RandSeq) (openmp : Bool) (reads : Nat → Nat → Nat → Int)
    (q : Int) (hnp : 1 ≤ num_policies) (hspp : 1 ≤ states_per_policy)
    (hrange : ((num_policies * states_per_policy * 10 : Nat) : Int) ≤ INT_MAX)
    (hq : c_double_to_int_checked
      (c_double_mul (num_policies * states_per_policy) inval_rate) = some q)
    (hquota : 1 ≤ q) :
    ∃ pol r σ,
      Extended.Binary64.init_extended_policies num_policies states_per_policy 1 rand 0 =
        some pol ∧
      (∀ p ∈ pol.1, p.is_mandatory = 1) ∧
      Extended.Binary64.apply_invalidation_extended pol.1 num_policies states_per_policy
        inval_rate 1 rand pol.2 = some r ∧
      Extended.evaluate_policies_extended_sequential r.policies num_policies rand
        r.rand_calls 0 = some σ ∧
      (Extended.all_cells r.policies).any (Extended.state_invalid r.policies) = true ∧
      σ.trace = take_until (Extended.state_invalid r.policies) (Extended.all_cells r.policies) ∧
      σ.invalid_count = 1 ∧
      Extended.Binary64.main num_policies states_per_policy inval_rate 1 1 "Seq"
        schedule_str rand openmp reads = some 1 := by
  have hnmax : ((num_policies : Nat) : Int) ≤ INT_MAX := by
    have h1 : num_policies ≤ num_policies * states_per_policy * 10 := by
      calc num_policies = num_policies * 1 := (Nat.mul_one _).symm
        _ ≤ num_policies * (states_per_policy * 10) :=
          Nat.mul_le_mul_left _ (by omega)
        _ = num_policies * states_per_policy * 10 := (Nat.mul_assoc _ _ _).symm
    exact le_trans (by exact_mod_cast h1) hrange
  have hN : num_policies < 2 ^ 53 := by
    unfold INT_MAX at hnmax
    omega
  have hthresh : c_double_to_int_checked (c_double_mul num_policies 1) =
      some (num_policies : Int) := by
    have hx : c_double_mul num_policies 1 = num_policies := c_double_mul_one num_policies hN
    have := (@c_double_to_int_checked_of_le (num_policies : ℚ) num_policies
      (Nat.cast_nonneg _) (le_refl _) hnmax).1
    rw [hx, this, c_double_to_int_natCast]
  have hinit := Extended.binary64_init_of_thresh num_policies states_per_policy 1 rand 0
    num_policies hthresh
  have hu := Extended.init_extended_outer_uniform rand states_per_policy num_policies
    num_policies 0
  have hf := Extended.init_extended_outer_fresh rand states_per_policy num_policies
    num_policies 0
  have hm : ∀ p ∈ (Extended.init_extended_outer rand states_per_policy num_policies
      num_policies 0 0).1, p.is_mandatory = 1 := by
    intro p hp
    obtain ⟨j, hj⟩ := List.mem_iff_getElem?.mp hp
    rw [Extended.init_extended_outer_mandatory _ _ _ _ _ j p hj]
    have hlt : j < num_policies := by
      have := (List.getElem?_eq_some_iff.mp hj).1
      rw [hu.1] at this
      exact this
    have : (j : Int) < (num_policies : Int) := by exact_mod_cast hlt
    rw [if_pos this]
  obtain ⟨r, e, hur, hP, hcond, -⟩ := Extended.binary64_apply_invalidation_extended_invariant
    rand num_policies states_per_policy inval_rate 1
    (Extended.init_extended_outer rand states_per_policy num_policies num_policies 0 0).2
    (Extended.init_extended_outer rand states_per_policy num_policies num_policies 0 0).1 q
    (fun σ => (∀ p ∈ σ.policies, p.is_mandatory = 1) ∧
      ((Extended.Fresh σ.policies ∧ σ.attempts = 0 ∧ 1 ≤ σ.to_invalidate) ∨
        1 ≤ Extended.invalid_states σ.policies))
    hrange hq
    (fun σ σ1 _ _ hP hb => by
      refine ⟨Extended.invalidation_body_flags (fun x => x = 1) hb hP.1, ?_⟩
      obtain ⟨-, h1 | h1⟩ := Extended.invalidation_body_cases hb
      · obtain ⟨e1, -, pi, p, hp, hwhy⟩ := h1
        rw [e1]
        rcases hP.2 with ⟨hfresh, -, -⟩ | hinv
        · exfalso
          have hmand := hP.1 p (mem_of_getElem? hp)
          rcases hwhy with (⟨-, h0⟩ | ⟨h0, -⟩) | ⟨si, st, hs, hne⟩
          · rw [hmand] at h0; exact absurd h0 (by decide)
          · exact absurd h0 (by decide)
          · exact hne (hfresh p (mem_of_getElem? hp) st (mem_of_getElem? hs))
        · exact Or.inr hinv
      · obtain ⟨pi, si, p, st, hp, hs, hi, -, e1, -⟩ := h1
        right
        rw [e1, Extended.invalid_states_set hp hs, if_pos hi]
        omega)
    hu ⟨hm, Or.inl ⟨hf, rfl, hquota⟩⟩
  have hinv : 1 ≤ Extended.invalid_states r.policies := by
    rcases hP.2 with ⟨-, h0, h1⟩ | h
    · exfalso
      apply hcond
      refine ⟨by omega, ?_⟩
      rw [h0]
      have : 0 < num_policies * states_per_policy := Nat.mul_pos hnp hspp
      omega
    · exact h
  have hwf := Extended.uniform_wellFormed hur
  have hstops : Extended.stops r.policies = Extended.state_invalid r.policies :=
    Extended.stops_eq_state_invalid (fun p hp => by rw [hP.1 p hp]; decide)
  have hany : (Extended.all_cells r.policies).any (Extended.state_invalid r.policies) =
      true := by
    rw [← Extended.countP_all_cells r.policies num_policies hwf] at hinv
    have hpos : 0 < (Extended.all_cells r.policies).countP
        (Extended.state_invalid r.policies) := hinv
    rw [List.countP_pos_iff] at hpos
    obtain ⟨cell, h1, h2⟩ := hpos
    exact List.any_eq_true.mpr ⟨cell, h1, h2⟩
  obtain ⟨σ, f1, f2, f3, -, -⟩ := Extended.extended_seq_run r.policies num_policies rand
    r.rand_calls 0 hwf
  rw [hstops] at f2 f3
  rw [countP_take_until, if_pos hany] at f3
  refine ⟨_, r, σ, hinit, hm, e, f1, hany, f2, f3, ?_⟩
  unfold Extended.Binary64.main
  simp only [hinit, e, if_true, f1, Option.map_some', f3]

/-- C4 amended, with numPolicies = 3, statesPerPolicy = 4 and invalRate = 1/2 (quota 6). -/
theorem C4_first_invalid_halts_witness :
    1 ≤ 3 ∧ 1 ≤ 4 ∧ ((3 * 4 * 10 : Nat) : Int) ≤ INT_MAX ∧
    c_double_to_int_checked (c_double_mul (3 * 4) (1 / 2)) = some 6 ∧ (1 : Int) ≤ 6 ∧
    Extended.Binary64.main 3 4 (1 / 2) 1 1 "Seq" "static"
      (fun n => (n * 7919 + 13) % 1000) true (fun _ _ _ => 0) = some 1 :=
  ⟨by decide, by decide, by decide, by decide!, by decide, by
    obtain ⟨_, _, _, -, -, -, -, -, -, -, h⟩ := C4_first_invalid_halts 3 4 (1 / 2) "static"
      (fun n => (n * 7919 + 13) % 1000) true (fun _ _ _ => 0) 6 (by decide) (by decide)
      (by decide) (by decide!) (by decide)
    exact h⟩

/-- C6: with invalRate = 0.0, for every population size, random sequence, mode and schedule,
in both engines the invalidation step leaves the freshly made population as it is and the
evaluator reports InvalidCount = 0; in the classic `Par` mode this holds for every assignment
of the iterations to threads, and in the extended `Par` mode for every value read from the
shared flag, with or without OpenMP. -/
theorem C6_zero_rate_counts_nothing (num_policies states_per_policy : Nat)
    (mandatory_ratio : ℚ) (target_mode : Int) (mode schedule_str : String) (rand : RandSeq)
    (assignment : List (List Nat)) (openmp : Bool) (reads : Nat → Nat → Nat → Int)
    (ha : Classic.ValidAssignment num_policies assignment) :
    Classic.apply_invalidation_classic
        (Classic.init_classic_policies num_policies states_per_policy rand 0).1
        num_policies states_per_policy 0 rand
        (Classic.init_classic_policies num_policies states_per_policy rand 0).2 =
      some (Classic.init_classic_policies num_policies states_per_policy rand 0) ∧
    Classic.main num_policies states_per_policy 0 mode schedule_str rand assignment = some 0 ∧
    (Extended.apply_invalidation_extended
        (Extended.init_extended_policies num_policies states_per_policy mandatory_ratio
          rand 0).1 num_policies states_per_policy 0 target_mode rand
        (Extended.init_extended_policies num_policies states_per_policy mandatory_ratio
          rand 0).2).map (fun σ => (σ.policies, σ.attempts)) =
      some ((Extended.init_extended_policies num_policies states_per_policy mandatory_ratio
          rand 0).1, 0) ∧
    Extended.main num_policies states_per_policy 0 mandatory_ratio target_mode mode
      schedule_str rand openmp reads = some 0 := by
  have hc : ∀ (policies : List Classic.Policy) (c : Nat),
      Classic.apply_invalidation_classic policies num_policies states_per_policy 0 rand c =
        some (policies, c) := by
    intro policies c
    simp [Classic.apply_invalidation_classic, c_double_to_int, Classic.invalidation_loop]
  have he : ∀ (policies : List Extended.Policy) (c : Nat),
      Extended.apply_invalidation_extended policies num_policies states_per_policy 0
        target_mode rand c =
        some { policies := policies, to_invalidate := 0, attempts := 0, rand_calls := c } := by
    intro policies c
    simp [Extended.apply_invalidation_extended, Extended.invalidation_start, c_double_to_int,
      Extended.invalidation_loop]
  obtain ⟨hu, hf, -⟩ := Classic.init_classic_outer_spec rand states_per_policy num_policies 0
  have hue := Extended.init_extended_policies_uniform num_policies states_per_policy
    mandatory_ratio rand 0
  have hfe := Extended.init_extended_policies_fresh num_policies states_per_policy
    mandatory_ratio rand 0
  refine ⟨hc _ _, ?_, by rw [he]; rfl, ?_⟩
  · unfold Classic.main
    simp only [hc]
    by_cases hm : mode = "Seq"
    · obtain ⟨σ, e1, e2, -⟩ := Classic.classic_seq_run
        (Classic.init_classic_policies num_policies states_per_policy rand 0).1 num_policies
        rand (Classic.init_classic_policies num_policies states_per_policy rand 0).2
        (Classic.classic_uniform_wellFormed hu)
      rw [if_pos hm, e1, Option.map_some', e2]
      exact congrArg some (Classic.classic_fresh_invalid_states hf)
    · rw [if_neg hm]
      exact Classic.classic_par_fresh _ _ _ (Classic.classic_uniform_wellFormed hu) hf ha
  · unfold Extended.main
    simp only [he]
    by_cases hm : mode = "Seq"
    · obtain ⟨σ, e1, e2⟩ := Extended.extended_seq_count_le
        (Extended.init_extended_policies num_policies states_per_policy mandatory_ratio
          rand 0).1 num_policies rand
        (Extended.init_extended_policies num_policies states_per_policy mandatory_ratio
          rand 0).2 0 (Extended.uniform_wellFormed hue)
      rw [if_pos hm, e1, Option.map_some']
      rw [Extended.fresh_invalid_states hfe] at e2
      exact congrArg some (Nat.le_zero.mp e2)
    · rw [if_neg hm]
      exact Extended.extended_par_fresh _ _ _ _ (Extended.uniform_wellFormed hue) hfe

/-- C6, with numPolicies = 10, statesPerPolicy = 5 in `Par` mode, two threads with five
iterations each, and every read of the shared flag returning 1. -/
theorem C6_zero_rate_counts_nothing_witness :
    Classic.ValidAssignment 10 [[0, 1, 2, 3, 4], [5, 6, 7, 8, 9]] ∧
    Classic.main 10 5 0 "Par" "dynamic" (fun n => n) [[0, 1, 2, 3, 4], [5, 6, 7, 8, 9]] =
      some 0 ∧
    Extended.main 10 5 0 (1 / 2) 1 "Par" "dynamic" (fun n => n) true (fun _ _ _ => 1) =
      some 0 :=
  ⟨List.Perm.refl _,
    (C6_zero_rate_counts_nothing 10 5 (1 / 2) 1 "Par" "dynamic" (fun n => n)
      [[0, 1, 2, 3, 4], [5, 6, 7, 8, 9]] true (fun _ _ _ => 1) (List.Perm.refl _)).2.1,
    (C6_zero_rate_counts_nothing 10 5 (1 / 2) 1 "Par" "dynamic" (fun n => n)
      [[0, 1, 2, 3, 4], [5, 6, 7, 8, 9]] true (fun _ _ _ => 1) (List.Perm.refl _)).2.2.2⟩

/-- C7: with mandatoryRatio = 0.0 `init_extended_policies` marks no policy mandatory, and for
every invalidation map `m` laid over that population `evaluate_policies_extended_sequential`
returns without ever executing `stop_all = 1`, with `stop_all` still 0, having evaluated the
same states and counted the same number as `evaluate_policies_classic_seq` on the population
with `subset` and `is_mandatory` erased: the number of all invalid states. -/
theorem C7_no_mandatory_matches_classic (num_policies states_per_policy : Nat)
    (rand : RandSeq) (c c1 : Nat) (s0 : Int) (m : Nat → Nat → Int) :
    (∀ p ∈ (Extended.init_extended_policies num_policies states_per_policy 0 rand c).1,
      p.is_mandatory = 0) ∧
    ∃ σ, Extended.evaluate_policies_extended_sequential
        (Extended.set_invalid_map m 0
          (Extended.init_extended_policies num_policies states_per_policy 0 rand c).1)
        num_policies rand c1 s0 = some σ ∧
      σ.stop_writes = 0 ∧ σ.stop_all = 0 ∧
      (Classic.evaluate_policies_classic_seq
        (Extended.erase (Extended.set_invalid_map m 0
          (Extended.init_extended_policies num_policies states_per_policy 0 rand c).1))
        num_policies rand c1).map (fun τ => (τ.invalid_count, τ.trace)) =
        some (σ.invalid_count, σ.trace) ∧
      σ.invalid_count = Extended.invalid_states (Extended.set_invalid_map m 0
        (Extended.init_extended_policies num_policies states_per_policy 0 rand c).1) := by
  have hu := Extended.init_extended_policies_uniform num_policies states_per_policy 0 rand c
  have hm0 : ∀ p ∈ (Extended.init_extended_policies num_policies states_per_policy 0 rand c).1,
      p.is_mandatory = 0 := by
    intro p hp
    obtain ⟨j, hj⟩ := List.mem_iff_getElem?.mp hp
    rw [Extended.init_extended_policies_mandatory _ _ _ _ _ j p hj, c_double_to_int_mul_zero]
    have : ¬ ((j : Int) < 0) := by omega
    rw [if_neg this]
  obtain ⟨hlen, hmem⟩ := Extended.set_invalid_map_spec m
    (Extended.init_extended_policies num_policies states_per_policy 0 rand c).1 0
  have hwf : Extended.WellFormed (Extended.set_invalid_map m 0
      (Extended.init_extended_policies num_policies states_per_policy 0 rand c).1)
      num_policies := by
    refine ⟨by rw [hlen]; exact hu.1, fun p hp => ?_⟩
    obtain ⟨q, hq, e1, -, e3⟩ := hmem p hp
    rw [e1, e3, (hu.2 q hq).1, (hu.2 q hq).2]
  have hm1 : ∀ p ∈ Extended.set_invalid_map m 0
      (Extended.init_extended_policies num_policies states_per_policy 0 rand c).1,
      p.is_mandatory = 0 := by
    intro p hp
    obtain ⟨q, hq, -, e2, -⟩ := hmem p hp
    rw [e2]; exact hm0 q hq
  obtain ⟨σ, e1, e2, e3, e4, e5⟩ := Extended.extended_seq_run _ num_policies rand c1 s0 hwf
  have hself := take_until_eq_self _ _
    (fun cell (_ : cell ∈ Extended.all_cells (Extended.set_invalid_map m 0
      (Extended.init_extended_policies num_policies states_per_policy 0 rand c).1)) =>
      Extended.stops_eq_false hm1 cell)
  have hany : (Extended.all_cells (Extended.set_invalid_map m 0
      (Extended.init_extended_policies num_policies states_per_policy 0 rand c).1)).any
      (Extended.stops (Extended.set_invalid_map m 0
        (Extended.init_extended_policies num_policies states_per_policy 0 rand c).1)) =
      false := by
    rw [List.any_eq_false]
    intro cell _
    simp [Extended.stops_eq_false hm1 cell]
  rw [hself] at e2 e3
  rw [Extended.countP_all_cells _ num_policies hwf] at e3
  rw [hany] at e4 e5
  obtain ⟨τ, f1, f2, f3⟩ := Classic.classic_seq_run _ num_policies rand c1
    (Extended.erase_wellFormed hwf)
  rw [Extended.erase_invalid_states] at f2
  rw [Extended.erase_all_cells] at f3
  refine ⟨hm0, σ, e1, by simpa using e5, by simpa using e4, ?_, e3⟩
  rw [f1, Option.map_some', f2, f3, e2, e3]

/-- C8: for every population in which each of the `num_policies` policies has
`states_per_policy` states, `evaluate_policies_classic_seq` and
`evaluate_policies_extended_sequential` return an InvalidCount of at most
numPolicies x statesPerPolicy. -/
theorem C8_invalid_count_at_most_total (cpolicies : List Classic.Policy)
    (epolicies : List Extended.Policy) (num_policies states_per_policy : Nat)
    (rand : RandSeq) (c : Nat) (s0 : Int)
    (hc : Classic.Uniform cpolicies num_policies states_per_policy)
    (he : Extended.Uniform epolicies num_policies states_per_policy) :
    (∃ n, (Classic.evaluate_policies_classic_seq cpolicies num_policies rand c).map
        (fun σ => σ.invalid_count) = some n ∧ n ≤ num_policies * states_per_policy) ∧
    (∃ n, (Extended.evaluate_policies_extended_sequential epolicies num_policies rand c s0).map
        (fun σ => σ.invalid_count) = some n ∧ n ≤ num_policies * states_per_policy) := by
  constructor
  · obtain ⟨σ, e1, e2, -⟩ := Classic.classic_seq_run cpolicies num_policies rand c
      (Classic.classic_uniform_wellFormed hc)
    exact ⟨σ.invalid_count, by simp [e1],
      by rw [e2]; exact Classic.classic_invalid_states_le_uniform hc⟩
  · obtain ⟨σ, e1, e2⟩ := Extended.extended_seq_count_le epolicies num_policies rand c s0
      (Extended.uniform_wellFormed he)
    exact ⟨σ.invalid_count, by simp [e1],
      le_trans e2 (Extended.extended_invalid_states_le_uniform he)⟩

/-- C8, on populations of two policies with two states each where every state is invalid
and no policy is mandatory: both evaluators return 4 = 2 x 2. -/
theorem C8_invalid_count_at_most_total_witness :
    Classic.Uniform
      [{ num_states := 2, states := [{ is_context := 0, is_invalid := 1 },
                                     { is_context := 0, is_invalid := 1 }] },
       { num_states := 2, states := [{ is_context := 0, is_invalid := 1 },
                                     { is_context := 1, is_invalid := 1 }] }] 2 2 ∧
    Extended.Uniform
      [{ num_states := 2,
         states := [{ is_context := 0, is_invalid := 1, subset := .SUBSET_CPU },
                    { is_context := 0, is_invalid := 1, subset := .SUBSET_CPU }],
         is_mandatory := 0 },
       { num_states := 2,
         states := [{ is_context := 0, is_invalid := 1, subset := .SUBSET_CPU },
                    { is_context := 1, is_invalid := 1, subset := .SUBSET_CPU }],
         is_mandatory := 0 }] 2 2 ∧
    ((∃ n, (Classic.evaluate_policies_classic_seq
      [{ num_states := 2, states := [{ is_context := 0, is_invalid := 1 },
                                     { is_context := 0, is_invalid := 1 }] },
       { num_states := 2, states := [{ is_context := 0, is_invalid := 1 },
                                     { is_context := 1, is_invalid := 1 }] }] 2
        (fun n => n) 0).map (fun σ => σ.invalid_count) = some n ∧ n ≤ 2 * 2) ∧
    (∃ n, (Extended.evaluate_policies_extended_sequential
      [{ num_states := 2,
         states := [{ is_context := 0, is_invalid := 1, subset := .SUBSET_CPU },
                    { is_context := 0, is_invalid := 1, subset := .SUBSET_CPU }],
         is_mandatory := 0 },
       { num_states := 2,
         states := [{ is_context := 0, is_invalid := 1, subset := .SUBSET_CPU },
                    { is_context := 1, is_invalid := 1, subset := .SUBSET_CPU }],
         is_mandatory := 0 }] 2 (fun n => n) 0 0).map
        (fun σ => σ.invalid_count) = some n ∧ n ≤ 2 * 2)) :=
  ⟨by simp [Classic.Uniform], by simp [Extended.Uniform],
    C8_invalid_count_at_most_total _ _ 2 2 (fun n => n) 0 0 (by simp [Classic.Uniform])
      (by simp [Extended.Uniform])⟩

/-- C9 fails as stated: take 5 policies of 2 states and for invalRate the double 0.7, the
binary64 number nearest to 7/10, which is a little below 7/10; it is also the double read
from the decimal 0.69999999999999999.  Then
floor(numPolicies x statesPerPolicy x invalRate) = 6, for the double as for that decimal,
but the product the program computes is the double 7.0, the quota is 7, and with draws that
hit different states both engines mark 7 states and report InvalidCount = 7 in Seq mode. -/
theorem C9_exact_floor_counterexample :
    (0 : ℚ) ≤ 3152519739159347 / 4503599627370496 ∧
    c_double_round (7 / 10) = 3152519739159347 / 4503599627370496 ∧
    c_double_round (69999999999999999 / 100000000000000000) =
      3152519739159347 / 4503599627370496 ∧
    ⌊((5 * 2 : Nat) : ℚ) * (69999999999999999 / 100000000000000000)⌋ = 6 ∧
    ⌊((5 * 2 : Nat) : ℚ) * (3152519739159347 / 4503599627370496)⌋ = 6 ∧
    c_double_to_int_checked (c_double_mul (5 * 2) (3152519739159347 / 4503599627370496)) =
      some 7 ∧
    (Classic.Binary64.apply_invalidation_classic
      (Classic.init_classic_policies 5 2 (fun n => n / 2) 0).1 5 2
      (3152519739159347 / 4503599627370496) (fun n => n / 2)
      (Classic.init_classic_policies 5 2 (fun n => n / 2) 0).2).map
        (fun r => Classic.invalid_states r.1) = some 7 ∧
    Classic.Binary64.main 5 2 (3152519739159347 / 4503599627370496) "Seq" "static"
      (fun n => n / 2) [] = some 7 ∧
    Extended.Binary64.main 5 2 (3152519739159347 / 4503599627370496) 0 0 "Seq" "static"
      (fun n => n / 2) true (fun _ _ _ => 0) = some 7 ∧
    ¬ (∀ n, Classic.Binary64.main 5 2 (3152519739159347 / 4503599627370496) "Seq" "static"
        (fun n => n / 2) [] = some n →
      (n : Int) ≤ ⌊((5 * 2 : Nat) : ℚ) * (3152519739159347 / 4503599627370496)⌋) := by
  have hfloor : ⌊((5 * 2 : Nat) : ℚ) * (3152519739159347 / 4503599627370496)⌋ = 6 := by
    decide!
  have hmain : Classic.Binary64.main 5 2 (3152519739159347 / 4503599627370496) "Seq" "static"
      (fun n => n / 2) [] = some 7 := by decide!
  refine ⟨by norm_num, by decide!, by decide!, by decide!, hfloor, by decide!, by decide!,
    hmain, by decide!, fun hall => ?_⟩
  have h := hall 7 hmain
  rw [hfloor] at h
  exact absurd h (by decide)

/-- C9 amended: in both engines, for every random sequence and every invalRate >= 0 with
numPolicies x statesPerPolicy within the range of `int` (for the extended engine
10 x numPolicies x statesPerPolicy, the bound of its loop) and the cast of the quota
defined, the quota `(int)(total_states * inval_rate)` is the truncation of the double
product, that is of the exact product rounded to the nearest binary64 number, and is not
negative; the invalidation step returns on every fresh population of that size and leaves
at most quota states marked invalid; and the InvalidCount reported in Seq mode is at most
the quota. -/
theorem C9_invalid_count_at_most_cast_quota (num_policies states_per_policy : Nat)
    (inval_rate : ℚ) (schedule_str : String) (rand : RandSeq)
    (assignment : List (List Nat)) (openmp : Bool) (reads : Nat → Nat → Nat → Int) (q : Int)
    (hrate : 0 ≤ inval_rate)
    (hrange : ((num_policies * states_per_policy : Nat) : Int) ≤ INT_MAX)
    (hq : c_double_to_int_checked
      (c_double_mul (num_policies * states_per_policy) inval_rate) = some q) :
    q = c_double_to_int
      (c_double_round (((num_policies * states_per_policy : Nat) : ℚ) * inval_rate)) ∧
    0 ≤ q ∧
    (∀ (policies : List Classic.Policy) (c : Nat),
      Classic.Uniform policies num_policies states_per_policy → Classic.Fresh policies →
      ∃ r, Classic.Binary64.apply_invalidation_classic policies num_policies
          states_per_policy inval_rate rand c = some r ∧
        (Classic.invalid_states r.1 : Int) ≤ q) ∧
    (∃ n, Classic.Binary64.main num_policies states_per_policy inval_rate "Seq" schedule_str
        rand assignment = some n ∧ (n : Int) ≤ q) ∧
    (∀ (policies : List Extended.Policy) (c : Nat) (target_mode : Int),
      ((num_policies * states_per_policy * 10 : Nat) : Int) ≤ INT_MAX →
      Extended.Uniform policies num_policies states_per_policy → Extended.Fresh policies →
      ∃ σ, Extended.Binary64.apply_invalidation_extended policies num_policies
          states_per_policy inval_rate target_mode rand c = some σ ∧
        (Extended.invalid_states σ.policies : Int) ≤ q) ∧
    (∀ (mandatory_ratio : ℚ) (thresh target_mode : Int),
      ((num_policies * states_per_policy * 10 : Nat) : Int) ≤ INT_MAX →
      c_double_to_int_checked (c_double_mul num_policies mandatory_ratio) = some thresh →
      ∃ n, Extended.Binary64.main num_policies states_per_policy inval_rate mandatory_ratio
          target_mode "Seq" schedule_str rand openmp reads = some n ∧ (n : Int) ≤ q) := by
  have hqv := (c_double_to_int_checked_some hq).1
  have hq0 : 0 ≤ q := by
    rw [hqv]
    exact c_double_to_int_nonneg
      (c_double_round_nonneg (mul_nonneg (Nat.cast_nonneg _) hrate))
  have hcl : ∀ (policies : List Classic.Policy) (c : Nat),
      Classic.Uniform policies num_policies states_per_policy → Classic.Fresh policies →
      ∃ r, Classic.Binary64.apply_invalidation_classic policies num_policies
          states_per_policy inval_rate rand c = some r ∧
        Classic.Uniform r.1 num_policies states_per_policy ∧
        (Classic.invalid_states r.1 : Int) ≤ q := by
    intro policies c hu hf
    obtain ⟨policies1, e1, e2, e3, -⟩ := Classic.binary64_classic_apply_invalidation_spec rand
      num_policies states_per_policy inval_rate policies c q hrange hq hu
    rw [Classic.classic_fresh_invalid_states hf] at e3
    refine ⟨_, e1, e2, ?_⟩
    show (Classic.invalid_states policies1 : Int) ≤ q
    omega
  have hex : ∀ (policies : List Extended.Policy) (c : Nat) (target_mode : Int),
      ((num_policies * states_per_policy * 10 : Nat) : Int) ≤ INT_MAX →
      Extended.Uniform policies num_policies states_per_policy → Extended.Fresh policies →
      ∃ σ, Extended.Binary64.apply_invalidation_extended policies num_policies
          states_per_policy inval_rate target_mode rand c = some σ ∧
        Extended.Uniform σ.policies num_policies states_per_policy ∧
        (Extended.invalid_states σ.policies : Int) ≤ q := by
    intro policies c target_mode hrange10 hu hf
    obtain ⟨τ, g1, g2, g3, -, -⟩ := Extended.binary64_apply_invalidation_extended_invariant
      rand num_policies states_per_policy inval_rate target_mode c policies q
      (fun σ => (Extended.invalid_states σ.policies : Int) + σ.to_invalidate = q ∧
        0 ≤ σ.to_invalidate)
      hrange10 hq
      (fun σ σ1 hcond _ hP hb => by
        refine ⟨(Extended.invalidation_body_balance hb).trans hP.1, ?_⟩
        have h1 : 0 < σ.to_invalidate := hcond.1
        obtain ⟨-, h2 | h2⟩ := Extended.invalidation_body_cases hb
        · rw [h2.2.1]; exact hP.2
        · obtain ⟨pi, si, p, st, -, -, -, -, -, h3⟩ := h2
          omega)
      hu (by
        simp only [Extended.fresh_invalid_states hf]
        exact ⟨by simp, hq0⟩)
    exact ⟨τ, g1, g2, by omega⟩
  refine ⟨hqv, hq0, fun policies c hu hf => ?_, ?_,
    fun policies c target_mode hr hu hf => ?_, ?_⟩
  · obtain ⟨r, e1, -, e3⟩ := hcl policies c hu hf
    exact ⟨r, e1, e3⟩
  · obtain ⟨hu, hf, -⟩ := Classic.init_classic_outer_spec rand states_per_policy
      num_policies 0
    obtain ⟨r, e1, e2, e3⟩ := hcl _ (Classic.init_classic_outer rand states_per_policy
      num_policies 0).2 hu hf
    obtain ⟨σ, f1, f2, -⟩ := Classic.classic_seq_run r.1 num_policies rand r.2
      (Classic.classic_uniform_wellFormed e2)
    refine ⟨σ.invalid_count, ?_, by rw [f2]; exact e3⟩
    unfold Classic.Binary64.main Classic.init_classic_policies
    simp only [e1, if_true, f1, Option.map_some']
  · obtain ⟨σ, e1, -, e3⟩ := hex policies c target_mode hr hu hf
    exact ⟨σ, e1, e3⟩
  · intro mandatory_ratio thresh target_mode hr hm
    have hinit := Extended.binary64_init_of_thresh num_policies states_per_policy
      mandatory_ratio rand 0 thresh hm
    obtain ⟨τ, g1, g2, g3⟩ := hex _ (Extended.init_extended_outer rand states_per_policy
        thresh num_policies 0 0).2 target_mode hr
      (Extended.init_extended_outer_uniform rand states_per_policy thresh num_policies 0)
      (Extended.init_extended_outer_fresh rand states_per_policy thresh num_policies 0)
    obtain ⟨ρ, k1, k2⟩ := Extended.extended_seq_count_le τ.policies num_policies rand
      τ.rand_calls 0 (Extended.uniform_wellFormed g2)
    refine ⟨ρ.invalid_count, ?_, ?_⟩
    · unfold Extended.Binary64.main
      simp only [hinit, g1, if_true, k1, Option.map_some']
    · have : (ρ.invalid_count : Int) ≤ Extended.invalid_states τ.policies := by
        exact_mod_cast k2
      omega

/-- C9 amended, with 5 policies of 2 states and invalRate the double 0.7: the quota is 7 and
both engines report InvalidCount = 7 in Seq mode. -/
theorem C9_invalid_count_at_most_cast_quota_witness :
    (0 : ℚ) ≤ 3152519739159347 / 4503599627370496 ∧
    ((5 * 2 : Nat) : Int) ≤ INT_MAX ∧
    ((5 * 2 * 10 : Nat) : Int) ≤ INT_MAX ∧
    c_double_to_int_checked (c_double_mul (5 * 2) (3152519739159347 / 4503599627370496)) =
      some 7 ∧
    c_double_to_int_checked (c_double_mul 5 0) = some 0 ∧
    Classic.Binary64.main 5 2 (3152519739159347 / 4503599627370496) "Seq" "static"
      (fun n => n / 2) [] = some 7 ∧
    (∃ n, Classic.Binary64.main 5 2 (3152519739159347 / 4503599627370496) "Seq" "static"
        (fun n => n / 2) [] = some n ∧ (n : Int) ≤ 7) ∧
    (∃ n, Extended.Binary64.main 5 2 (3152519739159347 / 4503599627370496) 0 0 "Seq"
        "static" (fun n => n / 2) true (fun _ _ _ => 0) = some n ∧ (n : Int) ≤ 7) :=
  ⟨by norm_num, by decide, by decide, by decide!, by decide!, by decide!,
    (C9_invalid_count_at_most_cast_quota 5 2 (3152519739159347 / 4503599627370496) "static"
      (fun n => n / 2) [] true (fun _ _ _ => 0) 7 (by norm_num) (by decide)
      (by decide!)).2.2.2.1,
    (C9_invalid_count_at_most_cast_quota 5 2 (3152519739159347 / 4503599627370496) "static"
      (fun n => n / 2) [] true (fun _ _ _ => 0) 7 (by norm_num) (by decide)
      (by decide!)).2.2.2.2.2 0 0 0 (by decide) (by decide!)⟩

/-- C11 fails as stated: take numPolicies = 10 and for mandatoryRatio the double 0.7, that
is the binary64 number nearest to 7/10, which is a little below 7/10 and lies in [0, 1]; it
is also the double read from the decimal 0.69999999999999999.  Then
floor(numPolicies x mandatoryRatio) = 6, for the double as for that decimal, but the
product the program computes is the double 7.0 and `init_extended_policies` makes the seven
policies 0 .. 6 mandatory: policy 6 is mandatory although 6 < 6 is false.  With
numPolicies = 50 and the double 0.58 the program makes 28 policies mandatory, one fewer
than floor(50 x 0.58) = 29 for the decimal. -/
theorem C11_exact_floor_counterexample :
    c_double_round (7 / 10) = 3152519739159347 / 4503599627370496 ∧
    c_double_round (69999999999999999 / 100000000000000000) =
      3152519739159347 / 4503599627370496 ∧
    (0 : ℚ) ≤ 3152519739159347 / 4503599627370496 ∧
    (3152519739159347 / 4503599627370496 : ℚ) ≤ 1 ∧
    ⌊((10 : Nat) : ℚ) * (3152519739159347 / 4503599627370496)⌋ = 6 ∧
    ⌊((10 : Nat) : ℚ) * (69999999999999999 / 100000000000000000)⌋ = 6 ∧
    (Extended.Binary64.init_extended_policies 10 1 (3152519739159347 / 4503599627370496)
      (fun n => n) 0).map (fun r => r.1.map (fun p => p.is_mandatory)) =
        some [1, 1, 1, 1, 1, 1, 1, 0, 0, 0] ∧
    ¬ ((Extended.Binary64.init_extended_policies 10 1 (3152519739159347 / 4503599627370496)
      (fun n => n) 0).map (fun r => r.1.map (fun p => p.is_mandatory)) =
        some ((List.range 10).map (fun i : Nat =>
          if (i : Int) < ⌊((10 : Nat) : ℚ) * (3152519739159347 / 4503599627370496)⌋
          then 1 else 0))) ∧
    c_double_round (58 / 100) = 5224175567749775 / 9007199254740992 ∧
    ⌊((50 : Nat) : ℚ) * (58 / 100)⌋ = 29 ∧
    (Extended.Binary64.init_extended_policies 50 1 (5224175567749775 / 9007199254740992)
      (fun n => n) 0).map (fun r => (r.1.map (fun p => p.is_mandatory)).sum) = some 28 := by
  have hfloor : ⌊((10 : Nat) : ℚ) * (3152519739159347 / 4503599627370496)⌋ = 6 := by
    decide!
  have hrun : (Extended.Binary64.init_extended_policies 10 1
      (3152519739159347 / 4503599627370496) (fun n => n) 0).map
        (fun r => r.1.map (fun p => p.is_mandatory)) =
      some [1, 1, 1, 1, 1, 1, 1, 0, 0, 0] := by decide!
  refine ⟨by decide!, by decide!, by norm_num, by norm_num, hfloor, by decide!, hrun, ?_,
    by decide!, by decide!, by decide!⟩
  rw [hrun, hfloor]
  decide

/-- C11 amended: for every numPolicies that is an `int`, every mandatoryRatio in [0, 1] and
every random sequence, the cast `(int)(num_policies * mandatory_ratio)` is defined, its value
`mandatory_thresh` is the truncation of the double product, that is of the exact product
rounded to the nearest binary64 number, and lies between 0 and numPolicies;
`init_extended_policies` returns numPolicies policies and sets `is_mandatory = 1` on policy
`i` when `i < mandatory_thresh` and `is_mandatory = 0` otherwise; the flags are the same for
every random sequence; mandatoryRatio = 1.0 makes every policy mandatory and
mandatoryRatio = 0.0 makes none mandatory. -/
theorem C11_mandatory_by_double_product (num_policies states_per_policy : Nat)
    (mandatory_ratio : ℚ) (rand rand1 : RandSeq) (c c1 : Nat)
    (hn : (num_policies : Int) ≤ INT_MAX) (h0 : 0 ≤ mandatory_ratio)
    (h1 : mandatory_ratio ≤ 1) :
    ∃ (thresh : Int) (r : List Extended.Policy × Nat),
      c_double_to_int_checked (c_double_mul num_policies mandatory_ratio) = some thresh ∧
      thresh = c_double_to_int (c_double_round ((num_policies : ℚ) * mandatory_ratio)) ∧
      0 ≤ thresh ∧ thresh ≤ num_policies ∧
      Extended.Binary64.init_extended_policies num_policies states_per_policy mandatory_ratio
        rand c = some r ∧
      r.1.map (fun p => p.is_mandatory) =
        (List.range num_policies).map (fun i : Nat => if (i : Int) < thresh then 1 else 0) ∧
      (Extended.Binary64.init_extended_policies num_policies states_per_policy mandatory_ratio
        rand1 c1).map (fun r1 => r1.1.map (fun p => p.is_mandatory)) =
        some (r.1.map (fun p => p.is_mandatory)) ∧
      (mandatory_ratio = 1 → thresh = num_policies ∧ ∀ p ∈ r.1, p.is_mandatory = 1) ∧
      (mandatory_ratio = 0 → thresh = 0 ∧ ∀ p ∈ r.1, p.is_mandatory = 0) := by
  have hN : num_policies < 2 ^ 53 := by
    unfold INT_MAX at hn
    omega
  have hx0 : (0 : ℚ) ≤ (num_policies : ℚ) * mandatory_ratio :=
    mul_nonneg (Nat.cast_nonneg _) h0
  have hx1 : (num_policies : ℚ) * mandatory_ratio ≤ num_policies := by
    have := mul_le_mul_of_nonneg_left h1
      (Nat.cast_nonneg num_policies : (0 : ℚ) ≤ (num_policies : ℚ))
    rwa [mul_one] at this
  have hr0 : 0 ≤ c_double_mul num_policies mandatory_ratio := c_double_round_nonneg hx0
  have hr1 : c_double_mul num_policies mandatory_ratio ≤ num_policies :=
    c_double_round_le_natCast hx0 hx1 hN
  obtain ⟨e1, e2, e3⟩ := c_double_to_int_checked_of_le hr0 hr1 hn
  have hflags := Extended.init_extended_outer_mandatory_list
  refine ⟨_, _, e1, rfl, e2, e3,
    Extended.binary64_init_of_thresh num_policies states_per_policy mandatory_ratio rand c _ e1,
    hflags rand states_per_policy _ num_policies c, ?_, ?_, ?_⟩
  · rw [Extended.binary64_init_of_thresh num_policies states_per_policy mandatory_ratio rand1
      c1 _ e1, Option.map_some', hflags, hflags]
  · intro h
    subst h
    have ht : c_double_to_int (c_double_mul num_policies 1) = num_policies := by
      rw [c_double_mul_one num_policies hN, c_double_to_int_natCast]
    refine ⟨ht, fun p hp => ?_⟩
    obtain ⟨j, hj⟩ := List.mem_iff_getElem?.mp hp
    rw [Extended.init_extended_outer_mandatory _ _ _ _ _ j p hj, ht]
    have hlt : j < num_policies := by
      have := (List.getElem?_eq_some_iff.mp hj).1
      rw [(Extended.init_extended_outer_uniform rand states_per_policy _ num_policies c).1]
        at this
      exact this
    have : (j : Int) < (num_policies : Int) := by exact_mod_cast hlt
    rw [if_pos this]
  · intro h
    subst h
    have ht : c_double_to_int (c_double_mul num_policies 0) = 0 := by
      rw [c_double_mul_zero]
      simp [c_double_to_int]
    refine ⟨ht, fun p hp => ?_⟩
    obtain ⟨j, hj⟩ := List.mem_iff_getElem?.mp hp
    rw [Extended.init_extended_outer_mandatory _ _ _ _ _ j p hj, ht]
    have : ¬ ((j : Int) < 0) := by omega
    rw [if_neg this]

/-- C11 amended, with numPolicies = 10 and mandatoryRatio the double 0.7: the threshold is 7
and policies 0 .. 6 are mandatory. -/
theorem C11_mandatory_by_double_product_witness :
    ((10 : Nat) : Int) ≤ INT_MAX ∧ (0 : ℚ) ≤ 3152519739159347 / 4503599627370496 ∧
    (3152519739159347 / 4503599627370496 : ℚ) ≤ 1 ∧
    c_double_to_int_checked (c_double_mul 10 (3152519739159347 / 4503599627370496)) =
      some 7 ∧
    ∃ (thresh : Int) (r : List Extended.Policy × Nat),
      c_double_to_int_checked (c_double_mul 10 (3152519739159347 / 4503599627370496)) =
        some thresh ∧
      thresh = c_double_to_int
        (c_double_round (((10 : Nat) : ℚ) * (3152519739159347 / 4503599627370496))) ∧
      0 ≤ thresh ∧ thresh ≤ (10 : Nat) ∧
      Extended.Binary64.init_extended_policies 10 2 (3152519739159347 / 4503599627370496)
        (fun n => n) 0 = some r ∧
      r.1.map (fun p => p.is_mandatory) =
        (List.range 10).map (fun i : Nat => if (i : Int) < thresh then 1 else 0) ∧
      (Extended.Binary64.init_extended_policies 10 2 (3152519739159347 / 4503599627370496)
        (fun n => n * n) 5).map (fun r1 => r1.1.map (fun p => p.is_mandatory)) =
        some (r.1.map (fun p => p.is_mandatory)) ∧
      ((3152519739159347 / 4503599627370496 : ℚ) = 1 →
        thresh = (10 : Nat) ∧ ∀ p ∈ r.1, p.is_mandatory = 1) ∧
      ((3152519739159347 / 4503599627370496 : ℚ) = 0 →
        thresh = 0 ∧ ∀ p ∈ r.1, p.is_mandatory = 0) :=
  ⟨by decide, by norm_num, by norm_num, by decide!,
    C11_mandatory_by_double_product 10 2 (3152519739159347 / 4503599627370496) (fun n => n)
      (fun n => n * n) 0 5 (by decide) (by norm_num) (by norm_num)⟩

/-- C12: for the classic engine and a fixed population, for every assignment of the policy
indices to threads that gives each index to exactly one thread, in whatever order each
thread processes its indices, the sum of the private counters computed by
`evaluate_policies_classic_par` is the value returned by `evaluate_policies_classic_seq`:
the number of invalid states. -/
theorem C12_classic_par_order_independent (policies : List Classic.Policy)
    (num_policies : Nat) (assignment : List (List Nat)) (rand : RandSeq) (c : Nat)
    (hwf : Classic.WellFormed policies num_policies)
    (ha : Classic.ValidAssignment num_policies assignment) :
    Classic.evaluate_policies_classic_par policies num_policies assignment =
      (Classic.evaluate_policies_classic_seq policies num_policies rand c).map
        (fun σ => σ.invalid_count) ∧
    Classic.evaluate_policies_classic_par policies num_policies assignment =
      some (Classic.invalid_states policies) := by
  obtain ⟨σ, e1, e2, -⟩ := Classic.classic_seq_run policies num_policies rand c hwf
  have h := Classic.classic_par_spec policies num_policies assignment hwf ha
  exact ⟨by rw [h, e1, Option.map_some', e2], h⟩

/-- C12, on three policies with three invalid states, the first thread taking policies 2
and 0 in that order and the second thread policy 1. -/
theorem C12_classic_par_order_independent_witness :
    Classic.WellFormed
      [{ num_states := 2, states := [{ is_context := 1, is_invalid := 0 },
                                     { is_context := 0, is_invalid := 1 }] },
       { num_states := 1, states := [{ is_context := 0, is_invalid := 1 }] },
       { num_states := 2, states := [{ is_context := 0, is_invalid := 1 },
                                     { is_context := 0, is_invalid := 0 }] }] 3 ∧
    Classic.ValidAssignment 3 [[2, 0], [1]] ∧
    Classic.evaluate_policies_classic_par
      [{ num_states := 2, states := [{ is_context := 1, is_invalid := 0 },
                                     { is_context := 0, is_invalid := 1 }] },
       { num_states := 1, states := [{ is_context := 0, is_invalid := 1 }] },
       { num_states := 2, states := [{ is_context := 0, is_invalid := 1 },
                                     { is_context := 0, is_invalid := 0 }] }] 3 [[2, 0], [1]] =
      some 3 :=
  ⟨by decide, by unfold Classic.ValidAssignment; decide,
    (C12_classic_par_order_independent _ 3 [[2, 0], [1]] (fun n => n) 0 (by decide)
      (by unfold Classic.ValidAssignment; decide)).2.trans (by decide)⟩

/-- C13: in each extended evaluation pass the flag `stop_all` is cleared at entry whatever
it held before, and from then on it is only ever written 1, so that once set it stays set
until the pass ends.  Sequential evaluator: the loops start from a state with the flag 0
for every previous value; from any state the outer and the inner loop leave the flag as it
is or end with it at 1, and never clear a set flag; the result is the same for any two
previous values.  Parallel evaluator: the threads start with the flag 0 for every previous
value; through every interleaving from any state the flag stays as it is or becomes 1 and
a set flag stays set; the only value a thread writes is 1; the run is the same for any two
previous values. -/
theorem C13_stop_flag_reset_then_monotone (policies : List Extended.Policy)
    (num_policies : Nat) (rand : RandSeq) (c : Nat) (assignment : List (List Nat)) :
    (∀ s0 : Int,
      Extended.evaluate_policies_extended_sequential policies num_policies rand c s0 =
        Extended.extended_seq_outer rand policies num_policies 0
          { invalid_count := 0, stop_all := 0, rand_calls := c, stop_writes := 0,
            trace := [] }) ∧
    (∀ (k i : Nat) (σ σ1 : Extended.EvalState),
      Extended.extended_seq_outer rand policies k i σ = some σ1 →
        (σ1.stop_all = σ.stop_all ∨ σ1.stop_all = 1) ∧
        (σ.stop_all ≠ 0 → σ1.stop_all ≠ 0)) ∧
    (∀ (p : Extended.Policy) (i k s : Nat) (σ σ1 : Extended.EvalState),
      Extended.extended_seq_inner rand p i k s σ = some σ1 →
        (σ1.stop_all = σ.stop_all ∨ σ1.stop_all = 1) ∧
        (σ.stop_all ≠ 0 → σ1.stop_all ≠ 0)) ∧
    (∀ s0 s1 : Int,
      Extended.evaluate_policies_extended_sequential policies num_policies rand c s0 =
        Extended.evaluate_policies_extended_sequential policies num_policies rand c s1) ∧
    (∀ s0 : Int, (Extended.par_init assignment s0).stop_all = 0) ∧
    (∀ (sched : List Nat) (σ σ1 : Extended.ParState),
      Extended.par_run policies sched σ = some σ1 →
        (σ1.stop_all = σ.stop_all ∨ σ1.stop_all = 1) ∧
        (σ.stop_all ≠ 0 → σ1.stop_all ≠ 0)) ∧
    (∀ (f : Int) (w w1 : Extended.Worker) (v : Int),
      Extended.worker_step policies f w = some (w1, some v) → v = 1) ∧
    (∀ (s0 s1 : Int) (sched : List Nat),
      Extended.par_run policies sched (Extended.par_init assignment s0) =
        Extended.par_run policies sched (Extended.par_init assignment s1)) := by
  have mono : ∀ {a b : Int} {m n : Nat},
      ((b = a ∧ n = m) ∨ (b = 1 ∧ m < n)) → (b = a ∨ b = 1) ∧ (a ≠ 0 → b ≠ 0) := by
    intro a b m n h
    rcases h with ⟨e, -⟩ | ⟨e, -⟩
    · exact ⟨Or.inl e, fun h0 => by rw [e]; exact h0⟩
    · exact ⟨Or.inr e, fun _ => by rw [e]; decide⟩
  refine ⟨fun _ => rfl, ?_, ?_, fun _ _ => rfl, fun _ => rfl, ?_, ?_, fun _ _ _ => rfl⟩
  · intro k i σ σ1 h
    exact mono (Extended.extended_seq_outer_flag rand policies k i σ σ1 h).1
  · intro p i k s σ σ1 h
    exact mono (Extended.extended_seq_inner_flag rand p i k s σ σ1 h).1
  · intro sched σ σ1 h
    have := Extended.par_run_flag policies sched σ σ1 h
    exact ⟨this.1, this.2.1⟩
  · intro f w w1 v h
    exact Extended.worker_step_write h

/-- C13, on a population whose first policy is mandatory with its second state invalid, two
threads with one policy each, and the flag left at 7 by an earlier pass: the sequential pass
ends with the flag at 1 after one write, the interleaving in which the first thread writes
the flag ends with the flag at 1, and a longer interleaving keeps it at 1. -/
theorem C13_stop_flag_reset_then_monotone_witness :
    (Extended.evaluate_policies_extended_sequential
      [{ num_states := 2,
         states := [{ is_context := 0, is_invalid := 0, subset := .SUBSET_CPU },
                    { is_context := 0, is_invalid := 1, subset := .SUBSET_MEMORY }],
         is_mandatory := 1 },
       { num_states := 2,
         states := [{ is_context := 0, is_invalid := 1, subset := .SUBSET_CPU },
                    { is_context := 0, is_invalid := 1, subset := .SUBSET_NETWORK }],
         is_mandatory := 0 }] 2 (fun n => n) 0 7).map
        (fun σ => (σ.stop_all, σ.stop_writes, σ.invalid_count)) = some (1, 1, 1) ∧
    (Extended.par_run
      [{ num_states := 2,
         states := [{ is_context := 0, is_invalid := 0, subset := .SUBSET_CPU },
                    { is_context := 0, is_invalid := 1, subset := .SUBSET_MEMORY }],
         is_mandatory := 1 },
       { num_states := 2,
         states := [{ is_context := 0, is_invalid := 1, subset := .SUBSET_CPU },
                    { is_context := 0, is_invalid := 1, subset := .SUBSET_NETWORK }],
         is_mandatory := 0 }] [1, 1, 0, 0, 0, 0, 0, 0]
      (Extended.par_init [[0], [1]] 7)).map (fun σ => (σ.stop_all, σ.stop_writes)) =
        some (1, 1) ∧
    (Extended.par_run
      [{ num_states := 2,
         states := [{ is_context := 0, is_invalid := 0, subset := .SUBSET_CPU },
                    { is_context := 0, is_invalid := 1, subset := .SUBSET_MEMORY }],
         is_mandatory := 1 },
       { num_states := 2,
         states := [{ is_context := 0, is_invalid := 1, subset := .SUBSET_CPU },
                    { is_context := 0, is_invalid := 1, subset := .SUBSET_NETWORK }],
         is_mandatory := 0 }] [1, 1, 0, 0, 0, 0, 0, 0, 1, 1, 1, 0, 0, 1]
      (Extended.par_init [[0], [1]] 7)).map (fun σ => (σ.stop_all, σ.stop_writes)) =
        some (1, 1) :=
  ⟨((C13_stop_flag_reset_then_monotone _ 2 (fun n => n) 0 [[0], [1]]).2.2.2.1 7 0).symm ▸
      (by decide),
    by decide,
    ((C13_stop_flag_reset_then_monotone _ 2 (fun n => n) 0 [[0], [1]]).2.2.2.2.2.2.2 7 0
      [1, 1, 0, 0, 0, 0, 0, 0, 1, 1, 1, 0, 0, 1]).symm ▸ (by decide)⟩

/-- C14: in the parallel extended evaluator, under every interleaving (every schedule of
thread steps before and after), on a well-formed population with the iterations dealt out
to the threads: the run returns, and from any state reached after the first write of
`stop_all = 1` the flag stays 1 and every thread evaluates and counts at most one further
state, and none unless it was in flight, that is past both tests of the flag and about to
evaluate a state. -/
theorem C14_bounded_overrun_after_stop (policies : List Extended.Policy) (num_policies : Nat)
    (assignment : List (List Nat)) (s0 : Int) (sched1 sched2 : List Nat)
    (hwf : Extended.WellFormed policies num_policies)
    (ha : Classic.ValidAssignment num_policies assignment) :
    ∃ σ1 σ2,
      Extended.par_run policies sched1 (Extended.par_init assignment s0) = some σ1 ∧
      Extended.par_run policies sched2 σ1 = some σ2 ∧
      Extended.par_run policies (sched1 ++ sched2) (Extended.par_init assignment s0) =
        some σ2 ∧
      σ2.workers.length = σ1.workers.length ∧
      (1 ≤ σ1.stop_writes →
        σ1.stop_all = 1 ∧ σ2.stop_all = 1 ∧
        ∀ (j : Nat) (w w2 : Extended.Worker),
          σ1.workers[j]? = some w → σ2.workers[j]? = some w2 →
            w2.evaluated.length ≤ w.evaluated.length + Extended.in_flight w ∧
            w2.invalid_count ≤ w.invalid_count + Extended.in_flight w ∧
            Extended.in_flight w ≤ 1) := by
  obtain ⟨σ1, e1, safe1⟩ := Extended.par_run_safe policies num_policies hwf sched1
    (Extended.par_init assignment s0)
    (Extended.par_init_safe policies num_policies assignment s0
      (Extended.validAssignment_in_range ha))
  obtain ⟨σ2, e2, -⟩ := Extended.par_run_safe policies num_policies hwf sched2 σ1 safe1
  have hframe := Extended.par_run_after_stop policies sched2 σ1 σ2
  have hlen : σ2.workers.length = σ1.workers.length := by
    have := Extended.par_run_invariant policies
      (fun τ => τ.workers.length = σ1.workers.length)
      (fun j τ τ1 hP hs => by
        rcases Extended.par_step_cases hs with ⟨-, e⟩ | ⟨w, w1, wr, -, -, e⟩
        · rw [e]; exact hP
        · rw [e]; simpa using hP)
      sched2 σ1 σ2 rfl e2
    exact this
  refine ⟨σ1, σ2, e1, e2, ?_, hlen, ?_⟩
  · rw [Extended.par_run_append, e1]; exact e2
  · intro hw
    have hflag1 : σ1.stop_all = 1 := by
      rcases Extended.par_run_init_flag policies assignment s0 sched1 σ1 e1 with ⟨h0, -⟩ | h1
      · omega
      · exact h1.2
    have hne : σ1.stop_all ≠ 0 := by rw [hflag1]; decide
    obtain ⟨hF, -⟩ := hframe hne e2
    refine ⟨hflag1, ?_, ?_⟩
    · rcases (Extended.par_run_flag policies sched2 σ1 σ2 e2).1 with e | e
      · rw [e]; exact hflag1
      · exact e
    · intro j w w2 h1 h2
      have := forall₂_getElem? _ _ _ hF j w w2 h1 h2
      have hle := Extended.in_flight_le_one w
      unfold Extended.after_stop at this
      exact ⟨by omega, by omega, hle⟩

/-- C14, on two threads with one policy each: the second thread passes both tests of the
flag, then the first thread finds the invalid state of its mandatory policy and writes the
flag; afterwards the second thread evaluates and counts the one state it had in flight and
no other. -/
theorem C14_bounded_overrun_after_stop_witness :
    Extended.WellFormed
      [{ num_states := 2,
         states := [{ is_context := 0, is_invalid := 0, subset := .SUBSET_CPU },
                    { is_context := 0, is_invalid := 1, subset := .SUBSET_MEMORY }],
         is_mandatory := 1 },
       { num_states := 2,
         states := [{ is_context := 0, is_invalid := 1, subset := .SUBSET_CPU },
                    { is_context := 0, is_invalid := 1, subset := .SUBSET_NETWORK }],
         is_mandatory := 0 }] 2 ∧
    Classic.ValidAssignment 2 [[0], [1]] ∧
    (Extended.par_run
      [{ num_states := 2,
         states := [{ is_context := 0, is_invalid := 0, subset := .SUBSET_CPU },
                    { is_context := 0, is_invalid := 1, subset := .SUBSET_MEMORY }],
         is_mandatory := 1 },
       { num_states := 2,
         states := [{ is_context := 0, is_invalid := 1, subset := .SUBSET_CPU },
                    { is_context := 0, is_invalid := 1, subset := .SUBSET_NETWORK }],
         is_mandatory := 0 }] [1, 1, 0, 0, 0, 0, 0, 0]
      (Extended.par_init [[0], [1]] 0)).map
        (fun σ => (σ.stop_writes, σ.workers.map
          (fun w => (w.evaluated, w.invalid_count, Extended.in_flight w)))) =
        some (1, [([(0, 0), (0, 1)], 1, 0), ([], 0, 1)]) ∧
    (Extended.par_run
      [{ num_states := 2,
         states := [{ is_context := 0, is_invalid := 0, subset := .SUBSET_CPU },
                    { is_context := 0, is_invalid := 1, subset := .SUBSET_MEMORY }],
         is_mandatory := 1 },
       { num_states := 2,
         states := [{ is_context := 0, is_invalid := 1, subset := .SUBSET_CPU },
                    { is_context := 0, is_invalid := 1, subset := .SUBSET_NETWORK }],
         is_mandatory := 0 }] ([1, 1, 0, 0, 0, 0, 0, 0] ++ [1, 1, 1, 0, 0, 1])
      (Extended.par_init [[0], [1]] 0)).map
        (fun σ => (decide (Extended.par_finished σ), σ.workers.map
          (fun w => (w.evaluated, w.invalid_count)))) =
        some (true, [([(0, 0), (0, 1)], 1), ([(1, 0)], 1)]) ∧
    ∃ σ1 σ2,
      Extended.par_run
        [{ num_states := 2,
           states := [{ is_context := 0, is_invalid := 0, subset := .SUBSET_CPU },
                      { is_context := 0, is_invalid := 1, subset := .SUBSET_MEMORY }],
           is_mandatory := 1 },
         { num_states := 2,
           states := [{ is_context := 0, is_invalid := 1, subset := .SUBSET_CPU },
                      { is_context := 0, is_invalid := 1, subset := .SUBSET_NETWORK }],
           is_mandatory := 0 }] [1, 1, 0, 0, 0, 0, 0, 0]
        (Extended.par_init [[0], [1]] 0) = some σ1 ∧
      Extended.par_run
        [{ num_states := 2,
           states := [{ is_context := 0, is_invalid := 0, subset := .SUBSET_CPU },
                      { is_context := 0, is_invalid := 1, subset := .SUBSET_MEMORY }],
           is_mandatory := 1 },
         { num_states := 2,
           states := [{ is_context := 0, is_invalid := 1, subset := .SUBSET_CPU },
                      { is_context := 0, is_invalid := 1, subset := .SUBSET_NETWORK }],
           is_mandatory := 0 }] [1, 1, 1, 0, 0, 1] σ1 = some σ2 ∧
      Extended.par_run
        [{ num_states := 2,
           states := [{ is_context := 0, is_invalid := 0, subset := .SUBSET_CPU },
                      { is_context := 0, is_invalid := 1, subset := .SUBSET_MEMORY }],
           is_mandatory := 1 },
         { num_states := 2,
           states := [{ is_context := 0, is_invalid := 1, subset := .SUBSET_CPU },
                      { is_context := 0, is_invalid := 1, subset := .SUBSET_NETWORK }],
           is_mandatory := 0 }] ([1, 1, 0, 0, 0, 0, 0, 0] ++ [1, 1, 1, 0, 0, 1])
        (Extended.par_init [[0], [1]] 0) = some σ2 ∧
      σ2.workers.length = σ1.workers.length ∧
      (1 ≤ σ1.stop_writes →
        σ1.stop_all = 1 ∧ σ2.stop_all = 1 ∧
        ∀ (j : Nat) (w w2 : Extended.Worker),
          σ1.workers[j]? = some w → σ2.workers[j]? = some w2 →
            w2.evaluated.length ≤ w.evaluated.length + Extended.in_flight w ∧
            w2.invalid_count ≤ w.invalid_count + Extended.in_flight w ∧
            Extended.in_flight w ≤ 1) :=
  ⟨by decide, by unfold Classic.ValidAssignment; decide, by decide, by decide,
    C14_bounded_overrun_after_stop _ 2 [[0], [1]] 0 [1, 1, 0, 0, 0, 0, 0, 0]
      [1, 1, 1, 0, 0, 1] (by decide) (by unfold Classic.ValidAssignment; decide)⟩

/-- C15: in both engines, for every state, random sequence and cursor, `evaluate_state` on a
state with `is_context` set draws one random number `r` and sleeps `(1 + r % 10) * 1000`
microseconds, where `1 + r % 10` lies between 1 and 10 and each of the ten values is
attained by some `r`; on a state with `is_context` clear it sleeps 10 microseconds and
draws no random number. -/
theorem C15_evaluate_state_delay (rand : RandSeq) (c : Nat) (cst : Classic.RemarkableState)
    (est : Extended.RemarkableState) :
    (cst.is_context ≠ 0 →
      Classic.evaluate_state rand c cst = ((1 + rand c % 10) * 1000, c + 1)) ∧
    (cst.is_context = 0 → Classic.evaluate_state rand c cst = (10, c)) ∧
    (est.is_context ≠ 0 →
      Extended.evaluate_state rand c est = ((1 + rand c % 10) * 1000, c + 1)) ∧
    (est.is_context = 0 → Extended.evaluate_state rand c est = (10, c)) ∧
    (1 ≤ 1 + rand c % 10 ∧ 1 + rand c % 10 ≤ 10) ∧
    (∀ d : Nat, 1 ≤ d → d ≤ 10 →
      ∃ r : Nat, 1 + r % 10 = d ∧
        (cst.is_context ≠ 0 →
          Classic.evaluate_state (fun _ => r) c cst = (d * 1000, c + 1)) ∧
        (est.is_context ≠ 0 →
          Extended.evaluate_state (fun _ => r) c est = (d * 1000, c + 1))) := by
  refine ⟨fun h => by simp [Classic.evaluate_state, h],
    fun h => by simp [Classic.evaluate_state, h],
    fun h => by simp [Extended.evaluate_state, h],
    fun h => by simp [Extended.evaluate_state, h],
    ⟨by omega, by have := Nat.mod_lt (rand c) (by decide : 0 < 10); omega⟩, ?_⟩
  intro d h1 h2
  have hr : 1 + (d - 1) % 10 = d := by
    rw [Nat.mod_eq_of_lt (by omega)]; omega
  refine ⟨d - 1, hr, fun h => ?_, fun h => ?_⟩
  · simp only [Classic.evaluate_state, h, ne_eq, not_false_eq_true, if_true, hr]
  · simp only [Extended.evaluate_state, h, ne_eq, not_false_eq_true, if_true, hr]

/-- C16: `apply_invalidation_classic` and `apply_invalidation_extended` return on every
population of `num_policies` policies with `states_per_policy` states each, and whenever
they return, with the quota taken exactly or as the machine computes it, the population has
the same policies and states in the same places with `num_states`, `is_mandatory`,
`is_context` and `subset` unchanged, every `is_invalid` either unchanged or set to 1, and no
invalid state turned valid.  Each of the four evaluators, run on the population in memory,
returns exactly when the evaluator on the population as a value does, with the same
counters, and leaves the memory equal to the population it was given; on the populations
above all four return, the parallel ones for every valid assignment of the iterations,
every build and every value read from the shared flag. -/
theorem C16_population_frame (cpolicies : List Classic.Policy)
    (epolicies : List Extended.Policy) (num_policies states_per_policy : Nat)
    (inval_rate : ℚ) (target_mode : Int) (rand : RandSeq) (c : Nat)
    (hc : Classic.Uniform cpolicies num_policies states_per_policy)
    (he : Extended.Uniform epolicies num_policies states_per_policy) :
    (∃ r, Classic.apply_invalidation_classic cpolicies num_policies states_per_policy
        inval_rate rand c = some r ∧ Classic.Frame cpolicies r.1) ∧
    (∃ σ, Extended.apply_invalidation_extended epolicies num_policies states_per_policy
        inval_rate target_mode rand c = some σ ∧ Extended.Frame epolicies σ.policies) ∧
    (∀ (policies : List Classic.Policy) (n spp : Nat) (r : List Classic.Policy × Nat),
      Classic.apply_invalidation_classic policies n spp inval_rate rand c = some r →
      Classic.Frame policies r.1) ∧
    (∀ (policies : List Extended.Policy) (n spp : Nat) (σ : Extended.InvalState),
      Extended.apply_invalidation_extended policies n spp inval_rate target_mode rand c =
        some σ → Extended.Frame policies σ.policies) ∧
    (∀ (policies : List Classic.Policy) (n spp : Nat) (r : List Classic.Policy × Nat),
      Classic.Binary64.apply_invalidation_classic policies n spp inval_rate rand c = some r →
      Classic.Frame policies r.1) ∧
    (∀ (policies : List Extended.Policy) (n spp : Nat) (σ : Extended.InvalState),
      Extended.Binary64.apply_invalidation_extended policies n spp inval_rate target_mode
        rand c = some σ → Extended.Frame policies σ.policies) ∧
    (∀ (policies : List Classic.Policy) (n : Nat),
      Classic.evaluate_policies_classic_seq_mem policies n rand c =
        (Classic.evaluate_policies_classic_seq policies n rand c).map
          (fun σ => (policies, σ))) ∧
    (∀ (policies : List Classic.Policy) (n : Nat) (assignment : List (List Nat)),
      Classic.evaluate_policies_classic_par_mem policies n assignment =
        (Classic.evaluate_policies_classic_par policies n assignment).map
          (fun t => (policies, t))) ∧
    (∀ (policies : List Extended.Policy) (n : Nat) (s0 : Int),
      Extended.evaluate_policies_extended_sequential_mem policies n rand c s0 =
        (Extended.evaluate_policies_extended_sequential policies n rand c s0).map
          (fun σ => (policies, σ))) ∧
    (∀ (policies : List Extended.Policy) (n : Nat) (openmp : Bool)
        (reads : Nat → Nat → Nat → Int),
      Extended.evaluate_policies_extended_parallel_mem openmp policies n reads =
        (Extended.evaluate_policies_extended_parallel openmp policies n reads).map
          (fun t => (policies, t))) ∧
    (∃ σ, Classic.evaluate_policies_classic_seq_mem cpolicies num_policies rand c =
        some (cpolicies, σ)) ∧
    (∀ assignment : List (List Nat), Classic.ValidAssignment num_policies assignment →
      ∃ t, Classic.evaluate_policies_classic_par_mem cpolicies num_policies assignment =
        some (cpolicies, t)) ∧
    (∀ s0 : Int, ∃ σ, Extended.evaluate_policies_extended_sequential_mem epolicies
        num_policies rand c s0 = some (epolicies, σ)) ∧
    (∀ (openmp : Bool) (reads : Nat → Nat → Nat → Int),
      ∃ t, Extended.evaluate_policies_extended_parallel_mem openmp epolicies num_policies
        reads = some (epolicies, t)) := by
  have hcl : ∀ (policies : List Classic.Policy) (n spp : Nat) (r : List Classic.Policy × Nat),
      Classic.apply_invalidation_classic policies n spp inval_rate rand c = some r →
      Classic.Frame policies r.1 := by
    intro policies n spp r h
    exact Classic.classic_invalidation_loop_frame rand n spp _ policies c r h
  have hex : ∀ (policies : List Extended.Policy) (n spp : Nat) (σ : Extended.InvalState),
      Extended.apply_invalidation_extended policies n spp inval_rate target_mode rand c =
        some σ → Extended.Frame policies σ.policies := by
    intro policies n spp σ h
    exact Extended.invalidation_loop_frame rand n _ target_mode _ _ σ h
  have hclb : ∀ (policies : List Classic.Policy) (n spp : Nat)
      (r : List Classic.Policy × Nat),
      Classic.Binary64.apply_invalidation_classic policies n spp inval_rate rand c = some r →
      Classic.Frame policies r.1 := by
    intro policies n spp r h
    unfold Classic.Binary64.apply_invalidation_classic at h
    cases hm : c_int_mul n spp with
    | none => rw [hm] at h; exact absurd h (by simp)
    | some total =>
      simp only [hm] at h
      cases hq : c_double_to_int_checked (c_double_mul total inval_rate) with
      | none => rw [hq] at h; exact absurd h (by simp)
      | some q =>
        simp only [hq] at h
        exact Classic.classic_invalidation_loop_frame rand n spp _ policies c r h
  have hexb : ∀ (policies : List Extended.Policy) (n spp : Nat) (σ : Extended.InvalState),
      Extended.Binary64.apply_invalidation_extended policies n spp inval_rate target_mode
        rand c = some σ → Extended.Frame policies σ.policies := by
    intro policies n spp σ h
    unfold Extended.Binary64.apply_invalidation_extended at h
    cases hm : c_int_mul n spp with
    | none => rw [hm] at h; exact absurd h (by simp)
    | some total =>
      simp only [hm] at h
      cases hq : c_double_to_int_checked (c_double_mul total inval_rate) with
      | none => rw [hq] at h; exact absurd h (by simp)
      | some q =>
        simp only [hq] at h
        by_cases hle : q ≤ 0
        · rw [if_pos hle] at h
          have := Option.some.inj h
          subst this
          exact Extended.frame_self policies
        · rw [if_neg hle] at h
          cases hb : c_int_mul total 10 with
          | none => rw [hb] at h; exact absurd h (by simp)
          | some bound =>
            simp only [hb] at h
            exact Extended.invalidation_loop_frame rand n _ target_mode _ _ σ h
  have hseqc : ∀ (policies : List Classic.Policy) (n : Nat),
      Classic.evaluate_policies_classic_seq_mem policies n rand c =
        (Classic.evaluate_policies_classic_seq policies n rand c).map
          (fun σ => (policies, σ)) :=
    fun policies n => Classic.classic_seq_outer_mem_eq rand policies n 0 _
  have hparc : ∀ (policies : List Classic.Policy) (n : Nat) (assignment : List (List Nat)),
      Classic.evaluate_policies_classic_par_mem policies n assignment =
        (Classic.evaluate_policies_classic_par policies n assignment).map
          (fun t => (policies, t)) :=
    fun policies n assignment => Classic.classic_par_threads_mem_eq policies assignment
  have hseqe : ∀ (policies : List Extended.Policy) (n : Nat) (s0 : Int),
      Extended.evaluate_policies_extended_sequential_mem policies n rand c s0 =
        (Extended.evaluate_policies_extended_sequential policies n rand c s0).map
          (fun σ => (policies, σ)) :=
    fun policies n _ => Extended.extended_seq_outer_mem_eq rand policies n 0 _
  have hpare : ∀ (policies : List Extended.Policy) (n : Nat) (openmp : Bool)
      (reads : Nat → Nat → Nat → Int),
      Extended.evaluate_policies_extended_parallel_mem openmp policies n reads =
        (Extended.evaluate_policies_extended_parallel openmp policies n reads).map
          (fun t => (policies, t)) := by
    intro policies n openmp reads
    unfold Extended.evaluate_policies_extended_parallel_mem
      Extended.evaluate_policies_extended_parallel
    cases openmp with
    | false => rfl
    | true =>
      simp only [if_true]
      exact Extended.extended_par_outer_mem_eq reads policies n 0
  obtain ⟨policies1, e1, -⟩ := Classic.classic_apply_invalidation_spec rand num_policies
    states_per_policy inval_rate cpolicies c hc
  obtain ⟨σ, e2, -⟩ := Extended.apply_invalidation_extended_returns rand num_policies
    states_per_policy inval_rate target_mode c epolicies he
  have hwfc := Classic.classic_uniform_wellFormed hc
  have hwfe := Extended.uniform_wellFormed he
  refine ⟨⟨_, e1, hcl _ _ _ _ e1⟩, ⟨σ, e2, hex _ _ _ _ e2⟩, hcl, hex, hclb, hexb, hseqc, hparc,
    hseqe, hpare, ?_, ?_, ?_, ?_⟩
  · obtain ⟨τ, f1, -⟩ := Classic.classic_seq_run cpolicies num_policies rand c hwfc
    exact ⟨τ, by rw [hseqc, f1]; rfl⟩
  · intro assignment ha
    refine ⟨Classic.invalid_states cpolicies, ?_⟩
    rw [hparc, Classic.classic_par_spec cpolicies num_policies assignment hwfc ha]
    rfl
  · intro s0
    obtain ⟨τ, f1, -⟩ := Extended.extended_seq_run epolicies num_policies rand c s0 hwfe
    exact ⟨τ, by rw [hseqe, f1]; rfl⟩
  · intro openmp reads
    cases openmp with
    | false => exact ⟨0, rfl⟩
    | true =>
      obtain ⟨t, ht⟩ := Extended.extended_par_outer_returns epolicies reads epolicies [] rfl
        hwfe.2
      rw [hwfe.1] at ht
      simp only [List.length_nil] at ht
      refine ⟨t, ?_⟩
      rw [hpare]
      simp only [Extended.evaluate_policies_extended_parallel, if_true, ht, Option.map_some']

/-- C16, on the populations of 2 policies with 2 states made by the two set-up functions,
with invalRate = 1/2: the invalidation step keeps the frame, and the sequential evaluators
run on the memory return it as it was, also when states are invalid. -/
theorem C16_population_frame_witness :
    Classic.Uniform (Classic.init_classic_policies 2 2 (fun n => n) 0).1 2 2 ∧
    Extended.Uniform (Extended.init_extended_policies 2 2 1 (fun n => n) 0).1 2 2 ∧
    (∃ r, Classic.apply_invalidation_classic (Classic.init_classic_policies 2 2
        (fun n => n) 0).1 2 2 (1 / 2) (fun n => n) 4 = some r ∧
      Classic.Frame (Classic.init_classic_policies 2 2 (fun n => n) 0).1 r.1) ∧
    (∃ σ, Extended.apply_invalidation_extended (Extended.init_extended_policies 2 2 1
        (fun n => n) 0).1 2 2 (1 / 2) 1 (fun n => n) 4 = some σ ∧
      Extended.Frame (Extended.init_extended_policies 2 2 1 (fun n => n) 0).1 σ.policies) ∧
    (∃ σ, Classic.evaluate_policies_classic_seq_mem
        (Classic.init_classic_policies 2 2 (fun n => n) 0).1 2 (fun n => n) 4 =
      some ((Classic.init_classic_policies 2 2 (fun n => n) 0).1, σ)) ∧
    (Extended.evaluate_policies_extended_sequential_mem
        [{ num_states := 2,
           states := [{ is_context := 0, is_invalid := 0, subset := .SUBSET_CPU },
                      { is_context := 1, is_invalid := 1, subset := .SUBSET_MEMORY }],
           is_mandatory := 1 },
         { num_states := 1,
           states := [{ is_context := 0, is_invalid := 1, subset := .SUBSET_NETWORK }],
           is_mandatory := 0 }] 2 (fun n => n) 0 0).map
        (fun r => (r.1, r.2.invalid_count, r.2.trace)) =
      some ([{ num_states := 2,
               states := [{ is_context := 0, is_invalid := 0, subset := .SUBSET_CPU },
                          { is_context := 1, is_invalid := 1, subset := .SUBSET_MEMORY }],
               is_mandatory := 1 },
             { num_states := 1,
               states := [{ is_context := 0, is_invalid := 1, subset := .SUBSET_NETWORK }],
               is_mandatory := 0 }], 1, [(0, 0), (0, 1)]) :=
  ⟨(Classic.init_classic_outer_spec (fun n => n) 2 2 0).1,
    Extended.init_extended_policies_uniform 2 2 1 (fun n => n) 0,
    (C16_population_frame _ _ 2 2 (1 / 2) 1 (fun n => n) 4
      (Classic.init_classic_outer_spec (fun n => n) 2 2 0).1
      (Extended.init_extended_policies_uniform 2 2 1 (fun n => n) 0)).1,
    (C16_population_frame _ _ 2 2 (1 / 2) 1 (fun n => n) 4
      (Classic.init_classic_outer_spec (fun n => n) 2 2 0).1
      (Extended.init_extended_policies_uniform 2 2 1 (fun n => n) 0)).2.1,
    (C16_population_frame _ _ 2 2 (1 / 2) 1 (fun n => n) 4
      (Classic.init_classic_outer_spec (fun n => n) 2 2 0).1
      (Extended.init_extended_policies_uniform 2 2 1 (fun n => n) 0)).2.2.2.2.2.2.2.2.2.2.1,
    by decide⟩

/-- C17: in both engines the population that `main` evaluates is made from the sizes, the
rates, the target mode and the random sequence of the seed alone, whatever the mode and the
schedule; in `Seq` mode `main` returns, and InvalidCount is the count of the sequential pass
on that population, the same for every schedule argument and every behaviour of the OpenMP
runtime; and in the extended engine the policy index of the early stop is the policy of the
first invalid state of a mandatory policy in that population. -/
theorem C17_seq_mode_deterministic (num_policies states_per_policy : Nat)
    (inval_rate mandatory_ratio : ℚ) (target_mode : Int) (rand : RandSeq)
    (mode schedule_str schedule_str1 : String) (assignment assignment1 : List (List Nat))
    (openmp openmp1 : Bool) (reads reads1 : Nat → Nat → Nat → Int) :
    Classic.main num_policies states_per_policy inval_rate mode schedule_str rand assignment =
      (Classic.invalidated_population num_policies states_per_policy inval_rate rand).bind
        (fun r =>
          if mode = "Seq" then
            (Classic.evaluate_policies_classic_seq r.1 num_policies rand r.2).map
              (fun σ => σ.invalid_count)
          else Classic.evaluate_policies_classic_par r.1 num_policies assignment) ∧
    Classic.main num_policies states_per_policy inval_rate "Seq" schedule_str rand assignment =
      (Classic.seq_pass num_policies states_per_policy inval_rate rand).map
        (fun σ => σ.invalid_count) ∧
    Classic.main num_policies states_per_policy inval_rate "Seq" schedule_str1 rand
        assignment1 =
      Classic.main num_policies states_per_policy inval_rate "Seq" schedule_str rand
        assignment ∧
    (∃ n, Classic.main num_policies states_per_policy inval_rate "Seq" schedule_str rand
      assignment = some n) ∧
    Extended.main num_policies states_per_policy inval_rate mandatory_ratio target_mode mode
        schedule_str rand openmp reads =
      (Extended.invalidated_population num_policies states_per_policy inval_rate
        mandatory_ratio target_mode rand).bind
        (fun r =>
          if mode = "Seq" then
            (Extended.evaluate_policies_extended_sequential r.policies num_policies rand
              r.rand_calls 0).map (fun σ => σ.invalid_count)
          else Extended.evaluate_policies_extended_parallel openmp r.policies num_policies
            reads) ∧
    Extended.main num_policies states_per_policy inval_rate mandatory_ratio target_mode "Seq"
        schedule_str rand openmp reads =
      (Extended.seq_pass num_policies states_per_policy inval_rate mandatory_ratio
        target_mode rand).map (fun σ => σ.invalid_count) ∧
    Extended.main num_policies states_per_policy inval_rate mandatory_ratio target_mode "Seq"
        schedule_str1 rand openmp1 reads1 =
      Extended.main num_policies states_per_policy inval_rate mandatory_ratio target_mode "Seq"
        schedule_str rand openmp reads ∧
    (∃ r σ, Extended.invalidated_population num_policies states_per_policy inval_rate
        mandatory_ratio target_mode rand = some r ∧
      Extended.seq_pass num_policies states_per_policy inval_rate mandatory_ratio
        target_mode rand = some σ ∧
      Extended.main num_policies states_per_policy inval_rate mandatory_ratio target_mode
        "Seq" schedule_str rand openmp reads = some σ.invalid_count ∧
      Extended.early_stop_index σ =
        ((Extended.all_cells r.policies).find? (Extended.stops r.policies)).map
          (fun cell => cell.1)) := by
  -- the classic engine
  obtain ⟨hu, -, -⟩ := Classic.init_classic_outer_spec rand states_per_policy num_policies 0
  obtain ⟨policies1, e1, e2, -⟩ := Classic.classic_apply_invalidation_spec rand num_policies
    states_per_policy inval_rate _
    (Classic.init_classic_outer rand states_per_policy num_policies 0).2 hu
  obtain ⟨σc, f1, -, -⟩ := Classic.classic_seq_run policies1 num_policies rand
    ((Classic.init_classic_outer rand states_per_policy num_policies 0).2 +
      2 * (c_double_to_int (((num_policies * states_per_policy : Nat) : ℚ) * inval_rate)).toNat)
    (Classic.classic_uniform_wellFormed e2)
  have hcpop : Classic.invalidated_population num_policies states_per_policy inval_rate rand =
      some (policies1, (Classic.init_classic_outer rand states_per_policy num_policies 0).2 +
        2 * (c_double_to_int
          (((num_policies * states_per_policy : Nat) : ℚ) * inval_rate)).toNat) := e1
  have hcmain : ∀ (s : String) (a : List (List Nat)),
      Classic.main num_policies states_per_policy inval_rate "Seq" s rand a =
        some σc.invalid_count := by
    intro s a
    unfold Classic.main Classic.init_classic_policies
    simp only [e1, if_true, f1, Option.map_some']
  have hcpass : Classic.seq_pass num_policies states_per_policy inval_rate rand = some σc := by
    unfold Classic.seq_pass
    simp only [hcpop, f1]
  -- the extended engine
  have hue := Extended.init_extended_policies_uniform num_policies states_per_policy
    mandatory_ratio rand 0
  obtain ⟨r, g1, g2⟩ := Extended.apply_invalidation_extended_returns rand num_policies
    states_per_policy inval_rate target_mode
    (Extended.init_extended_policies num_policies states_per_policy mandatory_ratio rand 0).2
    _ hue
  obtain ⟨σe, k1, k2, -, k4, -⟩ := Extended.extended_seq_run r.policies num_policies rand
    r.rand_calls 0 (Extended.uniform_wellFormed g2)
  have hepop : Extended.invalidated_population num_policies states_per_policy inval_rate
      mandatory_ratio target_mode rand = some r := g1
  have hemain : ∀ (s : String) (o : Bool) (rd : Nat → Nat → Nat → Int),
      Extended.main num_policies states_per_policy inval_rate mandatory_ratio target_mode
        "Seq" s rand o rd = some σe.invalid_count := by
    intro s o rd
    unfold Extended.main
    simp only [g1, if_true, k1, Option.map_some']
  have hepass : Extended.seq_pass num_policies states_per_policy inval_rate mandatory_ratio
      target_mode rand = some σe := by
    unfold Extended.seq_pass
    simp only [hepop, k1]
  refine ⟨?_, ?_, ?_, ⟨_, hcmain _ _⟩, ?_, ?_, ?_, ⟨r, σe, hepop, hepass, hemain _ _ _, ?_⟩⟩
  · rw [hcpop]
    unfold Classic.main Classic.init_classic_policies
    simp only [e1, Option.some_bind]
  · rw [hcmain, hcpass]; rfl
  · rw [hcmain, hcmain]
  · rw [hepop]
    unfold Extended.main
    simp only [g1, Option.some_bind]
  · rw [hemain, hepass]; rfl
  · rw [hemain, hemain]
  · unfold Extended.early_stop_index
    rw [k4, k2]
    by_cases hany : (Extended.all_cells r.policies).any (Extended.stops r.policies) = true
    · rw [if_pos hany, if_pos (by decide), getLast?_take_until _ _ hany]
    · have hany1 : (Extended.all_cells r.policies).any (Extended.stops r.policies) = false := by
        simpa using hany
      rw [if_neg hany, if_neg (by decide), find?_eq_none_of_any _ _ hany1]
      rfl

/-- C18: on populations of `num_policies` policies with `states_per_policy` states each,
both invalidation functions return, so no remainder by zero and no access outside an array
happens.  With numPolicies >= 1 and statesPerPolicy >= 1, in every pass of either loop the
policy index `rand() % num_policies` is below numPolicies, the state index is below
statesPerPolicy, both accesses hit an element and the pass completes.  With numPolicies = 0
or statesPerPolicy = 0 the quota is 0 and both functions return at once, having drawn no
random number and made no attempt. -/
theorem C18_invalidation_indices_in_range (cpolicies : List Classic.Policy)
    (epolicies : List Extended.Policy) (num_policies states_per_policy : Nat)
    (inval_rate : ℚ) (target_mode : Int) (rand : RandSeq) (c : Nat)
    (hc : Classic.Uniform cpolicies num_policies states_per_policy)
    (he : Extended.Uniform epolicies num_policies states_per_policy) :
    (∃ r, Classic.apply_invalidation_classic cpolicies num_policies states_per_policy
      inval_rate rand c = some r) ∧
    (∃ σ, Extended.apply_invalidation_extended epolicies num_policies states_per_policy
      inval_rate target_mode rand c = some σ) ∧
    (1 ≤ num_policies → 1 ≤ states_per_policy →
      ∀ (policies : List Classic.Policy) (c1 : Nat),
        Classic.Uniform policies num_policies states_per_policy →
        rand c1 % num_policies < num_policies ∧
        rand (c1 + 1) % states_per_policy < states_per_policy ∧
        ∃ policies1, Classic.store_invalid policies (rand c1 % num_policies)
          (rand (c1 + 1) % states_per_policy) = some policies1) ∧
    (1 ≤ num_policies → 1 ≤ states_per_policy →
      ∀ σ : Extended.InvalState,
        Extended.Uniform σ.policies num_policies states_per_policy →
        rand σ.rand_calls % num_policies < num_policies ∧
        (∃ p st, σ.policies[rand σ.rand_calls % num_policies]? = some p ∧
          p.num_states = states_per_policy ∧
          rand (σ.rand_calls + 1) % p.num_states < states_per_policy ∧
          p.states[rand (σ.rand_calls + 1) % p.num_states]? = some st) ∧
        ∃ σ1, Extended.invalidation_body rand num_policies target_mode σ = some σ1) ∧
    ((num_policies = 0 ∨ states_per_policy = 0) →
      c_double_to_int (((num_policies * states_per_policy : Nat) : ℚ) * inval_rate) = 0 ∧
      Classic.apply_invalidation_classic cpolicies num_policies states_per_policy
        inval_rate rand c = some (cpolicies, c) ∧
      Extended.apply_invalidation_extended epolicies num_policies states_per_policy
        inval_rate target_mode rand c =
        some { policies := epolicies, to_invalidate := 0, attempts := 0, rand_calls := c }) := by
  obtain ⟨policies1, e1, -⟩ := Classic.classic_apply_invalidation_spec rand num_policies
    states_per_policy inval_rate cpolicies c hc
  obtain ⟨σ, e2, -⟩ := Extended.apply_invalidation_extended_returns rand num_policies
    states_per_policy inval_rate target_mode c epolicies he
  refine ⟨⟨_, e1⟩, ⟨σ, e2⟩, ?_, ?_, ?_⟩
  · intro hnp hspp policies c1 hu
    have hlt : rand c1 % num_policies < policies.length := by
      rw [hu.1]; exact Nat.mod_lt _ hnp
    have hp : policies[rand c1 % num_policies]? = some policies[rand c1 % num_policies] :=
      List.getElem?_eq_getElem hlt
    have hl := (hu.2 _ (mem_of_getElem? hp)).2
    have hlt2 : rand (c1 + 1) % states_per_policy <
        (policies[rand c1 % num_policies]).states.length := by
      rw [hl]; exact Nat.mod_lt _ hspp
    exact ⟨Nat.mod_lt _ hnp, Nat.mod_lt _ hspp, _,
      Classic.classic_store_invalid_some hp (List.getElem?_eq_getElem hlt2)⟩
  · intro hnp hspp τ hu
    have hlt : rand τ.rand_calls % num_policies < τ.policies.length := by
      rw [hu.1]; exact Nat.mod_lt _ hnp
    have hp := List.getElem?_eq_getElem hlt
    obtain ⟨hn, hl⟩ := hu.2 _ (mem_of_getElem? hp)
    have hlt2 : rand (τ.rand_calls + 1) % (τ.policies[rand τ.rand_calls % num_policies]).num_states
        < (τ.policies[rand τ.rand_calls % num_policies]).states.length := by
      rw [hl, hn]; exact Nat.mod_lt _ hspp
    refine ⟨Nat.mod_lt _ hnp, ⟨_, _, hp, hn, ?_, List.getElem?_eq_getElem hlt2⟩,
      Extended.invalidation_body_some rand target_mode hu hnp hspp⟩
    rw [hn]; exact Nat.mod_lt _ hspp
  · intro hzero
    have h0 : num_policies * states_per_policy = 0 := by
      rcases hzero with h | h
      · rw [h, Nat.zero_mul]
      · rw [h, Nat.mul_zero]
    have hq : c_double_to_int (((num_policies * states_per_policy : Nat) : ℚ) * inval_rate) =
        0 := by
      rw [h0, c_double_to_int_zero_mul]
    refine ⟨hq, ?_, ?_⟩
    · unfold Classic.apply_invalidation_classic
      dsimp only
      rw [hq]
      rfl
    · unfold Extended.apply_invalidation_extended Extended.invalidation_start
      dsimp only
      rw [hq]
      simp [Extended.invalidation_loop]

/-- C18, on populations of 3 policies with 2 states and on empty populations. -/
theorem C18_invalidation_indices_in_range_witness :
    Classic.Uniform (Classic.init_classic_policies 3 2 (fun n => n) 0).1 3 2 ∧
    Extended.Uniform (Extended.init_extended_policies 3 2 1 (fun n => n) 0).1 3 2 ∧
    (∃ r, Classic.apply_invalidation_classic (Classic.init_classic_policies 3 2
      (fun n => n) 0).1 3 2 (1 / 2) (fun n => n) 6 = some r) ∧
    (∃ σ, Extended.apply_invalidation_extended (Extended.init_extended_policies 3 2 1
      (fun n => n) 0).1 3 2 (1 / 2) 1 (fun n => n) 12 = some σ) ∧
    Classic.apply_invalidation_classic [] 0 5 (1 / 2) (fun n => n) 0 = some ([], 0) :=
  ⟨(Classic.init_classic_outer_spec (fun n => n) 2 3 0).1,
    Extended.init_extended_policies_uniform 3 2 1 (fun n => n) 0,
    (C18_invalidation_indices_in_range _ _ 3 2 (1 / 2) 1 (fun n => n) 6
      (Classic.init_classic_outer_spec (fun n => n) 2 3 0).1
      (Extended.init_extended_policies_uniform 3 2 1 (fun n => n) 0)).1,
    (C18_invalidation_indices_in_range _ _ 3 2 (1 / 2) 1 (fun n => n) 12
      (Classic.init_classic_outer_spec (fun n => n) 2 3 0).1
      (Extended.init_extended_policies_uniform 3 2 1 (fun n => n) 0)).2.1,
    ((C18_invalidation_indices_in_range [] [] 0 5 (1 / 2) 1 (fun n => n) 0
      ⟨rfl, fun _ h => absurd h (List.not_mem_nil _)⟩
      ⟨rfl, fun _ h => absurd h (List.not_mem_nil _)⟩).2.2.2.2 (Or.inl rfl)).2.1⟩

/-- C19: in `evaluate_policies_extended_parallel` built with OpenMP, on every well-formed
population.  Whatever the reads of the shared flag return, the inner loop of every policy
returns, with a set `stop_policy` it stops at once, a mandatory policy adds at most 1 and a
policy that is not mandatory at most its number of invalid states; the function returns and
InvalidCount is at most the number of invalid states in policies that are not mandatory
plus the number of mandatory policies with an invalid state.  With the iterations dealt
out to the threads in any way, some interleaving lets all threads run all their iterations,
and under every interleaving a complete run has InvalidCount within the same bound, and has
InvalidCount = 0 only on a population without invalid state. -/
theorem C19_parallel_count_bounds (policies : List Extended.Policy) (num_policies : Nat)
    (hwf : Extended.WellFormed policies num_policies) :
    (∀ (reads : Nat → Nat → Int) (p : Extended.Policy), p ∈ policies →
      ∃ r, Extended.extended_par_inner p reads p.num_states 0 0 0 = some r ∧
        (p.is_mandatory ≠ 0 → r ≤ 1) ∧
        (p.is_mandatory = 0 →
          r ≤ p.states.countP (fun st => decide (st.is_invalid ≠ 0))) ∧
        r ≤ Extended.max_contribution p) ∧
    (∀ (reads : Nat → Nat → Int) (p : Extended.Policy) (k s cnt : Nat) (stop_policy : Int),
      stop_policy ≠ 0 → Extended.extended_par_inner p reads k s stop_policy cnt = some cnt) ∧
    (∀ reads : Nat → Nat → Nat → Int,
      ∃ t, Extended.evaluate_policies_extended_parallel true policies num_policies reads =
          some t ∧
        t ≤ Extended.invalid_states_non_mandatory policies +
          Extended.mandatory_with_invalid policies) ∧
    (∀ (assignment : List (List Nat)) (s0 : Int),
      Classic.ValidAssignment num_policies assignment →
      (∃ sched σ, Extended.par_run policies sched (Extended.par_init assignment s0) = some σ ∧
        Extended.par_finished σ) ∧
      ∀ (sched : List Nat) (σ : Extended.ParState),
        Extended.par_run policies sched (Extended.par_init assignment s0) = some σ →
        Extended.par_finished σ →
          Extended.par_result σ ≤ Extended.invalid_states_non_mandatory policies +
            Extended.mandatory_with_invalid policies ∧
          (Extended.par_result σ = 0 → Extended.invalid_states policies = 0)) := by
  refine ⟨?_, ?_, ?_, ?_⟩
  · intro reads p hp
    obtain ⟨r, hr⟩ := Extended.extended_par_inner_returns p reads p.states [] 0 0 rfl
    rw [hwf.2 p hp] at hr
    simp only [List.length_nil] at hr
    obtain ⟨-, a2, a3⟩ := Extended.extended_par_inner_le p reads _ 0 0 0 r hr
    rw [List.drop_zero, Nat.zero_add] at a2
    refine ⟨r, hr, fun hm => ?_, fun _ => a2,
      Extended.extended_par_inner_le_max p reads _ r hr⟩
    have := (a3 hm).2
    omega
  · intro reads p k s cnt sp hsp
    cases k with
    | zero => rfl
    | succ k => simp only [Extended.extended_par_inner, if_pos hsp]
  · intro reads
    obtain ⟨t, ht⟩ := Extended.extended_par_outer_returns policies reads policies [] rfl hwf.2
    rw [hwf.1] at ht
    simp only [List.length_nil] at ht
    refine ⟨t, by simp only [Extended.evaluate_policies_extended_parallel, if_true, ht], ?_⟩
    have := Extended.extended_par_outer_le policies reads _ 0 t ht
    rw [List.drop_zero, Extended.sum_max_contribution] at this
    exact this
  · intro assignment s0 ha
    refine ⟨Extended.par_run_completes hwf _ _
      (Extended.par_init_safe policies num_policies assignment s0
        (Extended.validAssignment_in_range ha)) (le_refl _), ?_⟩
    intro sched σ h hfin
    exact ⟨Extended.par_run_le hwf assignment s0 ha sched σ h hfin,
      fun hres => Extended.par_run_zero hwf assignment s0 ha sched σ h hfin hres⟩

/-- C19, on a population with a mandatory policy that has one invalid state and a policy
that is not mandatory with two: when every read of the flag returns 0 the count is 3, the
bound; and on a population without invalid state a complete run of two threads counts 0. -/
theorem C19_parallel_count_bounds_witness :
    Extended.WellFormed
      [{ num_states := 2,
         states := [{ is_context := 0, is_invalid := 0, subset := .SUBSET_CPU },
                    { is_context := 0, is_invalid := 1, subset := .SUBSET_MEMORY }],
         is_mandatory := 1 },
       { num_states := 2,
         states := [{ is_context := 0, is_invalid := 1, subset := .SUBSET_CPU },
                    { is_context := 0, is_invalid := 1, subset := .SUBSET_NETWORK }],
         is_mandatory := 0 }] 2 ∧
    (∃ t, Extended.evaluate_policies_extended_parallel true
        [{ num_states := 2,
           states := [{ is_context := 0, is_invalid := 0, subset := .SUBSET_CPU },
                      { is_context := 0, is_invalid := 1, subset := .SUBSET_MEMORY }],
           is_mandatory := 1 },
         { num_states := 2,
           states := [{ is_context := 0, is_invalid := 1, subset := .SUBSET_CPU },
                      { is_context := 0, is_invalid := 1, subset := .SUBSET_NETWORK }],
           is_mandatory := 0 }] 2 (fun _ _ _ => 0) = some t ∧
      t ≤ Extended.invalid_states_non_mandatory
          [{ num_states := 2,
             states := [{ is_context := 0, is_invalid := 0, subset := .SUBSET_CPU },
                        { is_context := 0, is_invalid := 1, subset := .SUBSET_MEMORY }],
             is_mandatory := 1 },
           { num_states := 2,
             states := [{ is_context := 0, is_invalid := 1, subset := .SUBSET_CPU },
                        { is_context := 0, is_invalid := 1, subset := .SUBSET_NETWORK }],
             is_mandatory := 0 }] +
        Extended.mandatory_with_invalid
          [{ num_states := 2,
             states := [{ is_context := 0, is_invalid := 0, subset := .SUBSET_CPU },
                        { is_context := 0, is_invalid := 1, subset := .SUBSET_MEMORY }],
             is_mandatory := 1 },
           { num_states := 2,
             states := [{ is_context := 0, is_invalid := 1, subset := .SUBSET_CPU },
                        { is_context := 0, is_invalid := 1, subset := .SUBSET_NETWORK }],
             is_mandatory := 0 }]) ∧
    Extended.evaluate_policies_extended_parallel true
      [{ num_states := 2,
         states := [{ is_context := 0, is_invalid := 0, subset := .SUBSET_CPU },
                    { is_context := 0, is_invalid := 1, subset := .SUBSET_MEMORY }],
         is_mandatory := 1 },
       { num_states := 2,
         states := [{ is_context := 0, is_invalid := 1, subset := .SUBSET_CPU },
                    { is_context := 0, is_invalid := 1, subset := .SUBSET_NETWORK }],
         is_mandatory := 0 }] 2 (fun _ _ _ => 0) = some 3 ∧
    (Extended.par_run
      [{ num_states := 2,
         states := [{ is_context := 0, is_invalid := 0, subset := .SUBSET_CPU },
                    { is_context := 1, is_invalid := 0, subset := .SUBSET_MEMORY }],
         is_mandatory := 1 },
       { num_states := 1,
         states := [{ is_context := 0, is_invalid := 0, subset := .SUBSET_NETWORK }],
         is_mandatory := 0 }] [0, 0, 0, 1, 1, 1, 0, 0, 0, 1, 1, 0, 0]
      (Extended.par_init [[0], [1]] 0)).map
        (fun σ => (decide (Extended.par_finished σ), Extended.par_result σ)) =
        some (true, 0) ∧
    Extended.invalid_states
      [{ num_states := 2,
         states := [{ is_context := 0, is_invalid := 0, subset := .SUBSET_CPU },
                    { is_context := 1, is_invalid := 0, subset := .SUBSET_MEMORY }],
         is_mandatory := 1 },
       { num_states := 1,
         states := [{ is_context := 0, is_invalid := 0, subset := .SUBSET_NETWORK }],
         is_mandatory := 0 }] = 0 :=
  ⟨by decide,
    (C19_parallel_count_bounds _ 2 (by decide)).2.2.1 (fun _ _ _ => 0),
    by decide, by decide,
    (((C19_parallel_count_bounds _ 2 (by decide)).2.2.2 [[0], [1]] 0
      (by unfold Classic.ValidAssignment; decide)).2
      [0, 0, 0, 1, 1, 1, 0, 0, 0, 1, 1, 0, 0]
      { stop_all := 0,
        workers := [{ finished := [0], todo := [], s := 0, stop_policy := 0,
                      pc := Extended.ParPc.loop_test, invalid_count := 0,
                      evaluated := [(0, 0), (0, 1)] },
                    { finished := [1], todo := [], s := 0, stop_policy := 0,
                      pc := Extended.ParPc.loop_test, invalid_count := 0,
                      evaluated := [(1, 0)] }],
        stop_writes := 0 }
      (by decide) (by decide)).2 (by decide)⟩

/-- C20: built without OpenMP, `evaluate_policies_extended_parallel` returns 0 on every
population, well formed or not, so it reads no state; `evaluate_policies_classic_par` in that
build, where the pragma is ignored and one thread runs all iterations in order, returns the
value of `evaluate_policies_classic_seq`; and the extended `main` in any mode other than
`Seq` reports InvalidCount = 0 whatever was invalidated. -/
theorem C20_no_openmp_build (epolicies : List Extended.Policy) (cpolicies : List Classic.Policy)
    (num_policies : Nat) (reads : Nat → Nat → Nat → Int) (rand : RandSeq) (c : Nat)
    (hwf : Classic.WellFormed cpolicies num_policies) :
    Extended.evaluate_policies_extended_parallel false epolicies num_policies reads = some 0 ∧
    Classic.evaluate_policies_classic_par cpolicies num_policies [List.range num_policies] =
      (Classic.evaluate_policies_classic_seq cpolicies num_policies rand c).map
        (fun σ => σ.invalid_count) ∧
    (∀ (n spp : Nat) (inval_rate mandatory_ratio : ℚ) (target_mode : Int)
      (mode schedule_str : String) (rnd : RandSeq), mode ≠ "Seq" →
      Extended.main n spp inval_rate mandatory_ratio target_mode mode schedule_str rnd false
        reads = some 0) := by
  refine ⟨rfl, ?_, ?_⟩
  · obtain ⟨σ, e1, e2, -⟩ := Classic.classic_seq_run cpolicies num_policies rand c hwf
    have ha : Classic.ValidAssignment num_policies [List.range num_policies] := by
      unfold Classic.ValidAssignment
      simp
    rw [Classic.classic_par_spec cpolicies num_policies _ hwf ha, e1, Option.map_some', e2]
  · intro n spp inval_rate mandatory_ratio target_mode mode schedule_str rnd hmode
    obtain ⟨σ, e, -⟩ := Extended.apply_invalidation_extended_returns rnd n spp inval_rate
      target_mode (Extended.init_extended_policies n spp mandatory_ratio rnd 0).2 _
      (Extended.init_extended_policies_uniform n spp mandatory_ratio rnd 0)
    unfold Extended.main
    simp only [e, if_neg hmode]
    rfl

/-- C20, on two policies of two states with invalRate = 1.0 and no mandatory policy: the
sequential evaluation counts 4 invalid states, the evaluation in `Par` mode of the build
without OpenMP reports 0. -/
theorem C20_no_openmp_build_witness :
    Classic.WellFormed (Classic.init_classic_policies 2 2 (fun n => n) 0).1 2 ∧
    Extended.main 2 2 1 0 0 "Seq" "static" (fun n => (n * 7 + 3) % 11) false
      (fun _ _ _ => 0) = some 4 ∧
    Extended.main 2 2 1 0 0 "Par" "static" (fun n => (n * 7 + 3) % 11) false
      (fun _ _ _ => 0) = some 0 :=
  ⟨by decide, by decide!,
    (C20_no_openmp_build [] (Classic.init_classic_policies 2 2 (fun n => n) 0).1 2
      (fun _ _ _ => 0) (fun n => n) 0 (by decide)).2.2 2 2 1 0 0 "Par" "static"
      (fun n => (n * 7 + 3) % 11) (by decide)⟩
